import Mathlib

/-!
Verification development for the `keyboard_layout_emulation` Blender add-on.

The Python modules `keyboard_layout.py`, `preferences.py` and `keymap_patch.py`
are shallowly embedded below.  Python dicts are modelled as insertion-ordered
association lists (`AList`) with unique keys; Python sets of strings are
modelled as duplicate-free lists built by `sadd`; in-place mutation of keymap
items is modelled by functional update at a list position.
-/

set_option maxHeartbeats 1000000

namespace KLE

/-! ### Association-list model of Python dicts -/

abbrev AList (α : Type) := List (String × α)

/-- Lookup (`d.get(key)` / `d[key]`), first matching entry. -/
def dget {α : Type} : AList α → String → Option α
  | [], _ => none
  | (k, v) :: rest, key => if k = key then some v else dget rest key

/-- Lookup with default (`d.get(key, dflt)`). -/
def dgetD {α : Type} (d : AList α) (key : String) (dflt : α) : α :=
  (dget d key).getD dflt

/-- Key membership (`key in d`). -/
def dmem {α : Type} (d : AList α) (key : String) : Bool :=
  (dget d key).isSome

/-- The keys of a dict, in insertion order. -/
def dkeys {α : Type} (d : AList α) : List String := d.map Prod.fst

/-- Assignment (`d[key] = v`): replaces the value in place if the key is
present, appends a fresh entry otherwise (CPython dict semantics). -/
def dset {α : Type} : AList α → String → α → AList α
  | [], key, v => [(key, v)]
  | (k, w) :: rest, key, v =>
    if k = key then (k, v) :: rest else (k, w) :: dset rest key v

/-- `d.update(u)`: sequential assignment of all entries of `u` into `d`. -/
def dupdate {α : Type} (d u : AList α) : AList α :=
  u.foldl (fun acc p => dset acc p.1 p.2) d

/-- Identity elision (`{i: o for i, o in d.items() if i != o}`). -/
def dstrip (d : AList String) : AList String :=
  d.filter (fun p => decide (p.1 ≠ p.2))

/-- `set.add` on a duplicate-free list model of a Python set. -/
def sadd (s : List String) (v : String) : List String :=
  if s.contains v then s else s ++ [v]

/-! ### Basic dict lemmas -/

theorem dget_mem {α : Type} {d : AList α} {k : String} {v : α}
    (h : dget d k = some v) : (k, v) ∈ d := by
  induction d with
  | nil => simp [dget] at h
  | cons p rest ih =>
    obtain ⟨a, b⟩ := p
    by_cases hk : a = k
    · subst hk; simp [dget] at h; simp [h]
    · simp [dget, hk] at h
      exact List.mem_cons_of_mem _ (ih h)

theorem mem_dget_nodup {α : Type} {d : AList α} {k : String} {v : α}
    (hm : (k, v) ∈ d) (hn : (dkeys d).Nodup) : dget d k = some v := by
  induction d with
  | nil => simp at hm
  | cons p rest ih =>
    obtain ⟨a, b⟩ := p
    rw [dkeys, List.map_cons, List.nodup_cons] at hn
    rcases List.mem_cons.1 hm with h | h
    · cases h; simp [dget]
    · have hak : ¬ a = k := by
        intro he
        exact hn.1 (by rw [he]; exact List.mem_map_of_mem (a := (k, v)) Prod.fst h)
      simp only [dget]
      rw [if_neg hak]
      exact ih h hn.2

theorem dget_none_of_not_mem_keys {α : Type} {d : AList α} {k : String}
    (h : k ∉ dkeys d) : dget d k = none := by
  induction d with
  | nil => rfl
  | cons p rest ih =>
    obtain ⟨a, b⟩ := p
    rw [dkeys, List.map_cons, List.mem_cons] at h
    push_neg at h
    have hak : ¬ a = k := fun he => h.1 he.symm
    simp only [dget]
    rw [if_neg hak]
    exact ih h.2

theorem mem_keys_of_dget {α : Type} {d : AList α} {k : String} {v : α}
    (h : dget d k = some v) : k ∈ dkeys d :=
  List.mem_map_of_mem Prod.fst (dget_mem h)

theorem dget_isSome_iff_mem_keys {α : Type} (d : AList α) (k : String) :
    (dget d k).isSome = true ↔ k ∈ dkeys d := by
  constructor
  · intro h
    obtain ⟨v, hv⟩ := Option.isSome_iff_exists.1 h
    exact mem_keys_of_dget hv
  · intro h
    induction d with
    | nil => simp [dkeys] at h
    | cons p rest ih =>
      obtain ⟨a, b⟩ := p
      by_cases hk : a = k
      · simp [dget, hk]
      · rw [dkeys, List.map_cons, List.mem_cons] at h
        rcases h with h | h
        · exact absurd h.symm hk
        · simp only [dget, if_neg hk]
          exact ih h

theorem dmem_iff_mem_keys {α : Type} (d : AList α) (k : String) :
    dmem d k = true ↔ k ∈ dkeys d := dget_isSome_iff_mem_keys d k

theorem dmem_eq_false_iff {α : Type} (d : AList α) (k : String) :
    dmem d k = false ↔ k ∉ dkeys d := by
  rw [← dmem_iff_mem_keys]
  cases h : dmem d k <;> simp [h]

theorem dget_dset {α : Type} (d : AList α) (k : String) (v : α) (k' : String) :
    dget (dset d k v) k' = if k = k' then some v else dget d k' := by
  induction d with
  | nil => by_cases h : k = k' <;> simp [dset, dget, h]
  | cons p rest ih =>
    obtain ⟨a, b⟩ := p
    by_cases hak : a = k
    · subst hak
      by_cases h : a = k' <;> simp [dset, dget, h]
    · by_cases h : a = k'
      · subst h
        have : ¬ k = a := fun he => hak he.symm
        simp [dset, dget, hak, this]
      · simp [dset, dget, hak, h, ih]

theorem dkeys_dset_of_mem {α : Type} {d : AList α} {k : String} (v : α)
    (h : k ∈ dkeys d) : dkeys (dset d k v) = dkeys d := by
  induction d with
  | nil => simp [dkeys] at h
  | cons p rest ih =>
    obtain ⟨a, b⟩ := p
    by_cases hak : a = k
    · simp [dset, hak, dkeys]
    · rw [dkeys, List.map_cons, List.mem_cons] at h
      rcases h with h | h
      · exact absurd h.symm hak
      · simp [dset, hak, dkeys]
        exact ih h

theorem dkeys_dset_of_not_mem {α : Type} {d : AList α} {k : String} (v : α)
    (h : k ∉ dkeys d) : dkeys (dset d k v) = dkeys d ++ [k] := by
  induction d with
  | nil => simp [dset, dkeys]
  | cons p rest ih =>
    obtain ⟨a, b⟩ := p
    rw [dkeys, List.map_cons, List.mem_cons] at h
    push_neg at h
    have hak : ¬ a = k := fun he => h.1 he.symm
    simp [dset, hak, dkeys]
    exact ih h.2

theorem dset_nodup {α : Type} {d : AList α} (k : String) (v : α)
    (h : (dkeys d).Nodup) : (dkeys (dset d k v)).Nodup := by
  by_cases hm : k ∈ dkeys d
  · rw [dkeys_dset_of_mem v hm]; exact h
  · rw [dkeys_dset_of_not_mem v hm]
    simp [List.nodup_append]
    exact ⟨h, fun hk => hm hk⟩

theorem dget_append {α : Type} (d e : AList α) (k : String) :
    dget (d ++ e) k = match dget d k with
      | some v => some v
      | none => dget e k := by
  induction d with
  | nil => simp [dget]
  | cons p rest ih =>
    obtain ⟨a, b⟩ := p
    by_cases h : a = k <;> simp [dget, h, ih]

theorem dget_append_of_isSome {α : Type} {d : AList α} (e : AList α) {k : String}
    (h : (dget d k).isSome) : dget (d ++ e) k = dget d k := by
  rw [dget_append]
  obtain ⟨v, hv⟩ := Option.isSome_iff_exists.1 h
  rw [hv]

theorem dget_append_of_none {α : Type} {d : AList α} (e : AList α) {k : String}
    (h : dget d k = none) : dget (d ++ e) k = dget e k := by
  rw [dget_append, h]

theorem dget_dupdate {α : Type} (d u : AList α) (k : String)
    (hu : (dkeys u).Nodup) :
    dget (dupdate d u) k = match dget u k with
      | some v => some v
      | none => dget d k := by
  induction u generalizing d with
  | nil => simp [dupdate, dget]
  | cons p rest ih =>
    obtain ⟨a, b⟩ := p
    rw [dkeys, List.map_cons, List.nodup_cons] at hu
    have step : dupdate d ((a, b) :: rest) = dupdate (dset d a b) rest := by
      simp [dupdate]
    rw [step, ih _ hu.2]
    by_cases h : a = k
    · subst h
      have : dget rest a = none :=
        dget_none_of_not_mem_keys (fun hm => hu.1 hm)
      rw [this]
      simp [dget_dset, dget]
    · simp [dget, h, dget_dset]

theorem dupdate_nodup {α : Type} {d : AList α} (u : AList α)
    (h : (dkeys d).Nodup) : (dkeys (dupdate d u)).Nodup := by
  induction u generalizing d with
  | nil => exact h
  | cons p rest ih =>
    have step : dupdate d (p :: rest) = dupdate (dset d p.1 p.2) rest := by
      simp [dupdate]
    rw [step]
    exact ih (dset_nodup p.1 p.2 h)

theorem dkeys_dupdate_sub {α : Type} (d u : AList α) :
    ∀ k, k ∈ dkeys (dupdate d u) → k ∈ dkeys d ∨ k ∈ dkeys u := by
  induction u generalizing d with
  | nil => intro k hk; exact Or.inl hk
  | cons p rest ih =>
    intro k hk
    have step : dupdate d (p :: rest) = dupdate (dset d p.1 p.2) rest := by
      simp [dupdate]
    rw [step] at hk
    rcases ih (dset d p.1 p.2) k hk with h | h
    · by_cases hm : p.1 ∈ dkeys d
      · rw [dkeys_dset_of_mem _ hm] at h; exact Or.inl h
      · rw [dkeys_dset_of_not_mem _ hm] at h
        rcases List.mem_append.1 h with h | h
        · exact Or.inl h
        · simp at h
          subst h
          exact Or.inr (by simp [dkeys])
    · exact Or.inr (by rw [dkeys, List.map_cons]; exact List.mem_cons_of_mem _ h)

/-! ### Lemmas about identity elision and set insertion -/

theorem mem_dstrip {d : AList String} {p : String × String} :
    p ∈ dstrip d ↔ p ∈ d ∧ p.1 ≠ p.2 := by
  simp [dstrip, List.mem_filter]

theorem dstrip_sublist (d : AList String) : List.Sublist (dstrip d) d :=
  List.filter_sublist d

theorem dstrip_nodup {d : AList String} (h : (dkeys d).Nodup) :
    (dkeys (dstrip d)).Nodup := by
  have : List.Sublist (dkeys (dstrip d)) (dkeys d) :=
    List.Sublist.map Prod.fst (dstrip_sublist d)
  exact h.sublist this

theorem dstrip_eq_self {d : AList String} (h : ∀ p ∈ d, p.1 ≠ p.2) :
    dstrip d = d := by
  rw [dstrip, List.filter_eq_self]
  intro p hp
  exact decide_eq_true (h p hp)

theorem dstrip_idem (d : AList String) : dstrip (dstrip d) = dstrip d :=
  dstrip_eq_self (fun p hp => (mem_dstrip.1 hp).2)

theorem dstrip_cons_of_ne {a b : String} (rest : AList String) (h : ¬ a = b) :
    dstrip ((a, b) :: rest) = (a, b) :: dstrip rest := by
  simp only [dstrip, List.filter]
  have hd : (decide ((a, b).1 ≠ (a, b).2)) = true := by simpa using h
  rw [hd]

theorem dstrip_cons_of_eq {a : String} (rest : AList String) :
    dstrip ((a, a) :: rest) = dstrip rest := by
  simp only [dstrip, List.filter]
  have hd : (decide ((a, a).1 ≠ (a, a).2)) = false := by simp
  rw [hd]

theorem dget_dstrip_of_ne {d : AList String} {k v : String}
    (hn : (dkeys d).Nodup) (h : dget d k = some v) (hkv : k ≠ v) :
    dget (dstrip d) k = some v := by
  induction d with
  | nil => simp [dget] at h
  | cons p rest ih =>
    obtain ⟨a, b⟩ := p
    rw [dkeys, List.map_cons, List.nodup_cons] at hn
    by_cases hk : a = k
    · subst hk
      simp only [dget, if_pos rfl] at h
      cases h
      rw [dstrip_cons_of_ne rest (fun he => hkv he)]
      simp [dget]
    · simp only [dget, if_neg hk] at h
      by_cases hab : a = b
      · subst hab
        rw [dstrip_cons_of_eq]
        exact ih hn.2 h
      · rw [dstrip_cons_of_ne rest hab]
        simp only [dget, if_neg hk]
        exact ih hn.2 h

theorem dget_dstrip_self {d : AList String} {k : String}
    (hn : (dkeys d).Nodup) (h : dget d k = some k) :
    dget (dstrip d) k = none := by
  induction d with
  | nil => simp [dget] at h
  | cons p rest ih =>
    obtain ⟨a, b⟩ := p
    rw [dkeys, List.map_cons, List.nodup_cons] at hn
    by_cases hk : a = k
    · subst hk
      simp only [dget, if_pos rfl] at h
      cases h
      rw [dstrip_cons_of_eq]
      exact dget_none_of_not_mem_keys (fun hm => hn.1 (by
        have : List.Sublist (dkeys (dstrip rest)) (dkeys rest) :=
          List.Sublist.map Prod.fst (dstrip_sublist rest)
        exact this.mem hm))
    · simp only [dget, if_neg hk] at h
      by_cases hab : a = b
      · subst hab
        rw [dstrip_cons_of_eq]
        exact ih hn.2 h
      · rw [dstrip_cons_of_ne rest hab]
        simp only [dget, if_neg hk]
        exact ih hn.2 h

theorem dget_dstrip_none {d : AList String} {k : String}
    (h : dget d k = none) : dget (dstrip d) k = none := by
  induction d with
  | nil => rfl
  | cons p rest ih =>
    obtain ⟨a, b⟩ := p
    by_cases hk : a = k
    · subst hk
      simp [dget] at h
    · simp only [dget, if_neg hk] at h
      by_cases hab : a = b
      · rw [← hab] at *
        rw [dstrip_cons_of_eq]
        exact ih h
      · rw [dstrip_cons_of_ne rest hab]
        simp only [dget, if_neg hk]
        exact ih h

theorem dget_mapVal {α β : Type} (d : AList α) (g : α → β) (k : String) :
    dget (d.map (fun p => (p.1, g p.2))) k = (dget d k).map g := by
  induction d with
  | nil => simp [dget]
  | cons p rest ih =>
    obtain ⟨a, b⟩ := p
    by_cases h : a = k <;> simp [dget, h, ih]

theorem dkeys_mapVal {α β : Type} (d : AList α) (g : α → β) :
    dkeys (d.map (fun p => (p.1, g p.2))) = dkeys d := by
  simp [dkeys, List.map_map]

theorem mem_sadd {s : List String} {v x : String} :
    x ∈ sadd s v ↔ x ∈ s ∨ x = v := by
  rw [sadd]
  by_cases hc : s.contains v = true
  · rw [if_pos hc]
    have hv : v ∈ s := by simpa using hc
    constructor
    · exact Or.inl
    · rintro (h | h)
      · exact h
      · exact h ▸ hv
  · rw [if_neg hc]
    simp

theorem sadd_ne_nil {s : List String} (v : String) : sadd s v ≠ [] := by
  rw [sadd]
  by_cases hc : s.contains v = true
  · rw [if_pos hc]
    intro he
    subst he
    simp at hc
  · rw [if_neg hc]
    simp

theorem sadd_nonempty_mono {s : List String} (v : String) (h : s ≠ []) :
    sadd s v ≠ [] := by
  rw [sadd]
  by_cases hc : s.contains v = true
  · rw [if_pos hc]; exact h
  · rw [if_neg hc]; simp

/-! ### Keyboard tables (`keyboard_layout.py`) -/

/-- `us_qwerty_physical_remappable_keys`: letters, digits and US-QWERTY symbols. -/
def us_qwerty_physical_remappable_keys : List String :=
  ("ABCDEFGHIJKLMNOPQRSTUVWXYZ".toList.map (fun c => String.mk [c])) ++
  ((List.range 10).map (fun i => toString i)) ++
  ["`", "-", "=", "[", "]", ";", "'", ",", ".", "/", "\\"]

/-- `event_type_to_char_dict`: Blender event type → ASCII character. -/
def event_type_to_char_dict : AList String :=
  ("ABCDEFGHIJKLMNOPQRSTUVWXYZ".toList.map (fun c => (String.mk [c], String.mk [c]))) ++
  [("ZERO", "0"), ("ONE", "1"), ("TWO", "2"), ("THREE", "3"), ("FOUR", "4"),
   ("FIVE", "5"), ("SIX", "6"), ("SEVEN", "7"), ("EIGHT", "8"), ("NINE", "9"),
   ("GRLESS", "<"),
   ("SEMI_COLON", ";"), ("PERIOD", "."), ("COMMA", ","),
   ("QUOTE", "\""), ("ACCENT_GRAVE", "`"), ("MINUS", "-"), ("PLUS", "+"),
   ("SLASH", "/"), ("BACK_SLASH", "\\"), ("EQUAL", "="),
   ("LEFT_BRACKET", "["), ("RIGHT_BRACKET", "]")]

/-- `char_to_keymap_type_dict = {ch: typ for typ, ch in event_type_to_char_dict.items()}`
(a dict comprehension: later duplicate keys would overwrite earlier ones). -/
def char_to_keymap_type_dict : AList String :=
  event_type_to_char_dict.foldl (fun acc p => dset acc p.2 p.1) []

def event_type_to_char (event_type : String) : String :=
  dgetD event_type_to_char_dict event_type event_type

def char_to_event_type (char : String) : String :=
  dgetD char_to_keymap_type_dict char char

/-! ### `LayoutTranslation` (`keyboard_layout.py`) -/

/-- The value type behind `LayoutTranslation`: forward dict (`_in_out_dict`),
backward dict (`_out_in_dict`) and the conflict set (`_conflicting_keys`,
modelled as a duplicate-free list). -/
structure LayoutTranslation where
  inOut : AList String
  outIn : AList String
  conflicting_keys : List String
deriving Repr, DecidableEq

/-- One iteration of the backward-map building loop in `__init__` when only a
forward dict is given: `stripped` is the identity-elided forward dict used for
the `non_remapped_keys` test. -/
def fromForwardStep (stripped : AList String) (acc : AList String × List String)
    (p : String × String) : AList String × List String :=
  if dmem acc.1 p.2 ||
     (us_qwerty_physical_remappable_keys.contains p.2 && !dmem stripped p.2) then
    (acc.1, sadd acc.2 p.2)
  else
    (acc.1 ++ [(p.2, p.1)], acc.2)

/-- The backward-building loop of `LayoutTranslation.__init__` (single-dict mode). -/
def ffFold (stripped : AList String) :
    List (String × String) → AList String × List String → AList String × List String
  | [], acc => acc
  | p :: rest, acc => ffFold stripped rest (fromForwardStep stripped acc p)

/-- `LayoutTranslation(in_out_dict)`: construction from a forward dict alone. -/
def mkFromForward (in_out_dict : AList String) : LayoutTranslation :=
  let in_out := dstrip in_out_dict
  let r := ffFold in_out in_out ([], [])
  ⟨in_out, r.1, r.2⟩

/-- The first conflict-detection loop of `__init__` (two-dict mode):
`for i, o in in_out.items(): if o not in out_in or out_in[o] != i: add(i)`. -/
def conflFoldFwd (out_in : AList String) (l : List (String × String))
    (confl : List String) : List String :=
  l.foldl (fun cf p => if dget out_in p.2 = some p.1 then cf else sadd cf p.1) confl

/-- The second conflict-detection loop of `__init__` (two-dict mode):
`for o, i in out_in.items(): if i not in in_out or in_out[i] != o: add(i)`. -/
def conflFoldBwd (in_out : AList String) (l : List (String × String))
    (confl : List String) : List String :=
  l.foldl (fun cf p => if dget in_out p.2 = some p.1 then cf else sadd cf p.2) confl

/-- `LayoutTranslation(in_out_dict, out_in_dict)`: construction from explicit
forward and backward dicts (the two-dict mode of `__init__`). -/
def mkExplicit (in_out_dict out_in_dict : AList String) : LayoutTranslation :=
  let in_out := dstrip in_out_dict
  let out_in := dstrip out_in_dict
  let confl := conflFoldBwd in_out out_in (conflFoldFwd out_in in_out [])
  ⟨in_out, out_in, confl⟩

/-- `LayoutTranslation.identity()` = `LayoutTranslation({}, {})`. -/
def LayoutTranslation.identity : LayoutTranslation := mkExplicit [] []

/-- `LayoutTranslation.inverse(layout)`. -/
def LayoutTranslation.inverse (t : LayoutTranslation) : LayoutTranslation :=
  mkExplicit t.outIn t.inOut

/-- One step of the `compose` folds:
`acc.update({k: acc.get(v, v) for k, v in layer.items()})` (the comprehension is
evaluated against the pre-update `acc`). -/
def composeStep (acc layer : AList String) : AList String :=
  dupdate acc (layer.map (fun p => (p.1, dgetD acc p.2 p.2)))

/-- `LayoutTranslation.compose(*layouts)`. -/
def composeList : List LayoutTranslation → LayoutTranslation
  | [] => LayoutTranslation.identity
  | t0 :: rest =>
    let ts := t0 :: rest
    let tn := ts.getLastD t0
    let fwd := (ts.dropLast.reverse.map LayoutTranslation.inOut).foldl composeStep tn.inOut
    let bwd := ((ts.drop 1).map LayoutTranslation.outIn).foldl composeStep t0.outIn
    mkExplicit fwd bwd

/-- `LayoutTranslation.update(in_out)` (default backward-delta mode):
override entries, computing the backward delta first-writer-wins, then rebuild
through the two-dict constructor. -/
def LayoutTranslation.update (t : LayoutTranslation) (in_out : AList String) :
    LayoutTranslation :=
  let new_in_out := dupdate t.inOut in_out
  let out_in := in_out.foldl
    (fun acc p => if dmem acc p.2 then acc else acc ++ [(p.2, p.1)]) []
  let new_out_in := dupdate t.outIn out_in
  mkExplicit new_in_out new_out_in

def LayoutTranslation.map_input_to_output (t : LayoutTranslation) (key : String) : String :=
  dgetD t.inOut key key

def LayoutTranslation.map_output_to_input (t : LayoutTranslation) (key : String) : String :=
  dgetD t.outIn key key

def LayoutTranslation.map_input_type_to_output_type (t : LayoutTranslation)
    (event_type : String) : String :=
  char_to_event_type (t.map_input_to_output (event_type_to_char event_type))

def LayoutTranslation.remapped_input_characters (t : LayoutTranslation) : List String :=
  dkeys t.inOut

def LayoutTranslation.remapped_output_characters (t : LayoutTranslation) : List String :=
  dkeys t.outIn

def LayoutTranslation.is_valid (t : LayoutTranslation) : Bool :=
  t.conflicting_keys.isEmpty

def LayoutTranslation.is_identity (t : LayoutTranslation) : Bool :=
  t.inOut.isEmpty && t.outIn.isEmpty

/-! ### Lemmas about the single-dict constructor's backward-building fold -/

theorem ff_confl_grow {s : AList String} {l : List (String × String)}
    {acc : AList String × List String} {x : String} (h : x ∈ acc.2) :
    x ∈ (ffFold s l acc).2 := by
  induction l generalizing acc with
  | nil => exact h
  | cons p rest ih =>
    rw [ffFold]
    apply ih
    rw [fromForwardStep]
    by_cases hc : (dmem acc.1 p.2 ||
        (us_qwerty_physical_remappable_keys.contains p.2 && !dmem s p.2)) = true
    · rw [if_pos hc]
      exact mem_sadd.2 (Or.inl h)
    · rw [if_neg hc]
      exact h

theorem ff_confl_mono {s : AList String} {l : List (String × String)}
    {acc : AList String × List String} (h : acc.2 ≠ []) :
    (ffFold s l acc).2 ≠ [] := by
  induction l generalizing acc with
  | nil => exact h
  | cons p rest ih =>
    rw [ffFold]
    apply ih
    rw [fromForwardStep]
    by_cases hc : (dmem acc.1 p.2 ||
        (us_qwerty_physical_remappable_keys.contains p.2 && !dmem s p.2)) = true
    · rw [if_pos hc]
      exact sadd_nonempty_mono _ h
    · rw [if_neg hc]
      exact h

/-- If the final conflict set is empty, every step took the non-conflicting
branch, so the backward dict is exactly the reversed pair list. -/
theorem ff_of_valid {s : AList String} {l : List (String × String)}
    {acc : AList String × List String}
    (h : (ffFold s l acc).2 = []) :
    (ffFold s l acc).1 = acc.1 ++ l.map (fun p => (p.2, p.1)) ∧ acc.2 = [] := by
  induction l generalizing acc with
  | nil => exact ⟨by simp [ffFold], h⟩
  | cons p rest ih =>
    rw [ffFold] at h ⊢
    by_cases hc : (dmem acc.1 p.2 ||
        (us_qwerty_physical_remappable_keys.contains p.2 && !dmem s p.2)) = true
    · exfalso
      apply ff_confl_mono (s := s) (l := rest) ?_ h
      rw [fromForwardStep, if_pos hc]
      exact sadd_ne_nil p.2
    · rw [fromForwardStep, if_neg hc] at h ⊢
      obtain ⟨h1, h2⟩ := ih h
      refine ⟨?_, h2⟩
      rw [h1]
      simp

/-- If the final conflict set is empty, every step appended a fresh key, so
the backward dict has duplicate-free keys. -/
theorem ff_valid_keysNodup {s : AList String} {l : List (String × String)}
    {acc : AList String × List String}
    (hn : (dkeys acc.1).Nodup) (h : (ffFold s l acc).2 = []) :
    (dkeys (ffFold s l acc).1).Nodup := by
  induction l generalizing acc with
  | nil => exact hn
  | cons p rest ih =>
    rw [ffFold] at h ⊢
    by_cases hc : (dmem acc.1 p.2 ||
        (us_qwerty_physical_remappable_keys.contains p.2 && !dmem s p.2)) = true
    · exfalso
      apply ff_confl_mono (s := s) (l := rest) ?_ h
      rw [fromForwardStep, if_pos hc]
      exact sadd_ne_nil p.2
    · rw [fromForwardStep, if_neg hc] at h ⊢
      apply ih ?_ h
      have hfresh : dmem acc.1 p.2 = false := by
        cases hd : dmem acc.1 p.2
        · rfl
        · exfalso; apply hc; rw [hd]; rfl
      have hni : p.2 ∉ dkeys acc.1 := (dmem_eq_false_iff _ _).1 hfresh
      show (dkeys (acc.1 ++ [(p.2, p.1)])).Nodup
      rw [dkeys, List.map_append]
      refine List.nodup_append.2 ⟨hn, List.nodup_singleton _, ?_⟩
      intro a ha hb
      simp at hb
      exact hni (hb ▸ ha)

/-- Every backward entry comes from a processed forward pair. -/
theorem ff_entry_src {s : AList String} {l : List (String × String)}
    {acc : AList String × List String} {o i : String}
    (h : (o, i) ∈ (ffFold s l acc).1) : (o, i) ∈ acc.1 ∨ (i, o) ∈ l := by
  induction l generalizing acc with
  | nil => exact Or.inl h
  | cons p rest ih =>
    rw [ffFold] at h
    by_cases hc : (dmem acc.1 p.2 ||
        (us_qwerty_physical_remappable_keys.contains p.2 && !dmem s p.2)) = true
    · rw [fromForwardStep, if_pos hc] at h
      rcases ih h with h' | h'
      · exact Or.inl h'
      · exact Or.inr (List.mem_cons_of_mem _ h')
    · rw [fromForwardStep, if_neg hc] at h
      rcases ih h with h' | h'
      · rcases List.mem_append.1 h' with h'' | h''
        · exact Or.inl h''
        · simp at h''
          obtain ⟨h2, h1⟩ := h''
          right
          rw [List.mem_cons]
          left
          obtain ⟨pi, po⟩ := p
          simp at h1 h2
          rw [h1, h2]
      · exact Or.inr (List.mem_cons_of_mem _ h')

/-- The fold only appends to the backward dict, so defined lookups persist. -/
theorem ff_isSome_mono {s : AList String} {l : List (String × String)}
    {acc : AList String × List String} {k : String}
    (h : (dget acc.1 k).isSome = true) :
    (dget (ffFold s l acc).1 k).isSome = true := by
  induction l generalizing acc with
  | nil => exact h
  | cons p rest ih =>
    rw [ffFold]
    apply ih
    rw [fromForwardStep]
    by_cases hc : (dmem acc.1 p.2 ||
        (us_qwerty_physical_remappable_keys.contains p.2 && !dmem s p.2)) = true
    · rw [if_pos hc]; exact h
    · rw [if_neg hc]
      show (dget (acc.1 ++ [(p.2, p.1)]) k).isSome = true
      rw [dget_append]
      obtain ⟨w, hw⟩ := Option.isSome_iff_exists.1 h
      rw [hw]
      rfl

/-- A value appearing in a processed pair ends up either as a backward key or
in the conflict set. -/
theorem ff_processed {s : AList String} {l : List (String × String)}
    {acc : AList String × List String} {i v : String}
    (h : (i, v) ∈ l) :
    (dget (ffFold s l acc).1 v).isSome = true ∨ v ∈ (ffFold s l acc).2 := by
  induction l generalizing acc with
  | nil => simp at h
  | cons p rest ih =>
    rw [ffFold]
    rcases List.mem_cons.1 h with h' | h'
    · by_cases hc : (dmem acc.1 p.2 ||
          (us_qwerty_physical_remappable_keys.contains p.2 && !dmem s p.2)) = true
      · right
        rw [← h'] at hc ⊢
        apply ff_confl_grow
        rw [fromForwardStep]
        simp only [if_pos hc]
        exact mem_sadd.2 (Or.inr rfl)
      · left
        rw [← h'] at hc ⊢
        apply ff_isSome_mono
        rw [fromForwardStep, if_neg hc]
        show (dget (acc.1 ++ [((i, v).2, (i, v).1)]) v).isSome = true
        rw [dget_append]
        cases hd : dget acc.1 v with
        | some w => rfl
        | none => simp [dget]
    · exact ih h'

/-- A physical key that the stripped forward dict does not remap is never
written as a backward key, provided no conflict was recorded. -/
theorem ff_phys_unwritten {s : AList String} {l : List (String × String)}
    {acc : AList String × List String} {x : String}
    (hval : (ffFold s l acc).2 = [])
    (hphys : us_qwerty_physical_remappable_keys.contains x = true)
    (hns : dmem s x = false) (hacc : dget acc.1 x = none) :
    dget (ffFold s l acc).1 x = none := by
  induction l generalizing acc with
  | nil => exact hacc
  | cons p rest ih =>
    rw [ffFold] at hval ⊢
    by_cases hc : (dmem acc.1 p.2 ||
        (us_qwerty_physical_remappable_keys.contains p.2 && !dmem s p.2)) = true
    · exfalso
      apply ff_confl_mono (s := s) (l := rest) ?_ hval
      rw [fromForwardStep, if_pos hc]
      exact sadd_ne_nil p.2
    · apply ih hval
      rw [fromForwardStep, if_neg hc]
      have hpx : ¬ p.2 = x := by
        intro he
        apply hc
        rw [he, hphys, hns]
        simp
      rw [dget_append, hacc]
      simp [dget, hpx]

/-! ### Claim C5: first-writer-wins backward construction -/

/-- C5 counterexample.  `from_forward({'A':'B','C':'B'})` does **not** produce
`backward == {'B':'A'}`: because `'B'` is itself a physical label that the
forward map never remaps, even the first writer `'A' -> 'B'` is recorded as a
conflict, so the backward dict stays empty. -/
theorem C5_counterexample :
    (mkFromForward [("A", "B"), ("C", "B")]).conflicting_keys = ["B"] ∧
    (mkFromForward [("A", "B"), ("C", "B")]).outIn = [] ∧
    dget (mkFromForward [("A", "B"), ("C", "B")]).outIn "B" ≠ some "A" := by
  refine ⟨by decide, by decide, by decide⟩

/-- C5 (corrected).  `from_forward({'A':'B','C':'B'})` produces
`conflicts == {'B'}` and an **empty** backward map, since the collided target
`'B'` is a physical label that is never remapped; first-writer-wins applies
only when the collided target is itself a remapped physical key, e.g.
`from_forward({'A':'B','C':'B','B':'X'})` yields `backward == {'B':'A'}` with
`conflicts == {'B','X'}`. -/
theorem C5_corrected :
    (mkFromForward [("A", "B"), ("C", "B")]).conflicting_keys = ["B"] ∧
    (mkFromForward [("A", "B"), ("C", "B")]).outIn = [] ∧
    (mkFromForward [("A", "B"), ("C", "B"), ("B", "X")]).outIn = [("B", "A")] ∧
    (mkFromForward [("A", "B"), ("C", "B"), ("B", "X")]).conflicting_keys = ["B", "X"] := by
  refine ⟨by decide, by decide, by decide, by decide⟩

/-! ### Claim C4: the forward/backward round-trip law -/

/-- C4 counterexample.  The round-trip law fails as stated, in two ways:
(a) for `t1 = from_forward({'A':'B','C':'B'})`, the physical label `'C'` is
not in `t1.conflicts == {'B'}`, yet the round trip sends it to `'B'`;
(b) even a *valid* translation built from explicit forward and backward maps,
`t2 = LayoutTranslation({'A':'B'}, {'B':'A'})`, has an empty conflict set but
sends the physical label `'B'` to `'A'` on the round trip. -/
theorem C4_counterexample :
    ("C" ∈ us_qwerty_physical_remappable_keys ∧
     "C" ∉ (mkFromForward [("A", "B"), ("C", "B")]).conflicting_keys ∧
     (mkFromForward [("A", "B"), ("C", "B")]).map_output_to_input
       ((mkFromForward [("A", "B"), ("C", "B")]).map_input_to_output "C") = "B") ∧
    ("B" ∈ us_qwerty_physical_remappable_keys ∧
     (mkExplicit [("A", "B")] [("B", "A")]).conflicting_keys = [] ∧
     (mkExplicit [("A", "B")] [("B", "A")]).map_output_to_input
       ((mkExplicit [("A", "B")] [("B", "A")]).map_input_to_output "B") = "A") := by
  refine ⟨⟨by decide, by decide, by decide⟩, ⟨by decide, by decide, by decide⟩⟩

/-- C4 (amended).  For every Translation built from a forward map alone
(`from_forward`) whose conflict set is empty, and every physical label `x`,
`t.map_backward(t.map_forward(x)) == x`. -/
theorem C4_roundtrip (f : AList String) (hf : (dkeys f).Nodup)
    (hval : (mkFromForward f).conflicting_keys = [])
    (x : String) (hx : x ∈ us_qwerty_physical_remappable_keys) :
    (mkFromForward f).map_output_to_input
      ((mkFromForward f).map_input_to_output x) = x := by
  have hsn : (dkeys (dstrip f)).Nodup := dstrip_nodup hf
  have hval' : (ffFold (dstrip f) (dstrip f) ([], [])).2 = [] := hval
  have houtIn : (ffFold (dstrip f) (dstrip f) ([], [])).1 =
      (dstrip f).map (fun p => (p.2, p.1)) := by
    have := (ff_of_valid hval').1
    simpa using this
  have hbn : (dkeys ((dstrip f).map (fun p => (p.2, p.1)))).Nodup := by
    rw [← houtIn]
    exact ff_valid_keysNodup (by simp [dkeys]) hval'
  cases hx' : dget (dstrip f) x with
  | some o =>
    have hmem : (x, o) ∈ dstrip f := dget_mem hx'
    have hfwd : (mkFromForward f).map_input_to_output x = o := by
      show dgetD (dstrip f) x x = o
      rw [dgetD, hx']
      rfl
    have hmem' : (o, x) ∈ (dstrip f).map (fun p => (p.2, p.1)) :=
      List.mem_map_of_mem (a := (x, o)) _ hmem
    have hback : dget ((dstrip f).map (fun p => (p.2, p.1))) o = some x :=
      mem_dget_nodup hmem' hbn
    rw [hfwd]
    show dgetD (ffFold (dstrip f) (dstrip f) ([], [])).1 o o = x
    rw [dgetD, houtIn, hback]
    rfl
  | none =>
    have hfwd : (mkFromForward f).map_input_to_output x = x := by
      show dgetD (dstrip f) x x = x
      rw [dgetD, hx']
      rfl
    have hphys : us_qwerty_physical_remappable_keys.contains x = true := by
      simpa using hx
    have hns : dmem (dstrip f) x = false := by simp [dmem, hx']
    have hnone : dget (ffFold (dstrip f) (dstrip f) ([], [])).1 x = none :=
      ff_phys_unwritten hval' hphys hns (by rfl)
    rw [hfwd]
    show dgetD (ffFold (dstrip f) (dstrip f) ([], [])).1 x x = x
    rw [dgetD, hnone]
    rfl

/-- C4 witness: the built-in QWERTZ swap `{'Y':'Z','Z':'Y'}` is valid and the
round trip fixes the physical label `'Y'`. -/
theorem C4_roundtrip_witness :
    (mkFromForward [("Y", "Z"), ("Z", "Y")]).map_output_to_input
      ((mkFromForward [("Y", "Z"), ("Z", "Y")]).map_input_to_output "Y") = "Y" :=
  C4_roundtrip [("Y", "Z"), ("Z", "Y")] (by decide) (by decide) "Y" (by decide)

/-! ### Claim C9: identity elision invariant -/

theorem mkExplicit_inOut_ne (a b : AList String) :
    ∀ p ∈ (mkExplicit a b).inOut, p.1 ≠ p.2 :=
  fun p hp => (mem_dstrip.1 hp).2

theorem mkExplicit_outIn_ne (a b : AList String) :
    ∀ p ∈ (mkExplicit a b).outIn, p.1 ≠ p.2 :=
  fun p hp => (mem_dstrip.1 hp).2

theorem mkFromForward_inOut_ne (f : AList String) :
    ∀ p ∈ (mkFromForward f).inOut, p.1 ≠ p.2 :=
  fun p hp => (mem_dstrip.1 hp).2

theorem mkFromForward_outIn_ne (f : AList String) :
    ∀ p ∈ (mkFromForward f).outIn, p.1 ≠ p.2 := by
  intro p hp
  obtain ⟨o, i⟩ := p
  have hsrc : (o, i) ∈ (([], []) : AList String × List String).1 ∨
      (i, o) ∈ dstrip f := ff_entry_src hp
  rcases hsrc with h | h
  · simp at h
  · have := (mem_dstrip.1 h).2
    exact fun he => this (by simpa using he.symm)

theorem composeList_cons_eq (t0 : LayoutTranslation) (rest : List LayoutTranslation) :
    composeList (t0 :: rest) = mkExplicit
      ((((t0 :: rest).dropLast.reverse.map LayoutTranslation.inOut)).foldl
        composeStep ((t0 :: rest).getLastD t0).inOut)
      ((((t0 :: rest).drop 1).map LayoutTranslation.outIn).foldl
        composeStep t0.outIn) := rfl

/-- C9 (confirmed).  Identity elision is an invariant of `LayoutTranslation`:
no constructor or operation (single-dict construction, two-dict construction,
`compose`, `inverse`, `update`) ever stores a forward or backward entry whose
key equals its value. -/
theorem C9_identity_elision :
    (∀ f : AList String, ∀ p ∈ (mkFromForward f).inOut, p.1 ≠ p.2) ∧
    (∀ f : AList String, ∀ p ∈ (mkFromForward f).outIn, p.1 ≠ p.2) ∧
    (∀ a b : AList String, ∀ p ∈ (mkExplicit a b).inOut, p.1 ≠ p.2) ∧
    (∀ a b : AList String, ∀ p ∈ (mkExplicit a b).outIn, p.1 ≠ p.2) ∧
    (∀ ts : List LayoutTranslation, ∀ p ∈ (composeList ts).inOut, p.1 ≠ p.2) ∧
    (∀ ts : List LayoutTranslation, ∀ p ∈ (composeList ts).outIn, p.1 ≠ p.2) ∧
    (∀ t : LayoutTranslation, ∀ p ∈ t.inverse.inOut, p.1 ≠ p.2) ∧
    (∀ t : LayoutTranslation, ∀ p ∈ t.inverse.outIn, p.1 ≠ p.2) ∧
    (∀ (t : LayoutTranslation) (u : AList String), ∀ p ∈ (t.update u).inOut, p.1 ≠ p.2) ∧
    (∀ (t : LayoutTranslation) (u : AList String), ∀ p ∈ (t.update u).outIn, p.1 ≠ p.2) := by
  refine ⟨mkFromForward_inOut_ne, mkFromForward_outIn_ne, mkExplicit_inOut_ne,
    mkExplicit_outIn_ne, ?_, ?_, ?_, ?_, ?_, ?_⟩
  · intro ts p hp
    cases ts with
    | nil => simp [composeList, LayoutTranslation.identity, mkExplicit, dstrip] at hp
    | cons t0 rest =>
      rw [composeList_cons_eq] at hp
      exact mkExplicit_inOut_ne _ _ p hp
  · intro ts p hp
    cases ts with
    | nil => simp [composeList, LayoutTranslation.identity, mkExplicit, dstrip] at hp
    | cons t0 rest =>
      rw [composeList_cons_eq] at hp
      exact mkExplicit_outIn_ne _ _ p hp
  · intro t p hp
    exact mkExplicit_inOut_ne _ _ p hp
  · intro t p hp
    exact mkExplicit_outIn_ne _ _ p hp
  · intro t u p hp
    exact mkExplicit_inOut_ne _ _ p hp
  · intro t u p hp
    exact mkExplicit_outIn_ne _ _ p hp

/-- C9 witness: the invariant instantiated on a concrete entry. -/
theorem C9_identity_elision_witness :
    ("A", "B") ∈ (mkFromForward [("A", "B"), ("C", "C")]).inOut ∧ ("A" : String) ≠ "B" :=
  ⟨by decide, C9_identity_elision.1 [("A", "B"), ("C", "C")] ("A", "B") (by decide)⟩

/-! ### Conflict-fold lemmas for the two-dict constructor -/

theorem ff_keysNodup {s : AList String} {l : List (String × String)}
    {acc : AList String × List String}
    (hn : (dkeys acc.1).Nodup) : (dkeys (ffFold s l acc).1).Nodup := by
  induction l generalizing acc with
  | nil => exact hn
  | cons p rest ih =>
    rw [ffFold]
    apply ih
    rw [fromForwardStep]
    by_cases hc : (dmem acc.1 p.2 ||
        (us_qwerty_physical_remappable_keys.contains p.2 && !dmem s p.2)) = true
    · rw [if_pos hc]; exact hn
    · rw [if_neg hc]
      have hfresh : dmem acc.1 p.2 = false := by
        cases hd : dmem acc.1 p.2
        · rfl
        · exfalso; apply hc; rw [hd]; rfl
      have hni : p.2 ∉ dkeys acc.1 := (dmem_eq_false_iff _ _).1 hfresh
      show (dkeys (acc.1 ++ [(p.2, p.1)])).Nodup
      rw [dkeys, List.map_append]
      refine List.nodup_append.2 ⟨hn, List.nodup_singleton _, ?_⟩
      intro a ha hb
      simp at hb
      exact hni (hb ▸ ha)

theorem conflFoldFwd_grow {oi : AList String} {l : List (String × String)}
    {cf : List String} {x : String} (h : x ∈ cf) : x ∈ conflFoldFwd oi l cf := by
  induction l generalizing cf with
  | nil => exact h
  | cons p rest ih =>
    rw [conflFoldFwd] at *
    simp only [List.foldl_cons]
    by_cases hc : dget oi p.2 = some p.1
    · rw [if_pos hc]; exact ih h
    · rw [if_neg hc]; exact ih (mem_sadd.2 (Or.inl h))

theorem conflFoldBwd_grow {io : AList String} {l : List (String × String)}
    {cf : List String} {x : String} (h : x ∈ cf) : x ∈ conflFoldBwd io l cf := by
  induction l generalizing cf with
  | nil => exact h
  | cons p rest ih =>
    rw [conflFoldBwd] at *
    simp only [List.foldl_cons]
    by_cases hc : dget io p.2 = some p.1
    · rw [if_pos hc]; exact ih h
    · rw [if_neg hc]; exact ih (mem_sadd.2 (Or.inl h))

theorem conflFoldFwd_not_mem {oi : AList String} {l : List (String × String)}
    {cf : List String} {x o : String}
    (hx : x ∉ conflFoldFwd oi l cf) (hm : (x, o) ∈ l) : dget oi o = some x := by
  induction l generalizing cf with
  | nil => simp at hm
  | cons p rest ih =>
    rw [conflFoldFwd] at hx
    simp only [List.foldl_cons] at hx
    rcases List.mem_cons.1 hm with h | h
    · by_cases hc : dget oi p.2 = some p.1
      · rw [← h] at hc; exact hc
      · exfalso
        rw [if_neg hc] at hx
        apply hx
        apply conflFoldFwd_grow
        rw [← h]
        exact mem_sadd.2 (Or.inr rfl)
    · by_cases hc : dget oi p.2 = some p.1
      · rw [if_pos hc] at hx; exact ih hx h
      · rw [if_neg hc] at hx; exact ih hx h

theorem conflFoldBwd_not_mem {io : AList String} {l : List (String × String)}
    {cf : List String} {z x : String}
    (hx : x ∉ conflFoldBwd io l cf) (hm : (z, x) ∈ l) : dget io x = some z := by
  induction l generalizing cf with
  | nil => simp at hm
  | cons p rest ih =>
    rw [conflFoldBwd] at hx
    simp only [List.foldl_cons] at hx
    rcases List.mem_cons.1 hm with h | h
    · by_cases hc : dget io p.2 = some p.1
      · rw [← h] at hc; exact hc
      · exfalso
        rw [if_neg hc] at hx
        apply hx
        apply conflFoldBwd_grow
        rw [← h]
        exact mem_sadd.2 (Or.inr rfl)
    · by_cases hc : dget io p.2 = some p.1
      · rw [if_pos hc] at hx; exact ih hx h
      · rw [if_neg hc] at hx; exact ih hx h

theorem conflFoldFwd_nil {oi : AList String} {l : List (String × String)}
    {cf : List String} (h : ∀ p ∈ l, dget oi p.2 = some p.1) :
    conflFoldFwd oi l cf = cf := by
  induction l generalizing cf with
  | nil => rfl
  | cons p rest ih =>
    rw [conflFoldFwd]
    simp only [List.foldl_cons]
    rw [if_pos (h p (List.mem_cons_self p rest))]
    exact ih (fun q hq => h q (List.mem_cons_of_mem p hq))

theorem conflFoldBwd_nil {io : AList String} {l : List (String × String)}
    {cf : List String} (h : ∀ p ∈ l, dget io p.2 = some p.1) :
    conflFoldBwd io l cf = cf := by
  induction l generalizing cf with
  | nil => rfl
  | cons p rest ih =>
    rw [conflFoldBwd]
    simp only [List.foldl_cons]
    rw [if_pos (h p (List.mem_cons_self p rest))]
    exact ih (fun q hq => h q (List.mem_cons_of_mem p hq))

/-- Unfolded form of the two-dict constructor. -/
theorem mkExplicit_eq (a b : AList String) :
    mkExplicit a b = ⟨dstrip a, dstrip b,
      conflFoldBwd (dstrip a) (dstrip b) (conflFoldFwd (dstrip b) (dstrip a) [])⟩ := rfl

theorem mkExplicit_dstrip (a b : AList String) :
    mkExplicit (dstrip a) (dstrip b) = mkExplicit a b := by
  rw [mkExplicit_eq, mkExplicit_eq, dstrip_idem, dstrip_idem]

/-- `compose` applied to a single translation rebuilds it through the two-dict
constructor. -/
theorem composeList_singleton (t : LayoutTranslation) :
    composeList [t] = mkExplicit t.inOut t.outIn := rfl

/-- Conflict-membership extraction for the two-dict constructor, forward loop. -/
theorem mkExplicit_not_confl_fwd {a b : AList String} {x o : String}
    (hx : x ∉ (mkExplicit a b).conflicting_keys)
    (hm : (x, o) ∈ (mkExplicit a b).inOut) :
    dget (mkExplicit a b).outIn o = some x := by
  rw [mkExplicit_eq] at hx hm ⊢
  exact conflFoldFwd_not_mem (fun hmem => hx (conflFoldBwd_grow hmem)) hm

/-- Conflict-membership extraction for the two-dict constructor, backward loop. -/
theorem mkExplicit_not_confl_bwd {a b : AList String} {z x : String}
    (hx : x ∉ (mkExplicit a b).conflicting_keys)
    (hm : (z, x) ∈ (mkExplicit a b).outIn) :
    dget (mkExplicit a b).inOut x = some z := by
  rw [mkExplicit_eq] at hx hm ⊢
  exact conflFoldBwd_not_mem hx hm

/-! ### Constructor images of `LayoutTranslation` -/

/-- Translations produced by the constructors of `LayoutTranslation` (the
Python class invariant: every instance comes out of `__init__`, whose dict
arguments have unique keys). -/
def ConstructedWF (t : LayoutTranslation) : Prop :=
  (∃ f, (dkeys f).Nodup ∧ t = mkFromForward f) ∨
  (∃ a b, (dkeys a).Nodup ∧ (dkeys b).Nodup ∧ t = mkExplicit a b)

theorem ConstructedWF.inOut_ne {t : LayoutTranslation} (h : ConstructedWF t) :
    ∀ p ∈ t.inOut, p.1 ≠ p.2 := by
  rcases h with ⟨f, _, rfl⟩ | ⟨a, b, _, _, rfl⟩
  · exact mkFromForward_inOut_ne f
  · exact mkExplicit_inOut_ne a b

theorem ConstructedWF.outIn_ne {t : LayoutTranslation} (h : ConstructedWF t) :
    ∀ p ∈ t.outIn, p.1 ≠ p.2 := by
  rcases h with ⟨f, _, rfl⟩ | ⟨a, b, _, _, rfl⟩
  · exact mkFromForward_outIn_ne f
  · exact mkExplicit_outIn_ne a b

theorem mkFromForward_outIn_eq (f : AList String) :
    (mkFromForward f).outIn = (ffFold (dstrip f) (dstrip f) ([], [])).1 := rfl

theorem mkFromForward_confl_eq (f : AList String) :
    (mkFromForward f).conflicting_keys = (ffFold (dstrip f) (dstrip f) ([], [])).2 := rfl

theorem ConstructedWF.inOut_nodup {t : LayoutTranslation} (h : ConstructedWF t) :
    (dkeys t.inOut).Nodup := by
  rcases h with ⟨f, hf, rfl⟩ | ⟨a, b, ha, _, rfl⟩
  · exact dstrip_nodup hf
  · exact dstrip_nodup ha

theorem ConstructedWF.outIn_nodup {t : LayoutTranslation} (h : ConstructedWF t) :
    (dkeys t.outIn).Nodup := by
  rcases h with ⟨f, hf, rfl⟩ | ⟨a, b, _, hb, rfl⟩
  · rw [mkFromForward_outIn_eq]
    exact ff_keysNodup (by simp [dkeys])
  · exact dstrip_nodup hb

/-! ### Claim C6: compose laws -/

/-- `compose([t]) == t` for any two-dict-constructed translation: the same
stripped dicts are re-validated by the same conflict computation. -/
theorem composeList_singleton_mkExplicit (a b : AList String) :
    composeList [mkExplicit a b] = mkExplicit a b := by
  rw [composeList_singleton]
  show mkExplicit (dstrip a) (dstrip b) = mkExplicit a b
  exact mkExplicit_dstrip a b

/-- `compose([t]) == t` for a valid single-dict-constructed translation. -/
theorem composeList_singleton_fromForward (f : AList String)
    (hf : (dkeys f).Nodup)
    (hval : (mkFromForward f).conflicting_keys = []) :
    composeList [mkFromForward f] = mkFromForward f := by
  have hsn : (dkeys (dstrip f)).Nodup := dstrip_nodup hf
  have hval' : (ffFold (dstrip f) (dstrip f) ([], [])).2 = [] := hval
  have houtIn : (ffFold (dstrip f) (dstrip f) ([], [])).1 =
      (dstrip f).map (fun p => (p.2, p.1)) := by
    have := (ff_of_valid hval').1
    simpa using this
  have hbn : (dkeys (ffFold (dstrip f) (dstrip f) ([], [])).1).Nodup :=
    ff_keysNodup (by simp [dkeys])
  rw [composeList_singleton, mkExplicit_eq]
  have hs1 : dstrip (mkFromForward f).inOut = (mkFromForward f).inOut := by
    show dstrip (dstrip f) = dstrip f
    exact dstrip_idem f
  have hs2 : dstrip (mkFromForward f).outIn = (mkFromForward f).outIn :=
    dstrip_eq_self (mkFromForward_outIn_ne f)
  rw [hs1, hs2]
  have hfwd : ∀ p ∈ (mkFromForward f).inOut,
      dget (mkFromForward f).outIn p.2 = some p.1 := by
    intro p hp
    obtain ⟨i, o⟩ := p
    have hmem : (o, i) ∈ (ffFold (dstrip f) (dstrip f) ([], [])).1 := by
      rw [houtIn]
      exact List.mem_map_of_mem (a := (i, o)) _ hp
    rw [mkFromForward_outIn_eq]
    exact mem_dget_nodup hmem (by rw [houtIn] at hbn ⊢; exact hbn)
  have hbwd : ∀ p ∈ (mkFromForward f).outIn,
      dget (mkFromForward f).inOut p.2 = some p.1 := by
    intro p hp
    obtain ⟨o, i⟩ := p
    rw [mkFromForward_outIn_eq, houtIn] at hp
    obtain ⟨q, hq, hqe⟩ := List.mem_map.1 hp
    obtain ⟨q1, q2⟩ := q
    simp at hqe
    obtain ⟨h1, h2⟩ := hqe
    show dget (dstrip f) i = some o
    rw [← h1, ← h2] at *
    exact mem_dget_nodup hq hsn
  rw [conflFoldFwd_nil hfwd, conflFoldBwd_nil hbwd]
  -- both sides are now the three constructor fields of `mkFromForward f`
  show (⟨(mkFromForward f).inOut, (mkFromForward f).outIn, []⟩ : LayoutTranslation) =
    mkFromForward f
  have : (mkFromForward f).conflicting_keys = [] := hval
  cases hmk : mkFromForward f
  rw [hmk] at this
  simp at this
  rw [this]

/-- Composing a translation with its inverse: both directions of the result
fold into the same dict `composeStep t.outIn t.inOut`. -/
theorem compose_inv_eq (t : LayoutTranslation)
    (h1 : ∀ p ∈ t.inOut, p.1 ≠ p.2) (h2 : ∀ p ∈ t.outIn, p.1 ≠ p.2) :
    composeList [t, t.inverse] =
      mkExplicit (composeStep t.outIn t.inOut) (composeStep t.outIn t.inOut) := by
  have hu1 : (t.inverse).inOut = t.outIn := dstrip_eq_self h2
  have hu2 : (t.inverse).outIn = t.inOut := dstrip_eq_self h1
  show mkExplicit (composeStep (t.inverse).inOut t.inOut)
      (composeStep t.outIn (t.inverse).outIn) = _
  rw [hu1, hu2]

/-- Evaluation of a single compose step as a lookup. -/
theorem composeStep_get (oi io : AList String) (hio : (dkeys io).Nodup) (k : String) :
    dget (composeStep oi io) k = match dget io k with
      | some w => some (dgetD oi w w)
      | none => dget oi k := by
  have hkeys := dkeys_mapVal io (fun v => dgetD oi v v)
  have hget := dget_mapVal io (fun v => dgetD oi v v) k
  rw [composeStep]
  rw [dget_dupdate _ _ k (by rw [hkeys]; exact hio)]
  rw [hget]
  cases h : dget io k <;> rfl

/-- Core contradiction facts: a non-identity entry of the composite that
escaped the composite's conflict check forms a two-cycle. -/
theorem compose_inv_cycle (t : LayoutTranslation)
    (hio_n : (dkeys t.inOut).Nodup) (hoi_n : (dkeys t.outIn).Nodup)
    (hio_ne : ∀ p ∈ t.inOut, p.1 ≠ p.2) (hoi_ne : ∀ p ∈ t.outIn, p.1 ≠ p.2)
    {x o : String}
    (hFx : dget (dstrip (composeStep t.outIn t.inOut)) x = some o)
    (hxc : x ∉ (composeList [t, t.inverse]).conflicting_keys) :
    x ≠ o ∧ dget (composeStep t.outIn t.inOut) x = some o ∧
    dget (composeStep t.outIn t.inOut) o = some x := by
  have hcomp : composeList [t, t.inverse] =
      mkExplicit (composeStep t.outIn t.inOut) (composeStep t.outIn t.inOut) :=
    compose_inv_eq t hio_ne hoi_ne
  have hFpnodup : (dkeys (composeStep t.outIn t.inOut)).Nodup := by
    rw [composeStep]
    exact dupdate_nodup _ hoi_n
  have hmemF : (x, o) ∈ dstrip (composeStep t.outIn t.inOut) := dget_mem hFx
  have hxo : x ≠ o := (mem_dstrip.1 hmemF).2
  have hFpx : dget (composeStep t.outIn t.inOut) x = some o :=
    mem_dget_nodup (mem_dstrip.1 hmemF).1 hFpnodup
  have hxc' : x ∉ (mkExplicit (composeStep t.outIn t.inOut)
      (composeStep t.outIn t.inOut)).conflicting_keys := by
    rw [← hcomp]; exact hxc
  have hcv : dget (dstrip (composeStep t.outIn t.inOut)) o = some x :=
    mkExplicit_not_confl_fwd hxc' hmemF
  have hoFp : dget (composeStep t.outIn t.inOut) o = some x :=
    mem_dget_nodup (mem_dstrip.1 (dget_mem hcv)).1 hFpnodup
  exact ⟨hxo, hFpx, hoFp⟩

/-- A label outside both conflict sets is never moved by
`compose([t, invert(t)])`: single-dict constructor case. -/
theorem compose_inv_none_ff (f : AList String) (hf : (dkeys f).Nodup)
    (x : String) (hxt : x ∉ (mkFromForward f).conflicting_keys)
    (hxc : x ∉ (composeList [mkFromForward f, (mkFromForward f).inverse]).conflicting_keys) :
    dget (dstrip (composeStep (mkFromForward f).outIn (mkFromForward f).inOut)) x = none := by
  have hsn : (dkeys (mkFromForward f).inOut).Nodup := dstrip_nodup hf
  have hoin : (dkeys (mkFromForward f).outIn).Nodup := by
    rw [mkFromForward_outIn_eq]
    exact ff_keysNodup (by simp [dkeys])
  have hGet : ∀ k, dget (composeStep (mkFromForward f).outIn (mkFromForward f).inOut) k =
      match dget (mkFromForward f).inOut k with
      | some w => some (dgetD (mkFromForward f).outIn w w)
      | none => dget (mkFromForward f).outIn k :=
    composeStep_get (mkFromForward f).outIn (mkFromForward f).inOut hsn
  cases hFx : dget (dstrip (composeStep (mkFromForward f).outIn (mkFromForward f).inOut)) x with
  | none => rfl
  | some o =>
    exfalso
    obtain ⟨hxo, hGx, hGo⟩ := compose_inv_cycle (mkFromForward f) hsn hoin
      (mkFromForward_inOut_ne f) (mkFromForward_outIn_ne f) hFx hxc
    have hsrc : ∀ {u v : String}, (u, v) ∈ (mkFromForward f).outIn →
        (v, u) ∈ (mkFromForward f).inOut := by
      intro u v hm
      rw [mkFromForward_outIn_eq] at hm
      rcases ff_entry_src hm with h | h
      · simp at h
      · exact h
    have hproc : ∀ {u v : String}, (u, v) ∈ (mkFromForward f).inOut →
        (dget (mkFromForward f).outIn v).isSome = true ∨
        v ∈ (mkFromForward f).conflicting_keys := by
      intro u v hm
      rw [mkFromForward_outIn_eq, mkFromForward_confl_eq]
      exact ff_processed hm
    cases hIOx : dget (mkFromForward f).inOut x with
    | some w =>
      cases hOIw : dget (mkFromForward f).outIn w with
      | some v =>
        have ex : dget (composeStep (mkFromForward f).outIn (mkFromForward f).inOut) x =
            some v := by
          rw [hGet x, hIOx]
          show some (dgetD (mkFromForward f).outIn w w) = some v
          rw [dgetD, hOIw]
          rfl
        have hov : o = v := by
          rw [hGx] at ex
          exact (Option.some.injEq _ _ ▸ ex :)
        have hvw : (v, w) ∈ (mkFromForward f).inOut := hsrc (dget_mem hOIw)
        have hIOv : dget (mkFromForward f).inOut v = some w := mem_dget_nodup hvw hsn
        have ev : dget (composeStep (mkFromForward f).outIn (mkFromForward f).inOut) v =
            some v := by
          rw [hGet v, hIOv]
          show some (dgetD (mkFromForward f).outIn w w) = some v
          rw [dgetD, hOIw]
          rfl
        rw [← hov] at ev
        rw [hGo] at ev
        have : x = o := by
          have := (Option.some.injEq _ _ ▸ ev :)
          exact this
        exact hxo this
      | none =>
        have ex : dget (composeStep (mkFromForward f).outIn (mkFromForward f).inOut) x =
            some w := by
          rw [hGet x, hIOx]
          show some (dgetD (mkFromForward f).outIn w w) = some w
          rw [dgetD, hOIw]
          rfl
        have how : o = w := by
          rw [hGx] at ex
          exact (Option.some.injEq _ _ ▸ ex :)
        rw [← how] at hOIw
        cases hIOo : dget (mkFromForward f).inOut o with
        | some z =>
          have hoz : o ≠ z := mkFromForward_inOut_ne f (o, z) (dget_mem hIOo)
          cases hOIz : dget (mkFromForward f).outIn z with
          | some v =>
            have eo : dget (composeStep (mkFromForward f).outIn (mkFromForward f).inOut) o =
                some v := by
              rw [hGet o, hIOo]
              show some (dgetD (mkFromForward f).outIn z z) = some v
              rw [dgetD, hOIz]
              rfl
            have hvx : v = x := by
              rw [hGo] at eo
              exact ((Option.some.injEq _ _ ▸ eo :)).symm
            have hxz : (x, z) ∈ (mkFromForward f).inOut := by
              rw [← hvx]
              exact hsrc (dget_mem hOIz)
            have : dget (mkFromForward f).inOut x = some z := mem_dget_nodup hxz hsn
            rw [hIOx] at this
            have hwz : w = z := (Option.some.injEq _ _ ▸ this :)
            rw [← how] at hwz
            exact hoz hwz
          | none =>
            have eo : dget (composeStep (mkFromForward f).outIn (mkFromForward f).inOut) o =
                some z := by
              rw [hGet o, hIOo]
              show some (dgetD (mkFromForward f).outIn z z) = some z
              rw [dgetD, hOIz]
              rfl
            have hzx : z = x := by
              rw [hGo] at eo
              exact ((Option.some.injEq _ _ ▸ eo :)).symm
            rcases hproc (dget_mem hIOo) with h | h
            · rw [hOIz] at h
              simp at h
            · rw [hzx] at h
              exact hxt h
        | none =>
          have eo : dget (composeStep (mkFromForward f).outIn (mkFromForward f).inOut) o =
              none := by
            rw [hGet o, hIOo]
            exact hOIw
          rw [hGo] at eo
          simp at eo
    | none =>
      have ex : dget (composeStep (mkFromForward f).outIn (mkFromForward f).inOut) x =
          dget (mkFromForward f).outIn x := by
        rw [hGet x, hIOx]
      have hOIx : dget (mkFromForward f).outIn x = some o := by rw [← ex]; exact hGx
      have hox : (o, x) ∈ (mkFromForward f).inOut := hsrc (dget_mem hOIx)
      have hIOo : dget (mkFromForward f).inOut o = some x := mem_dget_nodup hox hsn
      have eo : dget (composeStep (mkFromForward f).outIn (mkFromForward f).inOut) o =
          some o := by
        rw [hGet o, hIOo]
        show some (dgetD (mkFromForward f).outIn x x) = some o
        rw [dgetD, hOIx]
        rfl
      rw [hGo] at eo
      have : x = o := (Option.some.injEq _ _ ▸ eo :)
      exact hxo this

/-- A label outside both conflict sets is never moved by
`compose([t, invert(t)])`: two-dict constructor case. -/
theorem compose_inv_none_ex (a b : AList String)
    (ha : (dkeys a).Nodup) (hb : (dkeys b).Nodup)
    (x : String) (hxt : x ∉ (mkExplicit a b).conflicting_keys)
    (hxc : x ∉ (composeList [mkExplicit a b, (mkExplicit a b).inverse]).conflicting_keys) :
    dget (dstrip (composeStep (mkExplicit a b).outIn (mkExplicit a b).inOut)) x = none := by
  have hsn : (dkeys (mkExplicit a b).inOut).Nodup := dstrip_nodup ha
  have hoin : (dkeys (mkExplicit a b).outIn).Nodup := dstrip_nodup hb
  have hGet : ∀ k, dget (composeStep (mkExplicit a b).outIn (mkExplicit a b).inOut) k =
      match dget (mkExplicit a b).inOut k with
      | some w => some (dgetD (mkExplicit a b).outIn w w)
      | none => dget (mkExplicit a b).outIn k :=
    composeStep_get (mkExplicit a b).outIn (mkExplicit a b).inOut hsn
  cases hFx : dget (dstrip (composeStep (mkExplicit a b).outIn (mkExplicit a b).inOut)) x with
  | none => rfl
  | some o =>
    exfalso
    obtain ⟨hxo, hGx, hGo⟩ := compose_inv_cycle (mkExplicit a b) hsn hoin
      (mkExplicit_inOut_ne a b) (mkExplicit_outIn_ne a b) hFx hxc
    cases hIOx : dget (mkExplicit a b).inOut x with
    | some w =>
      have hOIw : dget (mkExplicit a b).outIn w = some x :=
        mkExplicit_not_confl_fwd hxt (dget_mem hIOx)
      have ex : dget (composeStep (mkExplicit a b).outIn (mkExplicit a b).inOut) x =
          some x := by
        rw [hGet x, hIOx]
        show some (dgetD (mkExplicit a b).outIn w w) = some x
        rw [dgetD, hOIw]
        rfl
      rw [hGx] at ex
      exact hxo ((Option.some.injEq _ _ ▸ ex :)).symm
    | none =>
      have ex : dget (composeStep (mkExplicit a b).outIn (mkExplicit a b).inOut) x =
          dget (mkExplicit a b).outIn x := by
        rw [hGet x, hIOx]
      have hOIx : dget (mkExplicit a b).outIn x = some o := by rw [← ex]; exact hGx
      cases hIOo : dget (mkExplicit a b).inOut o with
      | some z =>
        cases hOIz : dget (mkExplicit a b).outIn z with
        | some v =>
          have eo : dget (composeStep (mkExplicit a b).outIn (mkExplicit a b).inOut) o =
              some v := by
            rw [hGet o, hIOo]
            show some (dgetD (mkExplicit a b).outIn z z) = some v
            rw [dgetD, hOIz]
            rfl
          have hvx : v = x := by
            rw [hGo] at eo
            exact ((Option.some.injEq _ _ ▸ eo :)).symm
          have hzx : (z, x) ∈ (mkExplicit a b).outIn := by
            rw [← hvx]
            exact dget_mem hOIz
          have := mkExplicit_not_confl_bwd hxt hzx
          rw [hIOx] at this
          simp at this
        | none =>
          have eo : dget (composeStep (mkExplicit a b).outIn (mkExplicit a b).inOut) o =
              some z := by
            rw [hGet o, hIOo]
            show some (dgetD (mkExplicit a b).outIn z z) = some z
            rw [dgetD, hOIz]
            rfl
          have hzx : z = x := by
            rw [hGo] at eo
            exact ((Option.some.injEq _ _ ▸ eo :)).symm
          rw [hzx] at hOIz
          rw [hOIz] at hOIx
          simp at hOIx
      | none =>
        have eo : dget (composeStep (mkExplicit a b).outIn (mkExplicit a b).inOut) o =
            dget (mkExplicit a b).outIn o := by
          rw [hGet o, hIOo]
        have hOIo : dget (mkExplicit a b).outIn o = some x := by rw [← eo]; exact hGo
        have := mkExplicit_not_confl_bwd hxt (dget_mem hOIo)
        rw [hIOx] at this
        simp at this

/-- Every label outside both conflict sets is fixed in both directions by
`compose([t, invert(t)])`, for any constructed translation. -/
theorem compose_inverse_fixes (t : LayoutTranslation) (hwf : ConstructedWF t)
    (x : String) (hxt : x ∉ t.conflicting_keys)
    (hxc : x ∉ (composeList [t, t.inverse]).conflicting_keys) :
    (composeList [t, t.inverse]).map_input_to_output x = x ∧
    (composeList [t, t.inverse]).map_output_to_input x = x := by
  have hnone : dget (dstrip (composeStep t.outIn t.inOut)) x = none := by
    rcases hwf with ⟨f, hf, rfl⟩ | ⟨a, b, ha, hb, rfl⟩
    · exact compose_inv_none_ff f hf x hxt hxc
    · exact compose_inv_none_ex a b ha hb x hxt hxc
  have hcomp : composeList [t, t.inverse] =
      mkExplicit (composeStep t.outIn t.inOut) (composeStep t.outIn t.inOut) :=
    compose_inv_eq t hwf.inOut_ne hwf.outIn_ne
  rw [hcomp]
  constructor
  · show dgetD (dstrip (composeStep t.outIn t.inOut)) x x = x
    rw [dgetD, hnone]
    rfl
  · show dgetD (dstrip (composeStep t.outIn t.inOut)) x x = x
    rw [dgetD, hnone]
    rfl

/-- C6 counterexample.  For the invalid single-dict translation
`t = from_forward({'A':'B'})`, `compose([t])` is **not** equal to `t`: the
composition rebuilds the result through the two-dict constructor, which
recomputes the conflict set under the explicit-backward convention
(`{'A'}`, a physical-side label) instead of `t`'s own `{'B'}`. -/
theorem C6_counterexample :
    (composeList [mkFromForward [("A", "B")]]).conflicting_keys = ["A"] ∧
    (mkFromForward [("A", "B")]).conflicting_keys = ["B"] ∧
    composeList [mkFromForward [("A", "B")]] ≠ mkFromForward [("A", "B")] := by
  refine ⟨by decide, by decide, by decide⟩

/-- C6 (corrected).  `compose([]) == identity`; `compose([t]) == t` holds for
every **valid** constructed translation (and unconditionally for two-dict
constructed ones), while for an invalid single-dict translation the conflict
set is recomputed under the explicit-backward convention; and
`compose([t, invert(t)])` maps every label that is in neither `t`'s conflict
set nor the composite's conflict set to itself in both directions. -/
theorem C6_compose_laws :
    composeList [] = LayoutTranslation.identity ∧
    (∀ t : LayoutTranslation, ConstructedWF t → t.conflicting_keys = [] →
      composeList [t] = t) ∧
    (∀ t : LayoutTranslation, ConstructedWF t → ∀ x : String,
      x ∉ t.conflicting_keys →
      x ∉ (composeList [t, t.inverse]).conflicting_keys →
      (composeList [t, t.inverse]).map_input_to_output x = x ∧
      (composeList [t, t.inverse]).map_output_to_input x = x) := by
  refine ⟨rfl, ?_, compose_inverse_fixes⟩
  intro t hwf hval
  rcases hwf with ⟨f, hf, rfl⟩ | ⟨a, b, _, _, rfl⟩
  · exact composeList_singleton_fromForward f hf hval
  · exact composeList_singleton_mkExplicit a b

/-- C6 witness: the compose laws instantiated on the QWERTZ swap. -/
theorem C6_compose_laws_witness :
    composeList [mkFromForward [("Y", "Z"), ("Z", "Y")]] =
      mkFromForward [("Y", "Z"), ("Z", "Y")] ∧
    (composeList [mkFromForward [("Y", "Z"), ("Z", "Y")],
      (mkFromForward [("Y", "Z"), ("Z", "Y")]).inverse]).map_input_to_output "Q" = "Q" :=
  ⟨C6_compose_laws.2.1 _ (Or.inl ⟨[("Y", "Z"), ("Z", "Y")], by decide, rfl⟩) (by decide),
   (C6_compose_laws.2.2 _ (Or.inl ⟨[("Y", "Z"), ("Z", "Y")], by decide, rfl⟩) "Q"
     (by decide) (by decide)).1⟩

/-! ### JSON values and operator-property compaction (`preferences.py`) -/

/-- JSON-representable values flowing through `operator_properties_to_dict`:
primitives, sets, sequences, nested dicts, and `None`. -/
inductive JVal where
  | jnull
  | jbool (b : Bool)
  | jnum (n : Int)
  | jstr (s : String)
  | jlist (l : List JVal)
  | jset (l : List JVal)
  | jdict (d : List (String × JVal))

mutual

def JVal.decEq : (a b : JVal) → Decidable (a = b)
  | .jnull, .jnull => isTrue rfl
  | .jbool a, .jbool b =>
    if h : a = b then isTrue (by rw [h])
    else isFalse (fun he => h (JVal.jbool.inj he))
  | .jnum a, .jnum b =>
    if h : a = b then isTrue (by rw [h])
    else isFalse (fun he => h (JVal.jnum.inj he))
  | .jstr a, .jstr b =>
    if h : a = b then isTrue (by rw [h])
    else isFalse (fun he => h (JVal.jstr.inj he))
  | .jlist a, .jlist b =>
    match JVal.decEqList a b with
    | isTrue h => isTrue (by rw [h])
    | isFalse h => isFalse (fun he => h (JVal.jlist.inj he))
  | .jset a, .jset b =>
    match JVal.decEqList a b with
    | isTrue h => isTrue (by rw [h])
    | isFalse h => isFalse (fun he => h (JVal.jset.inj he))
  | .jdict a, .jdict b =>
    match JVal.decEqDict a b with
    | isTrue h => isTrue (by rw [h])
    | isFalse h => isFalse (fun he => h (JVal.jdict.inj he))
  | .jnull, .jbool _ => isFalse (fun h => JVal.noConfusion h)
  | .jnull, .jnum _ => isFalse (fun h => JVal.noConfusion h)
  | .jnull, .jstr _ => isFalse (fun h => JVal.noConfusion h)
  | .jnull, .jlist _ => isFalse (fun h => JVal.noConfusion h)
  | .jnull, .jset _ => isFalse (fun h => JVal.noConfusion h)
  | .jnull, .jdict _ => isFalse (fun h => JVal.noConfusion h)
  | .jbool _, .jnull => isFalse (fun h => JVal.noConfusion h)
  | .jbool _, .jnum _ => isFalse (fun h => JVal.noConfusion h)
  | .jbool _, .jstr _ => isFalse (fun h => JVal.noConfusion h)
  | .jbool _, .jlist _ => isFalse (fun h => JVal.noConfusion h)
  | .jbool _, .jset _ => isFalse (fun h => JVal.noConfusion h)
  | .jbool _, .jdict _ => isFalse (fun h => JVal.noConfusion h)
  | .jnum _, .jnull => isFalse (fun h => JVal.noConfusion h)
  | .jnum _, .jbool _ => isFalse (fun h => JVal.noConfusion h)
  | .jnum _, .jstr _ => isFalse (fun h => JVal.noConfusion h)
  | .jnum _, .jlist _ => isFalse (fun h => JVal.noConfusion h)
  | .jnum _, .jset _ => isFalse (fun h => JVal.noConfusion h)
  | .jnum _, .jdict _ => isFalse (fun h => JVal.noConfusion h)
  | .jstr _, .jnull => isFalse (fun h => JVal.noConfusion h)
  | .jstr _, .jbool _ => isFalse (fun h => JVal.noConfusion h)
  | .jstr _, .jnum _ => isFalse (fun h => JVal.noConfusion h)
  | .jstr _, .jlist _ => isFalse (fun h => JVal.noConfusion h)
  | .jstr _, .jset _ => isFalse (fun h => JVal.noConfusion h)
  | .jstr _, .jdict _ => isFalse (fun h => JVal.noConfusion h)
  | .jlist _, .jnull => isFalse (fun h => JVal.noConfusion h)
  | .jlist _, .jbool _ => isFalse (fun h => JVal.noConfusion h)
  | .jlist _, .jnum _ => isFalse (fun h => JVal.noConfusion h)
  | .jlist _, .jstr _ => isFalse (fun h => JVal.noConfusion h)
  | .jlist _, .jset _ => isFalse (fun h => JVal.noConfusion h)
  | .jlist _, .jdict _ => isFalse (fun h => JVal.noConfusion h)
  | .jset _, .jnull => isFalse (fun h => JVal.noConfusion h)
  | .jset _, .jbool _ => isFalse (fun h => JVal.noConfusion h)
  | .jset _, .jnum _ => isFalse (fun h => JVal.noConfusion h)
  | .jset _, .jstr _ => isFalse (fun h => JVal.noConfusion h)
  | .jset _, .jlist _ => isFalse (fun h => JVal.noConfusion h)
  | .jset _, .jdict _ => isFalse (fun h => JVal.noConfusion h)
  | .jdict _, .jnull => isFalse (fun h => JVal.noConfusion h)
  | .jdict _, .jbool _ => isFalse (fun h => JVal.noConfusion h)
  | .jdict _, .jnum _ => isFalse (fun h => JVal.noConfusion h)
  | .jdict _, .jstr _ => isFalse (fun h => JVal.noConfusion h)
  | .jdict _, .jlist _ => isFalse (fun h => JVal.noConfusion h)
  | .jdict _, .jset _ => isFalse (fun h => JVal.noConfusion h)

def JVal.decEqList : (a b : List JVal) → Decidable (a = b)
  | [], [] => isTrue rfl
  | [], _ :: _ => isFalse (fun h => List.noConfusion h)
  | _ :: _, [] => isFalse (fun h => List.noConfusion h)
  | a :: as, b :: bs =>
    match JVal.decEq a b with
    | isFalse h1 => isFalse (fun he => h1 (List.cons.inj he).1)
    | isTrue h1 =>
      match JVal.decEqList as bs with
      | isTrue h2 => isTrue (by rw [h1, h2])
      | isFalse h2 => isFalse (fun he => h2 (List.cons.inj he).2)

def JVal.decEqDict : (a b : List (String × JVal)) → Decidable (a = b)
  | [], [] => isTrue rfl
  | [], _ :: _ => isFalse (fun h => List.noConfusion h)
  | _ :: _, [] => isFalse (fun h => List.noConfusion h)
  | (ka, va) :: as, (kb, vb) :: bs =>
    if h0 : ka = kb then
      match JVal.decEq va vb with
      | isFalse h1 => isFalse (fun he => h1 (congrArg Prod.snd (List.cons.inj he).1))
      | isTrue h1 =>
        match JVal.decEqDict as bs with
        | isTrue h2 => isTrue (by rw [h0, h1, h2])
        | isFalse h2 => isFalse (fun he => h2 (List.cons.inj he).2)
    else isFalse (fun he => h0 (congrArg Prod.fst (List.cons.inj he).1))

end

instance : DecidableEq JVal := JVal.decEq

/-- Python truthiness (`bool(v)`) on the modelled JSON values. -/
def truthy : JVal → Bool
  | .jnull => false
  | .jbool b => b
  | .jnum n => decide (n ≠ 0)
  | .jstr s => decide (s ≠ "")
  | .jlist l => !l.isEmpty
  | .jset l => !l.isEmpty
  | .jdict d => !d.isEmpty

mutual

/-- The dict comprehension of `compact_operator_properties`: drop falsy values,
recurse into dict values. -/
def compactEntries : List (String × JVal) → List (String × JVal)
  | [] => []
  | (k, v) :: rest =>
    if truthy v then (k, compactValue v) :: compactEntries rest
    else compactEntries rest

/-- `compact_operator_properties(v) if isinstance(v, dict) else v` as a value
transformer (the recursive call returns `None` for an all-falsy dict). -/
def compactValue : JVal → JVal
  | .jdict d =>
    match compactEntries d with
    | [] => .jnull
    | c => .jdict c
  | v => v

end

/-- `compact_operator_properties` on an optional property dict. -/
def compact_operator_properties : Option (List (String × JVal)) → Option (List (String × JVal))
  | none => none
  | some d =>
    match compactEntries d with
    | [] => none
    | c => some c

/-! ### Keymap items, fingerprints and diffs (`preferences.py`) -/

/-- The fields of a Blender `KeyMapItem` read by this add-on.  `props` is the
already-extracted `operator_properties_to_dict(kmi.properties)` (the RNA
traversal itself is host code); `locked` models a host that raises when
`kmi.type` is assigned (e.g. a read-only binding). -/
structure Kmi where
  idname : String
  map_type : String
  value : String
  type : String
  props : Option (List (String × JVal))
  propvalue : String
  active : Bool
  hyper : Int
  oskey : Int
  ctrl : Int
  alt : Int
  shift : Int
  key_modifier : String
  repeats : Bool
  locked : Bool
deriving DecidableEq

/-- The `op_ch` helper inside `kmi_modifier_string`. -/
def op_ch (op : Int) (ch : String) : String :=
  if op ≠ 0 then (if op < 0 then "~" else "") ++ ch else ""

/-- `kmi_modifier_string(kmi)`. -/
def kmi_modifier_string (kmi : Kmi) : String :=
  op_ch kmi.hyper "@" ++ op_ch kmi.oskey "#" ++ op_ch kmi.ctrl "^" ++
  op_ch kmi.alt "!" ++ op_ch kmi.shift "+" ++
  (if kmi.key_modifier ≠ "NONE" then kmi.key_modifier else "") ++
  (if kmi.repeats then "*" else "")

/-- `KmiFingerprint`: compacted parameters, propvalue and active flag.
Note: Python compares the `properties` dicts content-wise; in this model all
fingerprints are produced in one canonical insertion order, so ordered list
equality coincides with dict equality on every value reached here. -/
structure KmiFingerprint where
  properties : Option (List (String × JVal))
  propvalue : Option String
  active : Bool
deriving DecidableEq

/-- `KmiFingerprint.from_kmi`. -/
def KmiFingerprint.from_kmi (kmi : Kmi) : KmiFingerprint :=
  let stored_props := compact_operator_properties kmi.props
  let propvalue := if kmi.propvalue = "NONE" then none else some kmi.propvalue
  ⟨stored_props, propvalue, kmi.active⟩

/-- `KmiFingerprint.encode_json`: positional list, defaults omitted. -/
def KmiFingerprint.encode_json (f : KmiFingerprint) : List JVal :=
  (match f.properties with
   | some d => if d.isEmpty then [] else [JVal.jdict d]
   | none => []) ++
  (match f.propvalue with
   | some v => [JVal.jstr v]
   | none => []) ++
  (if f.active then [] else [JVal.jbool false])

/-- `KmiFingerprint.decode_json`: positional scan with isinstance checks. -/
def KmiFingerprint.decode_json (s : List JVal) : KmiFingerprint :=
  let step1 : Option (List (String × JVal)) × List JVal :=
    match s with
    | JVal.jdict d :: rest => (some d, rest)
    | _ => (none, s)
  let step2 : Option String × List JVal :=
    match step1.2 with
    | JVal.jstr v :: rest => (some v, rest)
    | _ => (none, step1.2)
  let active : Bool :=
    match step2.2 with
    | JVal.jbool b :: _ => b
    | _ => true
  ⟨step1.1, step2.1, active⟩

/-- `KmiAssignmentDiff`: recorded modifier signature, source/target chars and
trigger mode. -/
structure KmiAssignmentDiff where
  modifiers : String
  source_char : String
  target_char : String
  value : String := "PRESS"
deriving DecidableEq

/-- `KmiAssignmentDiff.from_kmi_and_chars`. -/
def KmiAssignmentDiff.from_kmi_and_chars (kmi : Kmi) (source_char target_char : String) :
    KmiAssignmentDiff :=
  ⟨kmi_modifier_string kmi, source_char, target_char, kmi.value⟩

/-- `KmiAssignmentDiff.from_kmi_and_types`. -/
def KmiAssignmentDiff.from_kmi_and_types (kmi : Kmi) (source_type target_type : String) :
    KmiAssignmentDiff :=
  KmiAssignmentDiff.from_kmi_and_chars kmi
    (event_type_to_char source_type) (event_type_to_char target_type)

/-- `KmiAssignmentDiff.encode_json`: positional list, default value omitted. -/
def KmiAssignmentDiff.encode_json (d : KmiAssignmentDiff) : List JVal :=
  [JVal.jstr d.modifiers, JVal.jstr d.source_char, JVal.jstr d.target_char] ++
  (if d.value = "PRESS" then [] else [JVal.jstr d.value])

/-- `KmiAssignmentDiff.decode_json`: positional scan with isinstance checks. -/
def KmiAssignmentDiff.decode_json (s : List JVal) : KmiAssignmentDiff :=
  let step1 : String × List JVal :=
    match s with
    | JVal.jstr v :: rest => (v, rest)
    | _ => ("", s)
  let step2 : String × List JVal :=
    match step1.2 with
    | JVal.jstr v :: rest => (v, rest)
    | _ => ("", step1.2)
  let step3 : String × List JVal :=
    match step2.2 with
    | JVal.jstr v :: rest => (v, rest)
    | _ => ("", step2.2)
  let value : String :=
    match step3.2 with
    | JVal.jstr v :: _ => v
    | _ => "PRESS"
  ⟨step1.1, step2.1, step3.1, value⟩

/-- `resolve_remapped_keymap_item(kmi, per_op_kmi)`: the reconciler. -/
def resolve_remapped_keymap_item (kmi : Kmi)
    (per_op_kmi : List (KmiFingerprint × KmiAssignmentDiff)) :
    Option (KmiFingerprint × KmiAssignmentDiff) :=
  let test_fingerprint := KmiFingerprint.from_kmi kmi
  let compatible := per_op_kmi.filter (fun t => decide (test_fingerprint = t.1))
  if compatible.length = 1 then compatible.head?
  else if compatible.isEmpty then none
  else
    let kmi_char := event_type_to_char kmi.type
    let compatible_after := compatible.filter (fun t => decide (kmi_char = t.2.target_char))
    if compatible_after.length = 1 then compatible_after.head?
    else
      let compatible_before := compatible.filter (fun t => decide (kmi_char = t.2.source_char))
      if compatible_before.length = 1 then compatible_before.head?
      else
        let kmi_modifier := kmi_modifier_string kmi
        let compatible2 := compatible.filter (fun t =>
          decide (kmi_modifier = t.2.modifiers) && decide (kmi.value = t.2.value))
        if compatible2.length = 1 then compatible2.head?
        else if compatible2.isEmpty then none
        else
          let compatible_after2 := compatible2.filter (fun t => decide (kmi_char = t.2.target_char))
          if compatible_after2.length = 1 then compatible_after2.head?
          else
            let compatible_before2 := compatible2.filter (fun t => decide (kmi_char = t.2.source_char))
            if compatible_before2.length = 1 then compatible_before2.head?
            else none

/-! ### Claim C10: JSON round-trip of the journal record types -/

/-- C10 (confirmed).  The journal record types round-trip through their JSON
encodings: any `KmiFingerprint` whose `properties` field is `None` or a
non-empty dict decodes back from its encoding, and any `KmiAssignmentDiff`
with string fields does too, including when optional fields take their
defaults and are omitted from the encoded list. -/
theorem C10_json_roundtrip :
    (∀ f : KmiFingerprint,
      (f.properties = none ∨ ∃ d, f.properties = some d ∧ d ≠ []) →
      KmiFingerprint.decode_json (KmiFingerprint.encode_json f) = f) ∧
    (∀ d : KmiAssignmentDiff,
      KmiAssignmentDiff.decode_json (KmiAssignmentDiff.encode_json d) = d) := by
  constructor
  · rintro ⟨props, pv, act⟩ hp
    rcases hp with hp | ⟨d, hp, hd⟩
    · subst hp
      cases pv <;> cases act <;>
        simp [KmiFingerprint.encode_json, KmiFingerprint.decode_json]
    · subst hp
      have hde : d.isEmpty = false := by
        cases d with
        | nil => exact absurd rfl hd
        | cons a l => rfl
      cases pv <;> cases act <;>
        simp [KmiFingerprint.encode_json, KmiFingerprint.decode_json, hde]
  · rintro ⟨m, s, t, v⟩
    by_cases hv : v = "PRESS"
    · subst hv
      simp [KmiAssignmentDiff.encode_json, KmiAssignmentDiff.decode_json]
    · simp [KmiAssignmentDiff.encode_json, KmiAssignmentDiff.decode_json, hv]

/-- C10 witness: round trips at concrete records, one with all defaults
omitted and one with every field explicit. -/
theorem C10_json_roundtrip_witness :
    KmiFingerprint.decode_json (KmiFingerprint.encode_json ⟨none, some "TRANSLATE", true⟩) =
      ⟨none, some "TRANSLATE", true⟩ ∧
    KmiFingerprint.decode_json (KmiFingerprint.encode_json
        ⟨some [("name", JVal.jstr "x")], none, false⟩) =
      ⟨some [("name", JVal.jstr "x")], none, false⟩ ∧
    KmiAssignmentDiff.decode_json (KmiAssignmentDiff.encode_json ⟨"^", "A", "Q", "PRESS"⟩) =
      ⟨"^", "A", "Q", "PRESS"⟩ ∧
    KmiAssignmentDiff.decode_json (KmiAssignmentDiff.encode_json ⟨"", ";", "M", "RELEASE"⟩) =
      ⟨"", ";", "M", "RELEASE"⟩ :=
  ⟨C10_json_roundtrip.1 _ (Or.inl rfl),
   C10_json_roundtrip.1 _ (Or.inr ⟨_, rfl, by decide⟩),
   C10_json_roundtrip.2 _,
   C10_json_roundtrip.2 _⟩

/-! ### Claim C1: reconciler disambiguation by current character -/

/-- C1 (confirmed).  Given two journal candidates with fingerprints equal to
the binding's own fingerprint, whose diffs differ only in `target_char`, the
reconciler resolves the binding to the candidate whose `target_char` equals
the binding's current trigger character, never to the other one — in either
candidate order. -/
theorem C1_resolve_prefers_target (kmi : Kmi)
    (c₁ c₂ : KmiFingerprint × KmiAssignmentDiff)
    (h₁ : KmiFingerprint.from_kmi kmi = c₁.1)
    (h₂ : KmiFingerprint.from_kmi kmi = c₂.1)
    (hmods : c₁.2.modifiers = c₂.2.modifiers)
    (hsrc : c₁.2.source_char = c₂.2.source_char)
    (hval : c₁.2.value = c₂.2.value)
    (htgt : c₁.2.target_char ≠ c₂.2.target_char)
    (hchar : event_type_to_char kmi.type = c₁.2.target_char) :
    resolve_remapped_keymap_item kmi [c₁, c₂] = some c₁ ∧
    resolve_remapped_keymap_item kmi [c₂, c₁] = some c₁ := by
  have hne : ¬ event_type_to_char kmi.type = c₂.2.target_char := by
    rw [hchar]
    exact htgt
  constructor
  · have e1 : List.filter (fun t => decide (KmiFingerprint.from_kmi kmi = t.1)) [c₁, c₂] =
        [c₁, c₂] := by
      rw [List.filter_eq_self]
      intro a ha
      simp at ha
      rcases ha with rfl | rfl
      · exact decide_eq_true h₁
      · exact decide_eq_true h₂
    have e2 : List.filter
        (fun t => decide (event_type_to_char kmi.type = t.2.target_char)) [c₁, c₂] = [c₁] := by
      simp only [List.filter_cons, List.filter_nil, decide_eq_true hchar,
        decide_eq_false hne, if_pos, if_neg, Bool.false_eq_true, if_false, if_true]
    simp only [resolve_remapped_keymap_item]
    rw [e1]
    rw [if_neg (by simp)]
    rw [if_neg (by simp)]
    rw [e2]
    rw [if_pos (by simp)]
    rfl
  · have e1 : List.filter (fun t => decide (KmiFingerprint.from_kmi kmi = t.1)) [c₂, c₁] =
        [c₂, c₁] := by
      rw [List.filter_eq_self]
      intro a ha
      simp at ha
      rcases ha with rfl | rfl
      · exact decide_eq_true h₂
      · exact decide_eq_true h₁
    have e2 : List.filter
        (fun t => decide (event_type_to_char kmi.type = t.2.target_char)) [c₂, c₁] = [c₁] := by
      simp only [List.filter_cons, List.filter_nil, decide_eq_true hchar,
        decide_eq_false hne, if_pos, if_neg, Bool.false_eq_true, if_false, if_true]
    simp only [resolve_remapped_keymap_item]
    rw [e1]
    rw [if_neg (by simp)]
    rw [if_neg (by simp)]
    rw [e2]
    rw [if_pos (by simp)]
    rfl

/-- C1 witness: a concrete binding bound twice to the same operator, already
remapped under the swap `A <-> Q`. -/
theorem C1_resolve_prefers_target_witness :
    resolve_remapped_keymap_item
      ⟨"transform.translate", "KEYBOARD", "PRESS", "Q", none, "NONE", true,
        0, 0, 0, 0, 0, "NONE", false, false⟩
      [(⟨none, none, true⟩, ⟨"", "A", "Q", "PRESS"⟩),
       (⟨none, none, true⟩, ⟨"", "A", "W", "PRESS"⟩)] =
      some (⟨none, none, true⟩, ⟨"", "A", "Q", "PRESS"⟩) := by
  have h := C1_resolve_prefers_target
    ⟨"transform.translate", "KEYBOARD", "PRESS", "Q", none, "NONE", true,
      0, 0, 0, 0, 0, "NONE", false, false⟩
    (⟨none, none, true⟩, ⟨"", "A", "Q", "PRESS"⟩)
    (⟨none, none, true⟩, ⟨"", "A", "W", "PRESS"⟩)
    (by decide) (by decide) (by decide) (by decide) (by decide) (by decide) (by decide)
  exact h.1

/-! ### Keymaps, the journal, and the remap engine
(`preferences.py` + `keymap_patch.py`) -/

/-- The fields of a Blender `KeyMap` read by this add-on. -/
structure KeyMap where
  is_modal : Bool
  space_type : String
  region_type : String
  name : String
  keymap_items : List Kmi
deriving DecidableEq

/-- `keymap_id(km)`. -/
def keymap_id (km : KeyMap) : String :=
  (if km.is_modal then "modal:" else "") ++
  km.space_type ++ "." ++ km.region_type ++ ":" ++ km.name

/-- The journal (`prefs.remapped_keys`):
keymap id → operator id → list of (fingerprint, diff). -/
abbrev Journal := AList (AList (List (KmiFingerprint × KmiAssignmentDiff)))

/-- `is_remappable_keymap_item(kmi, layout_translation)`. -/
def is_remappable_keymap_item (kmi : Kmi) (tr : LayoutTranslation) : Bool :=
  if kmi.map_type != "KEYBOARD" || (kmi.value != "PRESS" && kmi.value != "RELEASE") then false
  else tr.remapped_input_characters.contains (event_type_to_char kmi.type)

/-- `is_remapped_keymap_item(kmi, layout_translation)`. -/
def is_remapped_keymap_item (kmi : Kmi) (tr : LayoutTranslation) : Bool :=
  if kmi.map_type != "KEYBOARD" || (kmi.value != "PRESS" && kmi.value != "RELEASE") then false
  else tr.remapped_output_characters.contains (event_type_to_char kmi.type)

/-- Inner loop of `pending_keymaps_to_emulate` for a keymap whose id is not in
the journal: every remappable item is a pending new remap.  Indices count the
item's position within the keymap. -/
def pendFresh (tr : LayoutTranslation) :
    Nat → List Kmi → List (Nat × Option (KmiFingerprint × KmiAssignmentDiff))
  | _, [] => []
  | ii, kmi :: rest =>
    if is_remappable_keymap_item kmi tr then (ii, none) :: pendFresh tr (ii + 1) rest
    else pendFresh tr (ii + 1) rest

/-- Inner loop of `pending_keymaps_to_emulate` for a keymap already present in
the journal: reconcile each remappable item; yield a re-remap only when the
item sits back at its recorded `source_char`. -/
def pendKnown (tr : LayoutTranslation)
    (remapped_km : AList (List (KmiFingerprint × KmiAssignmentDiff))) :
    Nat → List Kmi → List (Nat × Option (KmiFingerprint × KmiAssignmentDiff))
  | _, [] => []
  | ii, kmi :: rest =>
    if !is_remappable_keymap_item kmi tr then pendKnown tr remapped_km (ii + 1) rest
    else
      match dget remapped_km kmi.idname with
      | none => (ii, none) :: pendKnown tr remapped_km (ii + 1) rest
      | some per_op =>
        match resolve_remapped_keymap_item kmi per_op with
        | none => (ii, none) :: pendKnown tr remapped_km (ii + 1) rest
        | some (fp, diff) =>
          if event_type_to_char kmi.type = diff.source_char then
            (ii, some (fp, diff)) :: pendKnown tr remapped_km (ii + 1) rest
          else pendKnown tr remapped_km (ii + 1) rest

/-- `KLEPreferences.pending_keymaps_to_emulate` as a pure plan over a fixed
journal (the generator's output when its consumer does not mutate state). -/
def pending_keymaps_to_emulate (tr : LayoutTranslation) (journal : Journal) :
    Nat → List KeyMap → List (Nat × Nat × Option (KmiFingerprint × KmiAssignmentDiff))
  | _, [] => []
  | ki, km :: rest =>
    (match dget journal (keymap_id km) with
     | none => (pendFresh tr 0 km.keymap_items).map (fun q => (ki, q))
     | some remapped_km => (pendKnown tr remapped_km 0 km.keymap_items).map (fun q => (ki, q)))
    ++ pending_keymaps_to_emulate tr journal (ki + 1) rest

/-- `remapped.setdefault(km_id, {}).setdefault(op, []).append(e)`. -/
def journal_append (j : Journal) (km_id op : String)
    (e : KmiFingerprint × KmiAssignmentDiff) : Journal :=
  let kmj := dgetD j km_id []
  let kmo := dgetD kmj op []
  dset j km_id (dset kmj op (kmo ++ [e]))

/-- Replace the first occurrence of `x` by `y`. -/
def replaceFirst {α : Type} [DecidableEq α] : List α → α → α → List α
  | [], _, _ => []
  | a :: rest, x, y => if a = x then y :: rest else a :: replaceFirst rest x y

/-- In-place mutation of a resolved journal diff (`diff.source_char = ...;
diff.target_char = ...`).  Python mutates the resolved object; in the runs
reached by the theorems below the resolved entry is unique in its list, so
replacing the first value-equal occurrence is the same operation. -/
def journal_update_diff (j : Journal) (km_id op : String)
    (e : KmiFingerprint × KmiAssignmentDiff) (d' : KmiAssignmentDiff) : Journal :=
  let kmj := dgetD j km_id []
  let kmo := dgetD kmj op []
  dset j km_id (dset kmj op (replaceFirst kmo e (e.1, d')))

/-- The `reapply_keymap_translation` loop over one keymap, fused with the
journal writes its consumer performs: Python's generator interleaves with the
consumer item by item against the same live journal object, which is exactly
this sequential fold.  `fresh` records whether the keymap id was absent from
the journal when the generator reached this keymap. -/
def reapply_km (tr : LayoutTranslation) (fresh : Bool) (km_id : String) :
    Journal → Nat → List Kmi → Journal × List (Nat × String)
  | j, _, [] => (j, [])
  | j, ii, kmi :: rest =>
    if is_remappable_keymap_item kmi tr then
      let pend : Option (Option (KmiFingerprint × KmiAssignmentDiff)) :=
        if fresh then some none
        else
          match dget (dgetD j km_id []) kmi.idname with
          | none => some none
          | some per_op =>
            match resolve_remapped_keymap_item kmi per_op with
            | none => some none
            | some (fp, diff) =>
              if event_type_to_char kmi.type = diff.source_char then some (some (fp, diff))
              else none
      match pend with
      | none => reapply_km tr fresh km_id j (ii + 1) rest
      | some res =>
        let original_type := kmi.type
        let new_type := tr.map_input_type_to_output_type original_type
        let j' := match res with
          | some (fp, diff) =>
            journal_update_diff j km_id kmi.idname (fp, diff)
              { diff with source_char := event_type_to_char original_type,
                          target_char := event_type_to_char new_type }
          | none =>
            journal_append j km_id kmi.idname
              (KmiFingerprint.from_kmi kmi,
               KmiAssignmentDiff.from_kmi_and_types kmi original_type new_type)
        let r := reapply_km tr fresh km_id j' (ii + 1) rest
        (r.1, (ii, new_type) :: r.2)
    else reapply_km tr fresh km_id j (ii + 1) rest

/-- The journal-writing phase of `reapply_keymap_translation` over all
keymaps, producing the committed journal and the deferred `remaps` list
(keymap index, item index, new event type). -/
def reapply_keymaps (tr : LayoutTranslation) :
    Journal → Nat → List KeyMap → Journal × List (Nat × Nat × String)
  | j, _, [] => (j, [])
  | j, ki, km :: rest =>
    let fresh := (dget j (keymap_id km)).isNone
    let r := reapply_km tr fresh (keymap_id km) j 0 km.keymap_items
    let rr := reapply_keymaps tr r.1 (ki + 1) rest
    (rr.1, r.2.map (fun q => (ki, q.1, q.2)) ++ rr.2)

/-- Functional update at a list position (in-place mutation of one element). -/
def setAt {α : Type} (f : α → α) : List α → Nat → List α
  | [], _ => []
  | a :: rest, 0 => f a :: rest
  | a :: rest, n + 1 => a :: setAt f rest n

/-- `kmi.type = ty` on the item at position `(ki, ii)`. -/
def setKmiType (kms : List KeyMap) (ki ii : Nat) (ty : String) : List KeyMap :=
  setAt (fun km =>
    { km with keymap_items := setAt (fun kmi => { kmi with type := ty }) km.keymap_items ii })
    kms ki

def getKmi (kms : List KeyMap) (ki ii : Nat) : Option Kmi :=
  match kms.get? ki with
  | none => none
  | some km => km.keymap_items.get? ii

/-- Whether assigning `kmi.type` at this position raises in the host. -/
def kmiLockedAt (kms : List KeyMap) (ki ii : Nat) : Bool :=
  match getKmi kms ki ii with
  | some kmi => kmi.locked
  | none => false

/-- The mutation loop of `reapply_keymap_translation`: sequential assignment,
aborting on the first host rejection (the exception propagates to the
surrounding `try`).  Returns the keymaps, the number of mutations performed,
and whether the loop ran to completion. -/
def run_mutations : List KeyMap → List (Nat × Nat × String) → List KeyMap × Nat × Bool
  | kms, [] => (kms, 0, true)
  | kms, (ki, ii, ty) :: rest =>
    if kmiLockedAt kms ki ii then (kms, 0, false)
    else
      let r := run_mutations (setKmiType kms ki ii ty) rest
      (r.1, r.2.1 + 1, r.2.2)

/-- The observable outcome of one `reapply_keymap_translation` call: the
returned `(success, message)` pair plus the new journal and keymap state and
the number of item mutations performed. -/
structure ApplyResult where
  success : Bool
  msg : String
  journal : Journal
  keymaps : List KeyMap
  applied : Nat
deriving DecidableEq

/-- `reapply_keymap_translation(translation)`. -/
def reapply_keymap_translation (tr : LayoutTranslation) (allow_key_conflicts : Bool)
    (journal : Journal) (kms : List KeyMap) : ApplyResult :=
  if !tr.is_valid && !allow_key_conflicts then
    ⟨false, "Layout mapping is invalid. Fix errors before applying.", journal, kms, 0⟩
  else
    let r := reapply_keymaps tr journal 0 kms
    let m := run_mutations kms r.2
    if m.2.2 then
      ⟨true, "Remapped correctly " ++ toString r.2.length ++ " keymap items!", r.1, m.1, m.2.1⟩
    else
      ⟨false, "Failed to remap keymap items: the host rejected a mutation", r.1, m.1, m.2.1⟩

/-- Inner loop of `KLEPreferences.remapped_keymap_items` for one keymap:
yields `(item index, operator id, fingerprint, diff)` for every currently
remapped item that reconciles against the journal. -/
def remapped_items_km (tr : LayoutTranslation)
    (remapped_km : AList (List (KmiFingerprint × KmiAssignmentDiff))) :
    Nat → List Kmi → List (Nat × String × KmiFingerprint × KmiAssignmentDiff)
  | _, [] => []
  | ii, kmi :: rest =>
    if !is_remapped_keymap_item kmi tr then remapped_items_km tr remapped_km (ii + 1) rest
    else
      match dget remapped_km kmi.idname with
      | none => remapped_items_km tr remapped_km (ii + 1) rest
      | some per_op =>
        match resolve_remapped_keymap_item kmi per_op with
        | some (fp, diff) => (ii, kmi.idname, fp, diff) :: remapped_items_km tr remapped_km (ii + 1) rest
        | none => remapped_items_km tr remapped_km (ii + 1) rest

/-- `KLEPreferences.remapped_keymap_items` as a pure plan:
`(keymap index, km_id, item index, operator id, fingerprint, diff)`. -/
def remapped_keymap_items (tr : LayoutTranslation) (journal : Journal) :
    Nat → List KeyMap → List (Nat × String × Nat × String × KmiFingerprint × KmiAssignmentDiff)
  | _, [] => []
  | ki, km :: rest =>
    (match dget journal (keymap_id km) with
     | none => []
     | some remapped_km =>
       (remapped_items_km tr remapped_km 0 km.keymap_items).map
         (fun q => (ki, keymap_id km, q)))
    ++ remapped_keymap_items tr journal (ki + 1) rest

/-- The observable outcome of one `revert_keymap_translation` call. -/
structure RevertResult where
  success : Bool
  journal : Journal
  keymaps : List KeyMap
  reverted : Nat
deriving DecidableEq

/-- `revert_keymap_translation()`: restore `diff.source_char` on every
reconciled remapped item, then clear the journal unconditionally; success
iff every journal entry was matched to a live item.  Returns `none` when the
host raises on one of the processed items (the exception escapes before the
journal is cleared). -/
def revert_keymap_translation (tr : LayoutTranslation) (journal : Journal)
    (kms : List KeyMap) : Option RevertResult :=
  let all_items := journal.flatMap
    (fun p => p.2.flatMap (fun q => q.2.map (fun e => (p.1, q.1, e))))
  let processed := remapped_keymap_items tr journal 0 kms
  if processed.any (fun q => kmiLockedAt kms q.1 q.2.2.1) then none
  else
    let kms' := processed.foldl
      (fun acc q => setKmiType acc q.1 q.2.2.1 (char_to_event_type q.2.2.2.2.2.source_char))
      kms
    let processed_items := processed.map (fun q => (q.2.1, q.2.2.2.1, q.2.2.2.2))
    let unprocessed := all_items.filter (fun it => !(processed_items.contains it))
    some ⟨unprocessed.isEmpty, [], kms', processed.length⟩

/-! ### Specification functions for the engine proofs -/

/-- The event type Apply writes into a planned item. -/
def newTypeOf (tr : LayoutTranslation) (kmi : Kmi) : String :=
  tr.map_input_type_to_output_type kmi.type

/-- The journal entry Apply records for a fresh planned item. -/
def entryOf (tr : LayoutTranslation) (kmi : Kmi) :
    KmiFingerprint × KmiAssignmentDiff :=
  (KmiFingerprint.from_kmi kmi,
   KmiAssignmentDiff.from_kmi_and_types kmi kmi.type (newTypeOf tr kmi))

/-- The state of an item after a successful Apply pass. -/
def evolveItem (tr : LayoutTranslation) (kmi : Kmi) : Kmi :=
  if is_remappable_keymap_item kmi tr then { kmi with type := newTypeOf tr kmi } else kmi

/-- The state of a keymap after a successful Apply pass. -/
def evolveKm (tr : LayoutTranslation) (km : KeyMap) : KeyMap :=
  { km with keymap_items := km.keymap_items.map (evolveItem tr) }

/-- One journal append under a fixed keymap id. -/
def appendOp (acc : AList (List (KmiFingerprint × KmiAssignmentDiff))) (op : String)
    (e : KmiFingerprint × KmiAssignmentDiff) :
    AList (List (KmiFingerprint × KmiAssignmentDiff)) :=
  dset acc op (dgetD acc op [] ++ [e])

/-- The per-keymap journal sub-dict built by a fresh Apply pass. -/
def builtKmFrom (tr : LayoutTranslation) :
    AList (List (KmiFingerprint × KmiAssignmentDiff)) → List Kmi →
    AList (List (KmiFingerprint × KmiAssignmentDiff))
  | acc, [] => acc
  | acc, kmi :: rest =>
    builtKmFrom tr
      (if is_remappable_keymap_item kmi tr then appendOp acc kmi.idname (entryOf tr kmi) else acc)
      rest

/-- The journal entries a fresh Apply pass records for one operator id, in
item order. -/
def builtOp (tr : LayoutTranslation) (items : List Kmi) (op : String) :
    List (KmiFingerprint × KmiAssignmentDiff) :=
  (items.filter (fun k => is_remappable_keymap_item k tr && decide (k.idname = op))).map
    (entryOf tr)

/-- The remap list produced by a fresh Apply pass over one keymap. -/
def remapsFrom (tr : LayoutTranslation) : Nat → List Kmi → List (Nat × String)
  | _, [] => []
  | n, kmi :: rest =>
    if is_remappable_keymap_item kmi tr then
      (n, newTypeOf tr kmi) :: remapsFrom tr (n + 1) rest
    else remapsFrom tr (n + 1) rest

/-- The remap list produced by a fresh Apply pass over all keymaps. -/
def remapsSpecFrom (tr : LayoutTranslation) : Nat → List KeyMap → List (Nat × Nat × String)
  | _, [] => []
  | ki, km :: rest =>
    (remapsFrom tr 0 km.keymap_items).map (fun q => (ki, q.1, q.2)) ++
    remapsSpecFrom tr (ki + 1) rest

/-- Whether a keymap holds at least one remappable item. -/
def hasRemappable (tr : LayoutTranslation) (items : List Kmi) : Bool :=
  items.any (fun k => is_remappable_keymap_item k tr)

/-- The journal committed by a fresh Apply pass. -/
def journalSpec (tr : LayoutTranslation) : List KeyMap → Journal
  | [] => []
  | km :: rest =>
    (if hasRemappable tr km.keymap_items then
      [(keymap_id km, builtKmFrom tr [] km.keymap_items)]
     else []) ++ journalSpec tr rest

/-! ### First-pass characterization -/

theorem dset_absent {α : Type} {d : AList α} {k : String} (v : α)
    (h : dget d k = none) : dset d k v = d ++ [(k, v)] := by
  induction d with
  | nil => rfl
  | cons p rest ih =>
    obtain ⟨a, b⟩ := p
    by_cases hk : a = k
    · subst hk
      simp [dget] at h
    · simp only [dget, if_neg hk] at h
      simp [dset, hk, ih h]

theorem dset_append_last {α : Type} {d : AList α} {k : String} (v w : α)
    (h : dget d k = none) : dset (d ++ [(k, v)]) k w = d ++ [(k, w)] := by
  induction d with
  | nil => simp [dset]
  | cons p rest ih =>
    obtain ⟨a, b⟩ := p
    by_cases hk : a = k
    · subst hk
      simp [dget] at h
    · simp only [dget, if_neg hk] at h
      simp [dset, hk]
      exact ih h

theorem dget_append_last {α : Type} {d : AList α} {k : String} (v : α)
    (h : dget d k = none) : dget (d ++ [(k, v)]) k = some v := by
  rw [dget_append, h]
  simp [dget]

/-- Stepping equation for the fresh branch at a remappable item. -/
theorem reapply_km_cons_pos_fresh (tr : LayoutTranslation) (km_id : String)
    (j : Journal) (n : Nat) (kmi : Kmi) (rest : List Kmi)
    (hr : is_remappable_keymap_item kmi tr = true) :
    reapply_km tr true km_id j n (kmi :: rest) =
      ((reapply_km tr true km_id
          (journal_append j km_id kmi.idname (entryOf tr kmi)) (n + 1) rest).1,
       (n, newTypeOf tr kmi) ::
       (reapply_km tr true km_id
          (journal_append j km_id kmi.idname (entryOf tr kmi)) (n + 1) rest).2) := by
  rw [reapply_km, if_pos hr]
  exact rfl

/-- Stepping equation at a non-remappable item (either branch). -/
theorem reapply_km_cons_neg (tr : LayoutTranslation) (fresh : Bool) (km_id : String)
    (j : Journal) (n : Nat) (kmi : Kmi) (rest : List Kmi)
    (hr : is_remappable_keymap_item kmi tr = false) :
    reapply_km tr fresh km_id j n (kmi :: rest) =
      reapply_km tr fresh km_id j (n + 1) rest := by
  rw [reapply_km]
  rw [if_neg (by rw [hr]; simp)]

theorem hasRemappable_cons_pos {tr : LayoutTranslation} {kmi : Kmi} (rest : List Kmi)
    (hr : is_remappable_keymap_item kmi tr = true) :
    hasRemappable tr (kmi :: rest) = true := by
  rw [hasRemappable, List.any_cons, hr]
  rfl

theorem hasRemappable_cons_neg {tr : LayoutTranslation} {kmi : Kmi} (rest : List Kmi)
    (hr : is_remappable_keymap_item kmi tr = false) :
    hasRemappable tr (kmi :: rest) = hasRemappable tr rest := by
  rw [hasRemappable, List.any_cons, hr, hasRemappable]
  rfl

/-- Fresh-branch invariant: once the keymap's journal slot exists at the end
of the journal, the rest of the loop folds into `builtKmFrom`. -/
theorem reapply_km_fresh_acc (tr : LayoutTranslation) (km_id : String)
    (items : List Kmi) :
    ∀ (j : Journal) (acc : AList (List (KmiFingerprint × KmiAssignmentDiff))) (n : Nat),
    dget j km_id = none →
    reapply_km tr true km_id (j ++ [(km_id, acc)]) n items =
      (j ++ [(km_id, builtKmFrom tr acc items)], remapsFrom tr n items) := by
  induction items with
  | nil => intro j acc n hj; rfl
  | cons kmi rest ih =>
    intro j acc n hj
    by_cases hr : is_remappable_keymap_item kmi tr = true
    · rw [reapply_km_cons_pos_fresh tr km_id _ n kmi rest hr]
      have happ : journal_append (j ++ [(km_id, acc)]) km_id kmi.idname (entryOf tr kmi) =
          j ++ [(km_id, appendOp acc kmi.idname (entryOf tr kmi))] := by
        rw [journal_append]
        have h1 : dgetD (j ++ [(km_id, acc)]) km_id [] = acc := by
          rw [dgetD, dget_append_last acc hj]
          rfl
        rw [h1]
        rw [dset_append_last _ _ hj]
        rfl
      rw [happ, ih j _ (n + 1) hj]
      rw [builtKmFrom, if_pos hr, remapsFrom, if_pos hr]
    · rw [reapply_km_cons_neg tr true km_id _ n kmi rest
        (Bool.not_eq_true _ ▸ (by simpa using hr))]
      rw [ih j acc (n + 1) hj]
      rw [builtKmFrom, remapsFrom]
      rw [if_neg hr, if_neg hr]

/-- Fresh-branch characterization from an absent journal slot. -/
theorem reapply_km_fresh (tr : LayoutTranslation) (km_id : String)
    (items : List Kmi) :
    ∀ (j : Journal) (n : Nat), dget j km_id = none →
    reapply_km tr true km_id j n items =
      (if hasRemappable tr items then j ++ [(km_id, builtKmFrom tr [] items)] else j,
       remapsFrom tr n items) := by
  induction items with
  | nil => intro j n hj; rfl
  | cons kmi rest ih =>
    intro j n hj
    by_cases hr : is_remappable_keymap_item kmi tr = true
    · rw [reapply_km_cons_pos_fresh tr km_id j n kmi rest hr]
      have happ : journal_append j km_id kmi.idname (entryOf tr kmi) =
          j ++ [(km_id, appendOp [] kmi.idname (entryOf tr kmi))] := by
        rw [journal_append]
        have h1 : dgetD j km_id [] = [] := by rw [dgetD, hj]; rfl
        rw [h1]
        rw [dset_absent _ hj]
        rfl
      rw [happ, reapply_km_fresh_acc tr km_id rest j _ (n + 1) hj]
      rw [if_pos (hasRemappable_cons_pos rest hr)]
      rw [remapsFrom, if_pos hr]
      rw [builtKmFrom, if_pos hr]
    · rw [reapply_km_cons_neg tr true km_id j n kmi rest
        (Bool.not_eq_true _ ▸ (by simpa using hr))]
      rw [ih j (n + 1) hj]
      rw [hasRemappable_cons_neg rest (Bool.not_eq_true _ ▸ (by simpa using hr))]
      rw [remapsFrom, if_neg hr]
      rw [builtKmFrom, if_neg hr]

/-! ### Positional update lemmas -/

theorem setAt_get? {α : Type} (f : α → α) (l : List α) (n m : Nat) :
    (setAt f l n).get? m = if n = m then (l.get? m).map f else l.get? m := by
  induction l generalizing n m with
  | nil => cases n <;> cases m <;> simp [setAt]
  | cons a rest ih =>
    cases n with
    | zero => cases m <;> simp [setAt]
    | succ n' =>
      cases m with
      | zero => simp [setAt]
      | succ m' =>
        simp only [setAt, List.get?_cons_succ]
        rw [ih n' m']
        by_cases h : n' = m'
        · simp [h]
        · simp [h, fun hc => h (Nat.succ.inj hc)]

theorem setAt_id {α : Type} (l : List α) (n : Nat) : setAt (fun a => a) l n = l := by
  induction l generalizing n with
  | nil => rfl
  | cons a rest ih =>
    cases n with
    | zero => rfl
    | succ n' => simp [setAt, ih]

theorem setAt_setAt {α : Type} (f g : α → α) (l : List α) (n : Nat) :
    setAt f (setAt g l n) n = setAt (fun a => f (g a)) l n := by
  induction l generalizing n with
  | nil => rfl
  | cons a rest ih =>
    cases n with
    | zero => rfl
    | succ n' => simp [setAt, ih]

theorem setAt_append_length {α : Type} (f : α → α) (pre : List α) (a : α) (post : List α) :
    setAt f (pre ++ a :: post) pre.length = pre ++ f a :: post := by
  induction pre with
  | nil => rfl
  | cons b rest ih => simp [setAt, ih]

theorem getKmi_setKmiType (kms : List KeyMap) (a b : Nat) (ty : String) (ki ii : Nat) :
    getKmi (setKmiType kms a b ty) ki ii =
      if a = ki ∧ b = ii then (getKmi kms ki ii).map (fun kmi => { kmi with type := ty })
      else getKmi kms ki ii := by
  rw [setKmiType, getKmi, getKmi]
  rw [setAt_get?]
  by_cases hk : a = ki
  · rw [if_pos hk]
    cases hkm : kms.get? ki with
    | none =>
      by_cases hb : b = ii
      · rw [if_pos ⟨hk, hb⟩]; rfl
      · rw [if_neg (fun hc => hb hc.2)]; rfl
    | some km =>
      show (setAt (fun kmi => { kmi with type := ty }) km.keymap_items b).get? ii =
        if a = ki ∧ b = ii then
          (km.keymap_items.get? ii).map (fun kmi => { kmi with type := ty })
        else km.keymap_items.get? ii
      rw [setAt_get?]
      by_cases hb : b = ii
      · rw [if_pos hb, if_pos ⟨hk, hb⟩]
      · rw [if_neg hb, if_neg (fun hc => hb hc.2)]
  · rw [if_neg hk, if_neg (fun hc => hk hc.1)]

theorem kmiLockedAt_setKmiType (kms : List KeyMap) (a b : Nat) (ty : String) (ki ii : Nat) :
    kmiLockedAt (setKmiType kms a b ty) ki ii = kmiLockedAt kms ki ii := by
  rw [kmiLockedAt, kmiLockedAt, getKmi_setKmiType]
  by_cases h : a = ki ∧ b = ii
  · rw [if_pos h]
    cases getKmi kms ki ii <;> rfl
  · rw [if_neg h]

/-- All-unlocked keymaps never report a locked cell. -/
theorem kmiLockedAt_false (kms : List KeyMap)
    (h : ∀ km ∈ kms, ∀ kmi ∈ km.keymap_items, kmi.locked = false) (ki ii : Nat) :
    kmiLockedAt kms ki ii = false := by
  rw [kmiLockedAt]
  cases hk : getKmi kms ki ii with
  | none => rfl
  | some kmi =>
    rw [getKmi] at hk
    cases hkm : kms.get? ki with
    | none => rw [hkm] at hk; exact Option.noConfusion hk
    | some km =>
      rw [hkm] at hk
      exact h km (List.get?_mem hkm) kmi (List.get?_mem hk)

/-- The fold applied by a completed mutation loop. -/
def applyCells (kms : List KeyMap) (cs : List (Nat × Nat × String)) : List KeyMap :=
  cs.foldl (fun a c => setKmiType a c.1 c.2.1 c.2.2) kms

theorem applyCells_nil (kms : List KeyMap) : applyCells kms [] = kms := rfl

theorem applyCells_cons (kms : List KeyMap) (c : Nat × Nat × String)
    (cs : List (Nat × Nat × String)) :
    applyCells kms (c :: cs) = applyCells (setKmiType kms c.1 c.2.1 c.2.2) cs := rfl

theorem kmiLockedAt_applyCells (kms : List KeyMap) (cs : List (Nat × Nat × String))
    (ki ii : Nat) :
    kmiLockedAt (applyCells kms cs) ki ii = kmiLockedAt kms ki ii := by
  induction cs generalizing kms with
  | nil => rfl
  | cons c rest ih =>
    rw [applyCells_cons, ih, kmiLockedAt_setKmiType]

/-- A mutation loop over unlocked cells completes and performs every
assignment. -/
theorem run_mutations_all (kms : List KeyMap) (cs : List (Nat × Nat × String))
    (h : ∀ c ∈ cs, kmiLockedAt kms c.1 c.2.1 = false) :
    run_mutations kms cs = (applyCells kms cs, cs.length, true) := by
  induction cs generalizing kms with
  | nil => rfl
  | cons c rest ih =>
    obtain ⟨ki, ii, ty⟩ := c
    rw [run_mutations]
    rw [if_neg (by rw [h (ki, ii, ty) (List.mem_cons_self _ _)]; simp)]
    rw [ih (setKmiType kms ki ii ty) (fun c hc => by
      rw [kmiLockedAt_setKmiType]
      exact h c (List.mem_cons_of_mem _ hc))]
    rw [applyCells_cons]
    simp [List.length_cons]

/-- A mutation loop aborts at the first locked cell, leaving the earlier
assignments in place and the rest unexecuted. -/
theorem run_mutations_abort (kms : List KeyMap) (good : List (Nat × Nat × String))
    (bad : Nat × Nat × String) (rest : List (Nat × Nat × String))
    (hgood : ∀ c ∈ good, kmiLockedAt kms c.1 c.2.1 = false)
    (hbad : kmiLockedAt kms bad.1 bad.2.1 = true) :
    run_mutations kms (good ++ bad :: rest) = (applyCells kms good, good.length, false) := by
  induction good generalizing kms with
  | nil =>
    obtain ⟨ki, ii, ty⟩ := bad
    rw [List.nil_append, run_mutations, if_pos hbad, applyCells_nil]
    rfl
  | cons c cs ih =>
    obtain ⟨ki, ii, ty⟩ := c
    rw [List.cons_append, run_mutations]
    rw [if_neg (by rw [hgood (ki, ii, ty) (List.mem_cons_self _ _)]; simp)]
    rw [ih (setKmiType kms ki ii ty) (fun c hc => by
        rw [kmiLockedAt_setKmiType]
        exact hgood c (List.mem_cons_of_mem _ hc))
      (by rw [kmiLockedAt_setKmiType]; exact hbad)]
    rw [applyCells_cons]
    simp [List.length_cons]

/-! ### Top-level first-pass characterization -/

theorem dget_append_sing_ne {α : Type} (d : AList α) {k k' : String} (v : α)
    (h : ¬ k = k') : dget (d ++ [(k, v)]) k' = dget d k' := by
  rw [dget_append]
  cases hd : dget d k' with
  | some w => rfl
  | none => simp [dget, h]

/-- Stepping equation for the keymap-level journal-writing loop. -/
theorem reapply_keymaps_cons (tr : LayoutTranslation) (j : Journal) (ki : Nat)
    (km : KeyMap) (rest : List KeyMap) :
    reapply_keymaps tr j ki (km :: rest) =
      ((reapply_keymaps tr
          (reapply_km tr (dget j (keymap_id km)).isNone (keymap_id km) j 0 km.keymap_items).1
          (ki + 1) rest).1,
       (reapply_km tr (dget j (keymap_id km)).isNone (keymap_id km) j 0 km.keymap_items).2.map
          (fun q => (ki, q.1, q.2)) ++
       (reapply_keymaps tr
          (reapply_km tr (dget j (keymap_id km)).isNone (keymap_id km) j 0 km.keymap_items).1
          (ki + 1) rest).2) := rfl

/-- A first pass over keymaps all absent from the journal commits exactly the
spec journal and plans exactly the spec remap list. -/
theorem reapply_keymaps_fresh (tr : LayoutTranslation) (kms : List KeyMap) :
    ∀ (j : Journal) (ki : Nat),
    (∀ km ∈ kms, dget j (keymap_id km) = none) →
    (kms.map keymap_id).Nodup →
    reapply_keymaps tr j ki kms =
      (j ++ journalSpec tr kms, remapsSpecFrom tr ki kms) := by
  induction kms with
  | nil => intro j ki _ _; simp [reapply_keymaps, journalSpec, remapsSpecFrom]
  | cons km rest ih =>
    intro j ki h hn
    rw [List.map_cons, List.nodup_cons] at hn
    have hj : dget j (keymap_id km) = none := h km (List.mem_cons_self km rest)
    rw [reapply_keymaps_cons, hj]
    simp only [Option.isNone_none]
    rw [reapply_km_fresh tr (keymap_id km) km.keymap_items j 0 hj]
    by_cases hR : hasRemappable tr km.keymap_items = true
    · rw [if_pos hR]
      have h2 : ∀ km' ∈ rest,
          dget (j ++ [(keymap_id km, builtKmFrom tr [] km.keymap_items)]) (keymap_id km') = none := by
        intro km' hm
        have hne : ¬ keymap_id km = keymap_id km' := by
          intro he
          exact hn.1 (he ▸ List.mem_map_of_mem (a := km') keymap_id hm)
        rw [dget_append_sing_ne _ _ hne]
        exact h km' (List.mem_cons_of_mem _ hm)
      rw [ih _ (ki + 1) h2 hn.2]
      rw [journalSpec, if_pos hR, remapsSpecFrom]
      rw [List.append_assoc]
    · rw [if_neg hR]
      rw [ih j (ki + 1) (fun km' hm => h km' (List.mem_cons_of_mem _ hm)) hn.2]
      rw [journalSpec, if_neg hR, remapsSpecFrom]
      rw [List.nil_append]

/-! ### Journal-spec lookup lemmas -/

theorem builtOp_nil (tr : LayoutTranslation) (op : String) :
    builtOp tr [] op = [] := rfl

theorem builtOp_cons (tr : LayoutTranslation) (kmi : Kmi) (rest : List Kmi) (op : String) :
    builtOp tr (kmi :: rest) op =
      if is_remappable_keymap_item kmi tr && decide (kmi.idname = op) then
        entryOf tr kmi :: builtOp tr rest op
      else builtOp tr rest op := by
  rw [builtOp, builtOp, List.filter_cons]
  by_cases hc : (is_remappable_keymap_item kmi tr && decide (kmi.idname = op)) = true
  · rw [if_pos hc, if_pos hc, List.map_cons]
  · rw [if_neg hc, if_neg hc]

/-- The per-keymap journal sub-dict looks up to exactly the per-operator entry
list (absent when that list is empty). -/
theorem builtKmFrom_get (tr : LayoutTranslation) (items : List Kmi) :
    ∀ (acc : AList (List (KmiFingerprint × KmiAssignmentDiff))) (op : String),
    dget (builtKmFrom tr acc items) op =
      match dget acc op with
      | some l => some (l ++ builtOp tr items op)
      | none => if builtOp tr items op = [] then none else some (builtOp tr items op) := by
  induction items with
  | nil =>
    intro acc op
    rw [builtKmFrom, builtOp_nil]
    cases h : dget acc op with
    | some l => simp
    | none => simp
  | cons kmi rest ih =>
    intro acc op
    rw [builtKmFrom, builtOp_cons]
    by_cases hr : is_remappable_keymap_item kmi tr = true
    · rw [if_pos hr]
      by_cases ho : kmi.idname = op
      · have hcond : (is_remappable_keymap_item kmi tr && decide (kmi.idname = op)) = true := by
          rw [hr, decide_eq_true ho]; rfl
        rw [if_pos hcond, ih]
        have hget : dget (appendOp acc kmi.idname (entryOf tr kmi)) op =
            some (dgetD acc op [] ++ [entryOf tr kmi]) := by
          rw [appendOp, ho, dget_dset, if_pos rfl]
        rw [hget]
        cases h : dget acc op with
        | some l =>
          rw [dgetD, h]
          simp
        | none =>
          rw [dgetD, h]
          rw [if_neg (List.cons_ne_nil _ _)]
          simp
      · have hcond : (is_remappable_keymap_item kmi tr && decide (kmi.idname = op)) = false := by
          rw [decide_eq_false ho]
          simp
        rw [hcond]
        simp only [Bool.false_eq_true, if_false]
        rw [ih]
        have hget : dget (appendOp acc kmi.idname (entryOf tr kmi)) op = dget acc op := by
          rw [appendOp, dget_dset, if_neg ho]
        rw [hget]
    · have hrf : is_remappable_keymap_item kmi tr = false := by
        cases h : is_remappable_keymap_item kmi tr
        · rfl
        · exact absurd h hr
      rw [if_neg hr]
      have hcond : (is_remappable_keymap_item kmi tr && decide (kmi.idname = op)) = false := by
        rw [hrf]; rfl
      rw [hcond]
      simp only [Bool.false_eq_true, if_false]
      exact ih acc op

theorem journalSpec_keys_sub (tr : LayoutTranslation) :
    ∀ (kms : List KeyMap) (k : String),
    k ∈ dkeys (journalSpec tr kms) → k ∈ kms.map keymap_id := by
  intro kms
  induction kms with
  | nil => intro k hk; exact absurd hk (by simp [journalSpec, dkeys])
  | cons km rest ih =>
    intro k hk
    rw [journalSpec] at hk
    rw [List.map_cons, List.mem_cons]
    by_cases hR : hasRemappable tr km.keymap_items = true
    · rw [if_pos hR] at hk
      rw [dkeys, List.map_append, List.mem_append] at hk
      rcases hk with h | h
      · simp at h
        exact Or.inl h
      · exact Or.inr (ih k h)
    · rw [if_neg hR, List.nil_append] at hk
      exact Or.inr (ih k hk)

/-- Looking a keymap's id up in the spec journal. -/
theorem journalSpec_get (tr : LayoutTranslation) :
    ∀ (kms : List KeyMap) (km : KeyMap), km ∈ kms → (kms.map keymap_id).Nodup →
    dget (journalSpec tr kms) (keymap_id km) =
      if hasRemappable tr km.keymap_items then
        some (builtKmFrom tr [] km.keymap_items)
      else none := by
  intro kms
  induction kms with
  | nil => intro km hm; exact absurd hm (List.not_mem_nil km)
  | cons km0 rest ih =>
    intro km hm hn
    rw [List.map_cons, List.nodup_cons] at hn
    rw [journalSpec]
    rcases List.mem_cons.1 hm with rfl | hmem
    · have hrest : dget (journalSpec tr rest) (keymap_id km) = none :=
        dget_none_of_not_mem_keys (fun hk => hn.1 (journalSpec_keys_sub tr rest _ hk))
      by_cases hR : hasRemappable tr km.keymap_items = true
      · rw [if_pos hR, if_pos hR]
        show dget ((keymap_id km, builtKmFrom tr [] km.keymap_items) :: journalSpec tr rest)
          (keymap_id km) = _
        rw [dget, if_pos rfl]
      · rw [if_neg hR, if_neg hR, List.nil_append]
        exact hrest
    · have hne : ¬ keymap_id km0 = keymap_id km :=
        fun he => hn.1 (he ▸ List.mem_map_of_mem keymap_id hmem)
      by_cases hR : hasRemappable tr km0.keymap_items = true
      · rw [if_pos hR]
        show dget ((keymap_id km0, builtKmFrom tr [] km0.keymap_items) :: journalSpec tr rest)
          (keymap_id km) = _
        rw [dget, if_neg hne]
        exact ih km hmem hn.2
      · rw [if_neg hR, List.nil_append]
        exact ih km hmem hn.2

/-! ### Reconciliation after a fresh Apply pass -/

theorem filter_eq_singleton_of_nodup {α : Type} {l : List α} {p : α → Bool} {a : α}
    (hn : l.Nodup) (ha : a ∈ l) (hp : p a = true)
    (ho : ∀ b ∈ l, p b = true → b = a) :
    l.filter p = [a] := by
  induction l with
  | nil => exact absurd ha (List.not_mem_nil a)
  | cons x rest ih =>
    rw [List.nodup_cons] at hn
    rw [List.filter_cons]
    rcases List.mem_cons.1 ha with rfl | hmem
    · rw [if_pos hp]
      have hrest : rest.filter p = [] := by
        rw [List.filter_eq_nil]
        intro b hb hpb
        exact hn.1 ((ho b (List.mem_cons_of_mem _ hb) hpb) ▸ hb)
      rw [hrest]
    · have hx : ¬ p x = true := fun hpx =>
        hn.1 (by rw [ho x (List.mem_cons_self x rest) hpx]; exact hmem)
      rw [if_neg hx]
      exact ih hn.2 hmem (fun b hb hpb => ho b (List.mem_cons_of_mem _ hb) hpb)

/-- The reconciler maps an item freshly remapped by Apply back to its own
journal entry, provided the planned target characters within the item's
(operator, fingerprint) group are pairwise distinct. -/
theorem resolve_after_apply (tr : LayoutTranslation) (items : List Kmi) (kmi : Kmi)
    (hmem : kmi ∈ items) (hr : is_remappable_keymap_item kmi tr = true)
    (H : ((items.filter (fun k => is_remappable_keymap_item k tr &&
            decide (k.idname = kmi.idname) &&
            decide (KmiFingerprint.from_kmi kmi = KmiFingerprint.from_kmi k))).map
          (fun k => event_type_to_char (newTypeOf tr k))).Nodup) :
    resolve_remapped_keymap_item (evolveItem tr kmi) (builtOp tr items kmi.idname) =
      some (entryOf tr kmi) := by
  have hev : evolveItem tr kmi = { kmi with type := newTypeOf tr kmi } := by
    rw [evolveItem, if_pos hr]
  have hchar : event_type_to_char (evolveItem tr kmi).type
      = event_type_to_char (newTypeOf tr kmi) := by rw [hev]
  have e1 : ∀ (its : List Kmi),
      (builtOp tr its kmi.idname).filter
        (fun t => decide (KmiFingerprint.from_kmi (evolveItem tr kmi) = t.1)) =
      (its.filter (fun k => is_remappable_keymap_item k tr &&
          decide (k.idname = kmi.idname) &&
          decide (KmiFingerprint.from_kmi kmi = KmiFingerprint.from_kmi k))).map
        (entryOf tr) := by
    intro its
    induction its with
    | nil => rfl
    | cons a rest ih =>
      rw [builtOp_cons, List.filter_cons]
      by_cases h1 : (is_remappable_keymap_item a tr && decide (a.idname = kmi.idname)) = true
      · rw [if_pos h1, List.filter_cons]
        by_cases h2 : KmiFingerprint.from_kmi kmi = KmiFingerprint.from_kmi a
        · have hsel : (decide (KmiFingerprint.from_kmi (evolveItem tr kmi)
              = (entryOf tr a).1)) = true := by
            rw [hev]
            exact decide_eq_true h2
          rw [if_pos hsel]
          have hsel2 : (is_remappable_keymap_item a tr && decide (a.idname = kmi.idname) &&
              decide (KmiFingerprint.from_kmi kmi = KmiFingerprint.from_kmi a)) = true := by
            rw [h1, decide_eq_true h2]
            rfl
          rw [if_pos hsel2, List.map_cons, ih]
        · have hsel : (decide (KmiFingerprint.from_kmi (evolveItem tr kmi)
              = (entryOf tr a).1)) = false := by
            rw [hev]
            exact decide_eq_false h2
          rw [hsel]
          have hsel2 : (is_remappable_keymap_item a tr && decide (a.idname = kmi.idname) &&
              decide (KmiFingerprint.from_kmi kmi = KmiFingerprint.from_kmi a)) = false := by
            rw [decide_eq_false h2]
            simp
          rw [hsel2]
          simp only [Bool.false_eq_true, if_false]
          exact ih
      · rw [if_neg h1]
        have hsel2 : (is_remappable_keymap_item a tr && decide (a.idname = kmi.idname) &&
            decide (KmiFingerprint.from_kmi kmi = KmiFingerprint.from_kmi a)) = false := by
          cases h3 : (is_remappable_keymap_item a tr && decide (a.idname = kmi.idname))
          · rfl
          · exact absurd h3 h1
        rw [hsel2]
        simp only [Bool.false_eq_true, if_false]
        exact ih
  have hkmiG : kmi ∈ items.filter (fun k => is_remappable_keymap_item k tr &&
      decide (k.idname = kmi.idname) &&
      decide (KmiFingerprint.from_kmi kmi = KmiFingerprint.from_kmi k)) := by
    refine List.mem_filter.2 ⟨hmem, ?_⟩
    rw [hr]
    simp
  have hGnodup : (items.filter (fun k => is_remappable_keymap_item k tr &&
      decide (k.idname = kmi.idname) &&
      decide (KmiFingerprint.from_kmi kmi = KmiFingerprint.from_kmi k))).Nodup :=
    List.Nodup.of_map _ H
  simp only [resolve_remapped_keymap_item]
  rw [e1 items]
  by_cases hlen : (items.filter (fun k => is_remappable_keymap_item k tr &&
      decide (k.idname = kmi.idname) &&
      decide (KmiFingerprint.from_kmi kmi = KmiFingerprint.from_kmi k))).length = 1
  · obtain ⟨g, hg⟩ := List.length_eq_one.1 hlen
    have hgk : g = kmi := by
      have := hg ▸ hkmiG
      exact (List.mem_singleton.1 this).symm
    rw [hg, hgk]
    rw [if_pos (by rw [List.map_cons, List.map_nil]; rfl)]
    rw [List.map_cons, List.map_nil]
    rfl
  · have hlen2 : ¬ ((items.filter (fun k => is_remappable_keymap_item k tr &&
        decide (k.idname = kmi.idname) &&
        decide (KmiFingerprint.from_kmi kmi = KmiFingerprint.from_kmi k))).map
          (entryOf tr)).length = 1 := by
      rw [List.length_map]
      exact hlen
    rw [if_neg hlen2]
    have hne : ¬ ((items.filter (fun k => is_remappable_keymap_item k tr &&
        decide (k.idname = kmi.idname) &&
        decide (KmiFingerprint.from_kmi kmi = KmiFingerprint.from_kmi k))).map
          (entryOf tr)).isEmpty = true := by
      rw [List.isEmpty_iff]
      intro hnil
      rw [List.map_eq_nil] at hnil
      rw [hnil] at hkmiG
      exact List.not_mem_nil kmi hkmiG
    rw [if_neg hne]
    have hGsub : (items.filter (fun k => is_remappable_keymap_item k tr &&
        decide (k.idname = kmi.idname) &&
        decide (KmiFingerprint.from_kmi kmi = KmiFingerprint.from_kmi k))).filter
          (fun k => decide (event_type_to_char (evolveItem tr kmi).type
            = event_type_to_char (newTypeOf tr k))) = [kmi] := by
      refine filter_eq_singleton_of_nodup hGnodup hkmiG (decide_eq_true hchar) ?_
      intro b hb hpb
      have hw := of_decide_eq_true hpb
      rw [hchar] at hw
      exact List.inj_on_of_nodup_map H hb hkmiG hw.symm
    have e3 : ((items.filter (fun k => is_remappable_keymap_item k tr &&
        decide (k.idname = kmi.idname) &&
        decide (KmiFingerprint.from_kmi kmi = KmiFingerprint.from_kmi k))).map
          (entryOf tr)).filter
        (fun t => decide (event_type_to_char (evolveItem tr kmi).type = t.2.target_char)) =
        [entryOf tr kmi] := by
      rw [List.filter_map]
      show ((items.filter (fun k => is_remappable_keymap_item k tr &&
          decide (k.idname = kmi.idname) &&
          decide (KmiFingerprint.from_kmi kmi = KmiFingerprint.from_kmi k))).filter
            (fun k => decide (event_type_to_char (evolveItem tr kmi).type
              = event_type_to_char (newTypeOf tr k)))).map (entryOf tr) = [entryOf tr kmi]
      rw [hGsub, List.map_cons, List.map_nil]
    rw [e3]
    rw [if_pos (show ([entryOf tr kmi]).length = 1 from rfl)]
    rfl

/-! ### Forward-map injectivity of a valid constructed translation -/

/-- In a valid constructed translation every forward pair is mirrored by the
backward dict (the cross-validation loops recorded no conflict). -/
theorem valid_cross {t : LayoutTranslation} (hwf : ConstructedWF t)
    (hval : t.conflicting_keys = []) :
    ∀ p ∈ t.inOut, dget t.outIn p.2 = some p.1 := by
  rcases hwf with ⟨f, hf, rfl⟩ | ⟨a, b, ha, hb, rfl⟩
  · intro p hp
    have hv : (ffFold (dstrip f) (dstrip f) ([], [])).2 = [] := hval
    obtain ⟨h1, h2⟩ := ff_of_valid hv
    rw [mkFromForward_outIn_eq, h1, List.nil_append]
    have hmm : (p.2, p.1) ∈ (dstrip f).map (fun q => (q.2, q.1)) :=
      List.mem_map.2 ⟨p, hp, rfl⟩
    have hnod : (dkeys ((dstrip f).map (fun q => (q.2, q.1)))).Nodup := by
      have hmain := ff_valid_keysNodup (s := dstrip f) (l := dstrip f)
        (by simp [dkeys]) hv
      rw [h1, List.nil_append] at hmain
      exact hmain
    exact mem_dget_nodup hmm hnod
  · intro p hp
    exact mkExplicit_not_confl_fwd (by rw [hval]; exact List.not_mem_nil _) hp

/-- The forward dict of a valid constructed translation is injective. -/
theorem valid_fwd_inj {t : LayoutTranslation} (hwf : ConstructedWF t)
    (hval : t.conflicting_keys = []) {x y c : String}
    (hx : dget t.inOut x = some c) (hy : dget t.inOut y = some c) : x = y := by
  have h1 := valid_cross hwf hval (x, c) (dget_mem hx)
  have h2 := valid_cross hwf hval (y, c) (dget_mem hy)
  rw [h1] at h2
  exact Option.some.inj h2

/-! ### Second-pass skip lemmas -/

/-- Stepping equation for the known branch at a remappable item whose resolved
diff records a different source character: the item is skipped. -/
theorem reapply_km_cons_known_skip (tr : LayoutTranslation) (km_id : String)
    (j : Journal) (n : Nat) (kmi : Kmi) (rest : List Kmi)
    (hr : is_remappable_keymap_item kmi tr = true)
    (per_op : List (KmiFingerprint × KmiAssignmentDiff))
    (fp : KmiFingerprint) (diff : KmiAssignmentDiff)
    (h1 : dget (dgetD j km_id []) kmi.idname = some per_op)
    (h2 : resolve_remapped_keymap_item kmi per_op = some (fp, diff))
    (h3 : ¬ event_type_to_char kmi.type = diff.source_char) :
    reapply_km tr false km_id j n (kmi :: rest) =
      reapply_km tr false km_id j (n + 1) rest := by
  rw [reapply_km, if_pos hr]
  simp only [Bool.false_eq_true, if_false, h1, h2, if_neg h3]

/-- A non-fresh pass over items that all reconcile away performs no journal
write and plans no remap. -/
theorem reapply_km_skip (tr : LayoutTranslation) (km_id : String) (items : List Kmi) :
    ∀ (j : Journal) (n : Nat),
    (∀ kmi ∈ items, is_remappable_keymap_item kmi tr = true →
      ∃ per_op fp diff, dget (dgetD j km_id []) kmi.idname = some per_op ∧
        resolve_remapped_keymap_item kmi per_op = some (fp, diff) ∧
        ¬ event_type_to_char kmi.type = diff.source_char) →
    reapply_km tr false km_id j n items = (j, []) := by
  induction items with
  | nil => intro j n _; rfl
  | cons kmi rest ih =>
    intro j n h
    by_cases hr : is_remappable_keymap_item kmi tr = true
    · obtain ⟨per_op, fp, diff, h1, h2, h3⟩ := h kmi (List.mem_cons_self _ _) hr
      rw [reapply_km_cons_known_skip tr km_id j n kmi rest hr per_op fp diff h1 h2 h3]
      exact ih j (n + 1) (fun k hk => h k (List.mem_cons_of_mem _ hk))
    · have hrf : is_remappable_keymap_item kmi tr = false := by
        cases hq : is_remappable_keymap_item kmi tr
        · rfl
        · exact absurd hq hr
      rw [reapply_km_cons_neg tr false km_id j n kmi rest hrf]
      exact ih j (n + 1) (fun k hk => h k (List.mem_cons_of_mem _ hk))

/-- A pass over items none of which is remappable does nothing (either branch). -/
theorem reapply_km_none (tr : LayoutTranslation) (fresh : Bool) (km_id : String)
    (items : List Kmi)
    (hnone : ∀ kmi ∈ items, is_remappable_keymap_item kmi tr = false) :
    ∀ (j : Journal) (n : Nat), reapply_km tr fresh km_id j n items = (j, []) := by
  induction items with
  | nil => intro j n; rfl
  | cons kmi rest ih =>
    intro j n
    rw [reapply_km_cons_neg tr fresh km_id j n kmi rest
      (hnone kmi (List.mem_cons_self _ _))]
    exact ih (fun k hk => hnone k (List.mem_cons_of_mem _ hk)) j (n + 1)

/-- Keymap-level pass in which every keymap contributes nothing. -/
theorem reapply_keymaps_skip (tr : LayoutTranslation) (kms : List KeyMap) :
    ∀ (j : Journal) (ki : Nat),
    (∀ km ∈ kms,
      reapply_km tr (dget j (keymap_id km)).isNone (keymap_id km) j 0 km.keymap_items =
        (j, [])) →
    reapply_keymaps tr j ki kms = (j, []) := by
  induction kms with
  | nil => intro j ki _; rfl
  | cons km rest ih =>
    intro j ki h
    rw [reapply_keymaps_cons, h km (List.mem_cons_self _ _)]
    rw [ih j (ki + 1) (fun km' hm => h km' (List.mem_cons_of_mem _ hm))]
    rfl

/-- Membership of an item's own entry in its per-operator journal list. -/
theorem builtOp_mem (tr : LayoutTranslation) {items : List Kmi} {kmi : Kmi}
    (hmem : kmi ∈ items) (hr : is_remappable_keymap_item kmi tr = true) :
    entryOf tr kmi ∈ builtOp tr items kmi.idname := by
  rw [builtOp]
  refine List.mem_map.2 ⟨kmi, ?_, rfl⟩
  refine List.mem_filter.2 ⟨hmem, ?_⟩
  rw [hr]
  simp

theorem hasRemappable_eq_false {tr : LayoutTranslation} {items : List Kmi}
    (h : hasRemappable tr items = false) :
    ∀ kmi ∈ items, is_remappable_keymap_item kmi tr = false := by
  intro kmi hm
  rw [hasRemappable, List.any_eq_false] at h
  have hq := h kmi hm
  cases hr : is_remappable_keymap_item kmi tr
  · rfl
  · exact absurd hr hq

theorem evolveItem_of_neg {tr : LayoutTranslation} {kmi : Kmi}
    (h : is_remappable_keymap_item kmi tr = false) : evolveItem tr kmi = kmi := by
  rw [evolveItem, if_neg (by rw [h]; exact Bool.false_ne_true)]

theorem keymap_id_evolveKm (tr : LayoutTranslation) (km : KeyMap) :
    keymap_id (evolveKm tr km) = keymap_id km := rfl

/-! ### The mutation phase realizes the evolved keymaps -/

/-- Indexed cells produced by scanning an item list with a selector `p` and a
value function `w`. -/
def idxCells (p : Kmi → Bool) (w : Kmi → String) : Nat → List Kmi → List (Nat × String)
  | _, [] => []
  | n, k :: rest =>
    if p k then (n, w k) :: idxCells p w (n + 1) rest else idxCells p w (n + 1) rest

theorem remapsFrom_eq_idxCells (tr : LayoutTranslation) :
    ∀ (n : Nat) (items : List Kmi),
    remapsFrom tr n items =
      idxCells (fun k => is_remappable_keymap_item k tr) (fun k => newTypeOf tr k) n items := by
  intro n items
  induction items generalizing n with
  | nil => rfl
  | cons k rest ih =>
    rw [remapsFrom, idxCells]
    by_cases hp : is_remappable_keymap_item k tr = true
    · rw [if_pos hp, if_pos hp, ih]
    · rw [if_neg hp, if_neg hp, ih]

theorem idxCells_fold (p : Kmi → Bool) (w : Kmi → String) (g : Kmi → Kmi) :
    ∀ (todo done : List Kmi),
    (idxCells p w done.length todo).foldl
        (fun acc q => setAt (fun kmi => { kmi with type := q.2 }) acc q.1)
        (done ++ todo.map g) =
      done ++ todo.map (fun k => if p k then { g k with type := w k } else g k) := by
  intro todo
  induction todo with
  | nil => intro done; rfl
  | cons k rest ih =>
    intro done
    rw [List.map_cons, List.map_cons, idxCells]
    by_cases hp : p k = true
    · rw [if_pos hp, if_pos hp, List.foldl_cons]
      have hstep : setAt (fun kmi => { kmi with type := ((done.length, w k) : Nat × String).2 })
          (done ++ g k :: rest.map g) ((done.length, w k) : Nat × String).1 =
          done ++ { g k with type := w k } :: rest.map g :=
        setAt_append_length _ done (g k) (rest.map g)
      rw [hstep]
      have ihx := ih (done ++ [{ g k with type := w k }])
      rw [List.length_append, List.length_singleton] at ihx
      simp only [List.append_assoc, List.singleton_append] at ihx
      exact ihx
    · rw [if_neg hp, if_neg hp]
      have ihx := ih (done ++ [g k])
      rw [List.length_append, List.length_singleton] at ihx
      simp only [List.append_assoc, List.singleton_append] at ihx
      exact ihx

theorem applyCells_append (kms : List KeyMap) (a b : List (Nat × Nat × String)) :
    applyCells kms (a ++ b) = applyCells (applyCells kms a) b := by
  rw [applyCells, applyCells, applyCells, List.foldl_append]

theorem applyCells_block (block : List (Nat × String)) :
    ∀ (done : List KeyMap) (km : KeyMap) (todo : List KeyMap),
    applyCells (done ++ km :: todo) (block.map (fun q => (done.length, q.1, q.2))) =
      done ++ (block.foldl (fun k q =>
        { k with keymap_items :=
            setAt (fun kmi => { kmi with type := q.2 }) k.keymap_items q.1 }) km) :: todo := by
  induction block with
  | nil => intro done km todo; rfl
  | cons q bs ih =>
    intro done km todo
    obtain ⟨i, ty⟩ := q
    rw [List.map_cons]
    have h0 : applyCells (done ++ km :: todo)
        (((done.length, i, ty) : Nat × Nat × String) :: bs.map (fun r => (done.length, r.1, r.2))) =
        applyCells (setKmiType (done ++ km :: todo) done.length i ty)
          (bs.map (fun r => (done.length, r.1, r.2))) := rfl
    rw [h0]
    have hstep : setKmiType (done ++ km :: todo) done.length i ty =
        done ++ { km with keymap_items := setAt (fun kmi => { kmi with type := ty }) km.keymap_items i } :: todo := by
      rw [setKmiType]
      exact setAt_append_length _ done km todo
    rw [hstep, List.foldl_cons]
    exact ih done _ todo

theorem foldl_km_items (block : List (Nat × String)) :
    ∀ (km : KeyMap),
    block.foldl (fun k q =>
        { k with keymap_items :=
            setAt (fun kmi => { kmi with type := q.2 }) k.keymap_items q.1 }) km =
      { km with keymap_items :=
          block.foldl (fun its q =>
            setAt (fun kmi => { kmi with type := q.2 }) its q.1) km.keymap_items } := by
  induction block with
  | nil => intro km; rfl
  | cons q bs ih =>
    intro km
    rw [List.foldl_cons, List.foldl_cons, ih]

/-- A successful first-pass mutation phase turns every keymap into its evolved
form. -/
theorem applyCells_spec (tr : LayoutTranslation) :
    ∀ (kms done : List KeyMap),
    applyCells (done ++ kms) (remapsSpecFrom tr done.length kms) =
      done ++ kms.map (evolveKm tr) := by
  intro kms
  induction kms with
  | nil => intro done; rfl
  | cons km rest ih =>
    intro done
    rw [remapsSpecFrom, applyCells_append, List.map_cons]
    rw [applyCells_block (remapsFrom tr 0 km.keymap_items) done km rest]
    rw [foldl_km_items]
    have hitems : (remapsFrom tr 0 km.keymap_items).foldl
        (fun its q => setAt (fun kmi => { kmi with type := q.2 }) its q.1)
        km.keymap_items = km.keymap_items.map (evolveItem tr) := by
      rw [remapsFrom_eq_idxCells]
      have hx := idxCells_fold (fun k => is_remappable_keymap_item k tr)
        (fun k => newTypeOf tr k) (fun k => k) km.keymap_items []
      rw [List.length_nil] at hx
      simp only [List.nil_append] at hx
      rw [List.map_id'] at hx
      exact hx
    rw [hitems]
    have heq : ({ km with keymap_items := km.keymap_items.map (evolveItem tr) } : KeyMap) =
        evolveKm tr km := rfl
    rw [heq]
    have ihx := ih (done ++ [evolveKm tr km])
    rw [List.length_append, List.length_singleton] at ihx
    simp only [List.append_assoc, List.singleton_append] at ihx
    exact ihx

/-! ### The second Apply pass skips every evolved item -/

theorem remappable_char_mem {kmi : Kmi} {tr : LayoutTranslation}
    (h : is_remappable_keymap_item kmi tr = true) :
    event_type_to_char kmi.type ∈ dkeys tr.inOut := by
  rw [is_remappable_keymap_item] at h
  by_cases hc : (kmi.map_type != "KEYBOARD" ||
      (kmi.value != "PRESS" && kmi.value != "RELEASE")) = true
  · rw [if_pos hc] at h
    exact absurd h Bool.false_ne_true
  · rw [if_neg hc] at h
    rw [LayoutTranslation.remapped_input_characters] at h
    exact List.mem_of_elem_eq_true h

theorem group_mem_remappable {tr : LayoutTranslation} {kmi k : Kmi}
    (h : (is_remappable_keymap_item k tr && decide (k.idname = kmi.idname) &&
      decide (KmiFingerprint.from_kmi kmi = KmiFingerprint.from_kmi k)) = true) :
    is_remappable_keymap_item k tr = true := by
  simp only [Bool.and_eq_true] at h
  exact h.1.1

/-- Distinct source characters in a reconciliation group yield distinct
planned target characters, because a valid translation's forward map is
injective. -/
theorem group_targets_nodup (tr : LayoutTranslation) (hwf : ConstructedWF tr)
    (hval : tr.conflicting_keys = []) (items : List Kmi) (kmi : Kmi)
    (hch : ((items.filter (fun k => is_remappable_keymap_item k tr &&
        decide (k.idname = kmi.idname) &&
        decide (KmiFingerprint.from_kmi kmi = KmiFingerprint.from_kmi k))).map
      (fun k => event_type_to_char k.type)).Nodup)
    (hcn : ∀ k ∈ items, is_remappable_keymap_item k tr = true →
      event_type_to_char (newTypeOf tr k) =
        tr.map_input_to_output (event_type_to_char k.type)) :
    ((items.filter (fun k => is_remappable_keymap_item k tr &&
        decide (k.idname = kmi.idname) &&
        decide (KmiFingerprint.from_kmi kmi = KmiFingerprint.from_kmi k))).map
      (fun k => event_type_to_char (newTypeOf tr k))).Nodup := by
  refine List.Nodup.map_on ?_ (List.Nodup.of_map _ hch)
  intro x hx y hy hxy
  have hxf := List.mem_filter.1 hx
  have hyf := List.mem_filter.1 hy
  have hxr := group_mem_remappable hxf.2
  have hyr := group_mem_remappable hyf.2
  rw [hcn x hxf.1 hxr, hcn y hyf.1 hyr] at hxy
  obtain ⟨vx, hvx⟩ := Option.isSome_iff_exists.1
    ((dget_isSome_iff_mem_keys tr.inOut (event_type_to_char x.type)).2
      (remappable_char_mem hxr))
  obtain ⟨vy, hvy⟩ := Option.isSome_iff_exists.1
    ((dget_isSome_iff_mem_keys tr.inOut (event_type_to_char y.type)).2
      (remappable_char_mem hyr))
  rw [LayoutTranslation.map_input_to_output, LayoutTranslation.map_input_to_output,
    dgetD, dgetD, hvx, hvy] at hxy
  simp only [Option.getD_some] at hxy
  have hvy2 : dget tr.inOut (event_type_to_char y.type) = some vx := by
    rw [hvy, hxy]
  have hcc : event_type_to_char x.type = event_type_to_char y.type :=
    valid_fwd_inj hwf hval hvx hvy2
  exact List.inj_on_of_nodup_map hch hx hy hcc

/-- A translated character read back as the forward image differs from the
source character (identity elision). -/
theorem fwd_char_ne {tr : LayoutTranslation} (hwf : ConstructedWF tr) {c : String}
    (hm : c ∈ dkeys tr.inOut) : ¬ tr.map_input_to_output c = c := by
  obtain ⟨v, hv⟩ := Option.isSome_iff_exists.1
    ((dget_isSome_iff_mem_keys tr.inOut c).2 hm)
  rw [LayoutTranslation.map_input_to_output, dgetD, hv]
  intro hvc
  exact ConstructedWF.inOut_ne hwf (c, v) (dget_mem hv) (hvc.symm)

/-- After a fresh Apply pass, a second pass over one evolved keymap writes
nothing and plans nothing. -/
theorem second_pass_km (tr : LayoutTranslation) (hwf : ConstructedWF tr)
    (hval : tr.conflicting_keys = []) (kms : List KeyMap)
    (hids : (kms.map keymap_id).Nodup)
    (hchars : ∀ km ∈ kms, ∀ kmi ∈ km.keymap_items,
      is_remappable_keymap_item kmi tr = true →
      ((km.keymap_items.filter (fun k => is_remappable_keymap_item k tr &&
          decide (k.idname = kmi.idname) &&
          decide (KmiFingerprint.from_kmi kmi = KmiFingerprint.from_kmi k))).map
        (fun k => event_type_to_char k.type)).Nodup)
    (hcanon : ∀ km ∈ kms, ∀ kmi ∈ km.keymap_items,
      is_remappable_keymap_item kmi tr = true →
      event_type_to_char (newTypeOf tr kmi) =
        tr.map_input_to_output (event_type_to_char kmi.type))
    (km : KeyMap) (hm : km ∈ kms) :
    reapply_km tr (dget (journalSpec tr kms) (keymap_id (evolveKm tr km))).isNone
      (keymap_id (evolveKm tr km)) (journalSpec tr kms) 0
      (evolveKm tr km).keymap_items =
      (journalSpec tr kms, []) := by
  rw [keymap_id_evolveKm]
  by_cases hR : hasRemappable tr km.keymap_items = true
  · rw [journalSpec_get tr kms km hm hids, if_pos hR]
    simp only [Option.isNone_some]
    apply reapply_km_skip
    intro e he hre
    obtain ⟨k, hk, rfl⟩ := List.mem_map.1 he
    by_cases hr : is_remappable_keymap_item k tr = true
    · have hev : evolveItem tr k = { k with type := newTypeOf tr k } := by
        rw [evolveItem, if_pos hr]
      refine ⟨builtOp tr km.keymap_items k.idname,
        (entryOf tr k).1, (entryOf tr k).2, ?_, ?_, ?_⟩
      · have hslot : dgetD (journalSpec tr kms) (keymap_id km) [] =
            builtKmFrom tr [] km.keymap_items := by
          rw [dgetD, journalSpec_get tr kms km hm hids, if_pos hR]
          rfl
        rw [hslot]
        have hid : (evolveItem tr k).idname = k.idname := by rw [hev]
        rw [hid]
        rw [builtKmFrom_get]
        show (if builtOp tr km.keymap_items k.idname = [] then none
          else some (builtOp tr km.keymap_items k.idname)) =
          some (builtOp tr km.keymap_items k.idname)
        rw [if_neg (List.ne_nil_of_mem (builtOp_mem tr hk hr))]
      · exact resolve_after_apply tr km.keymap_items k hk hr
          (group_targets_nodup tr hwf hval km.keymap_items k
            (hchars km hm k hk hr)
            (fun q hq hqr => hcanon km hm q hq hqr))
      · rw [hev]
        show ¬ event_type_to_char (newTypeOf tr k) = event_type_to_char k.type
        rw [hcanon km hm k hk hr]
        exact fwd_char_ne hwf (remappable_char_mem hr)
    · have hrf : is_remappable_keymap_item k tr = false := by
        cases hq : is_remappable_keymap_item k tr
        · rfl
        · exact absurd hq hr
      rw [evolveItem_of_neg hrf] at hre
      exact absurd hre hr
  · have hRf : hasRemappable tr km.keymap_items = false := by
      cases hq : hasRemappable tr km.keymap_items
      · rfl
      · exact absurd hq hR
    rw [journalSpec_get tr kms km hm hids, if_neg hR]
    simp only [Option.isNone_none]
    apply reapply_km_none
    intro e he
    obtain ⟨k, hk, rfl⟩ := List.mem_map.1 he
    rw [evolveItem_of_neg (hasRemappable_eq_false hRf k hk)]
    exact hasRemappable_eq_false hRf k hk

/-! ### The second Plan is empty -/

/-- The per-item reconciliation facts available after a fresh Apply pass. -/
theorem evolved_item_skips (tr : LayoutTranslation) (hwf : ConstructedWF tr)
    (hval : tr.conflicting_keys = []) (items : List Kmi)
    (hch : ∀ kmi ∈ items, is_remappable_keymap_item kmi tr = true →
      ((items.filter (fun k => is_remappable_keymap_item k tr &&
          decide (k.idname = kmi.idname) &&
          decide (KmiFingerprint.from_kmi kmi = KmiFingerprint.from_kmi k))).map
        (fun k => event_type_to_char k.type)).Nodup)
    (hcn : ∀ k ∈ items, is_remappable_keymap_item k tr = true →
      event_type_to_char (newTypeOf tr k) =
        tr.map_input_to_output (event_type_to_char k.type)) :
    ∀ e ∈ items.map (evolveItem tr), is_remappable_keymap_item e tr = true →
      ∃ per_op fp diff, dget (builtKmFrom tr [] items) e.idname = some per_op ∧
        resolve_remapped_keymap_item e per_op = some (fp, diff) ∧
        ¬ event_type_to_char e.type = diff.source_char := by
  intro e he hre
  obtain ⟨k, hk, rfl⟩ := List.mem_map.1 he
  by_cases hr : is_remappable_keymap_item k tr = true
  · have hev : evolveItem tr k = { k with type := newTypeOf tr k } := by
      rw [evolveItem, if_pos hr]
    refine ⟨builtOp tr items k.idname, (entryOf tr k).1, (entryOf tr k).2, ?_, ?_, ?_⟩
    · have hid : (evolveItem tr k).idname = k.idname := by rw [hev]
      rw [hid]
      rw [builtKmFrom_get]
      show (if builtOp tr items k.idname = [] then none
        else some (builtOp tr items k.idname)) = some (builtOp tr items k.idname)
      rw [if_neg (List.ne_nil_of_mem (builtOp_mem tr hk hr))]
    · exact resolve_after_apply tr items k hk hr
        (group_targets_nodup tr hwf hval items k (hch k hk hr) hcn)
    · rw [hev]
      show ¬ event_type_to_char (newTypeOf tr k) = event_type_to_char k.type
      rw [hcn k hk hr]
      exact fwd_char_ne hwf (remappable_char_mem hr)
  · have hrf : is_remappable_keymap_item k tr = false := by
      cases hq : is_remappable_keymap_item k tr
      · rfl
      · exact absurd hq hr
    rw [evolveItem_of_neg hrf] at hre
    exact absurd hre hr

/-- `pendFresh` over items none of which is remappable. -/
theorem pendFresh_nil (tr : LayoutTranslation) (items : List Kmi)
    (h : ∀ kmi ∈ items, is_remappable_keymap_item kmi tr = false) :
    ∀ n, pendFresh tr n items = [] := by
  induction items with
  | nil => intro n; rfl
  | cons kmi rest ih =>
    intro n
    rw [pendFresh, if_neg (by rw [h kmi (List.mem_cons_self _ _)]; exact Bool.false_ne_true)]
    exact ih (fun k hk => h k (List.mem_cons_of_mem _ hk)) (n + 1)

/-- `pendKnown` over items that all reconcile away. -/
theorem pendKnown_skip (tr : LayoutTranslation)
    (remapped_km : AList (List (KmiFingerprint × KmiAssignmentDiff))) (items : List Kmi)
    (h : ∀ kmi ∈ items, is_remappable_keymap_item kmi tr = true →
      ∃ per_op fp diff, dget remapped_km kmi.idname = some per_op ∧
        resolve_remapped_keymap_item kmi per_op = some (fp, diff) ∧
        ¬ event_type_to_char kmi.type = diff.source_char) :
    ∀ n, pendKnown tr remapped_km n items = [] := by
  induction items with
  | nil => intro n; rfl
  | cons kmi rest ih =>
    intro n
    rw [pendKnown]
    by_cases hr : is_remappable_keymap_item kmi tr = true
    · obtain ⟨per_op, fp, diff, h1, h2, h3⟩ := h kmi (List.mem_cons_self _ _) hr
      simp only [hr, Bool.not_true, Bool.false_eq_true, if_false, h1, h2, if_neg h3]
      exact ih (fun k hk hkr => h k (List.mem_cons_of_mem _ hk) hkr) (n + 1)
    · have hrf : is_remappable_keymap_item kmi tr = false := by
        cases hq : is_remappable_keymap_item kmi tr
        · rfl
        · exact absurd hq hr
      simp only [hrf, Bool.not_false, if_true]
      exact ih (fun k hk hkr => h k (List.mem_cons_of_mem _ hk) hkr) (n + 1)

/-- A plan in which every keymap contributes nothing is empty. -/
theorem pending_empty (tr : LayoutTranslation) (journal : Journal) (kms : List KeyMap) :
    ∀ ki,
    (∀ km ∈ kms,
      (match dget journal (keymap_id km) with
       | none => pendFresh tr 0 km.keymap_items
       | some r => pendKnown tr r 0 km.keymap_items) = []) →
    pending_keymaps_to_emulate tr journal ki kms = [] := by
  induction kms with
  | nil => intro ki _; rfl
  | cons km rest ih =>
    intro ki h
    rw [pending_keymaps_to_emulate]
    have hkm := h km (List.mem_cons_self _ _)
    cases hd : dget journal (keymap_id km) with
    | none =>
      rw [hd] at hkm
      have hkm2 : pendFresh tr 0 km.keymap_items = [] := hkm
      rw [hkm2, List.map_nil]
      show ([] : List (Nat × Nat × Option (KmiFingerprint × KmiAssignmentDiff))) ++
        pending_keymaps_to_emulate tr journal (ki + 1) rest = []
      rw [List.nil_append]
      exact ih (ki + 1) (fun km' hm => h km' (List.mem_cons_of_mem _ hm))
    | some r =>
      rw [hd] at hkm
      have hkm2 : pendKnown tr r 0 km.keymap_items = [] := hkm
      show (pendKnown tr r 0 km.keymap_items).map (fun q => (ki, q)) ++
        pending_keymaps_to_emulate tr journal (ki + 1) rest = []
      rw [hkm2, List.map_nil, List.nil_append]
      exact ih (ki + 1) (fun km' hm => h km' (List.mem_cons_of_mem _ hm))

/-- After a fresh Apply pass the next plan is empty. -/
theorem pending_second_empty (tr : LayoutTranslation) (hwf : ConstructedWF tr)
    (hval : tr.conflicting_keys = []) (kms : List KeyMap)
    (hids : (kms.map keymap_id).Nodup)
    (hchars : ∀ km ∈ kms, ∀ kmi ∈ km.keymap_items,
      is_remappable_keymap_item kmi tr = true →
      ((km.keymap_items.filter (fun k => is_remappable_keymap_item k tr &&
          decide (k.idname = kmi.idname) &&
          decide (KmiFingerprint.from_kmi kmi = KmiFingerprint.from_kmi k))).map
        (fun k => event_type_to_char k.type)).Nodup)
    (hcanon : ∀ km ∈ kms, ∀ kmi ∈ km.keymap_items,
      is_remappable_keymap_item kmi tr = true →
      event_type_to_char (newTypeOf tr kmi) =
        tr.map_input_to_output (event_type_to_char kmi.type)) :
    pending_keymaps_to_emulate tr (journalSpec tr kms) 0 (kms.map (evolveKm tr)) = [] := by
  apply pending_empty
  intro km' hm'
  obtain ⟨km, hm, rfl⟩ := List.mem_map.1 hm'
  rw [keymap_id_evolveKm]
  rw [journalSpec_get tr kms km hm hids]
  by_cases hR : hasRemappable tr km.keymap_items = true
  · rw [if_pos hR]
    exact pendKnown_skip tr _ _
      (evolved_item_skips tr hwf hval km.keymap_items
        (fun q hq hqr => hchars km hm q hq hqr)
        (fun q hq hqr => hcanon km hm q hq hqr)) 0
  · have hRf : hasRemappable tr km.keymap_items = false := by
      cases hq : hasRemappable tr km.keymap_items
      · rfl
      · exact absurd hq hR
    rw [if_neg hR]
    apply pendFresh_nil
    intro e he
    obtain ⟨k, hk, rfl⟩ := List.mem_map.1 he
    rw [evolveItem_of_neg (hasRemappable_eq_false hRf k hk)]
    exact hasRemappable_eq_false hRf k hk

/-! ### Claim C2: idempotence of Apply -/

/-- A first Apply against an empty journal commits the spec journal, evolves
every keymap, and succeeds. -/
theorem apply_fresh_spec (tr : LayoutTranslation) (hvalid : tr.is_valid = true)
    (kms : List KeyMap) (hids : (kms.map keymap_id).Nodup)
    (hunlock : ∀ km ∈ kms, ∀ kmi ∈ km.keymap_items, kmi.locked = false) :
    reapply_keymap_translation tr false [] kms =
      ⟨true,
       "Remapped correctly " ++ toString (remapsSpecFrom tr 0 kms).length ++ " keymap items!",
       journalSpec tr kms, kms.map (evolveKm tr), (remapsSpecFrom tr 0 kms).length⟩ := by
  rw [reapply_keymap_translation]
  rw [if_neg (by rw [hvalid]; decide)]
  have hplan : reapply_keymaps tr [] 0 kms =
      (journalSpec tr kms, remapsSpecFrom tr 0 kms) := by
    have hx := reapply_keymaps_fresh tr kms [] 0 (fun km _ => rfl) hids
    rw [List.nil_append] at hx
    exact hx
  have hmut : run_mutations kms (remapsSpecFrom tr 0 kms) =
      (applyCells kms (remapsSpecFrom tr 0 kms), (remapsSpecFrom tr 0 kms).length, true) :=
    run_mutations_all kms _ (fun c _ => kmiLockedAt_false kms hunlock c.1 c.2.1)
  have happ : applyCells kms (remapsSpecFrom tr 0 kms) = kms.map (evolveKm tr) := by
    have hx := applyCells_spec tr kms []
    rw [List.length_nil] at hx
    simp only [List.nil_append] at hx
    exact hx
  simp only [hplan, hmut, happ]
  rw [if_pos trivial]

/-- C2 (corrected).  Apply is idempotent on a fresh state under the stated
side conditions: with a valid constructed translation, an initially empty
journal, pairwise-distinct keymap ids, no locked item, pairwise-distinct
trigger characters within each (operator, fingerprint) reconciliation group
of a keymap, and translated characters that read back as the forward image of
the source character, a first Apply succeeds and an immediate second Apply
finds an empty pending plan, performs zero mutations, and leaves the journal
and the keymaps exactly as the first run produced them.  Without the
distinct-characters condition the property fails (see the counterexample). -/
theorem C2_apply_idempotent (tr : LayoutTranslation) (hwf : ConstructedWF tr)
    (hval : tr.conflicting_keys = []) (kms : List KeyMap)
    (hids : (kms.map keymap_id).Nodup)
    (hunlock : ∀ km ∈ kms, ∀ kmi ∈ km.keymap_items, kmi.locked = false)
    (hchars : ∀ km ∈ kms, ∀ kmi ∈ km.keymap_items,
      is_remappable_keymap_item kmi tr = true →
      ((km.keymap_items.filter (fun k => is_remappable_keymap_item k tr &&
          decide (k.idname = kmi.idname) &&
          decide (KmiFingerprint.from_kmi kmi = KmiFingerprint.from_kmi k))).map
        (fun k => event_type_to_char k.type)).Nodup)
    (hcanon : ∀ km ∈ kms, ∀ kmi ∈ km.keymap_items,
      is_remappable_keymap_item kmi tr = true →
      event_type_to_char (newTypeOf tr kmi) =
        tr.map_input_to_output (event_type_to_char kmi.type)) :
    (reapply_keymap_translation tr false [] kms).success = true ∧
    pending_keymaps_to_emulate tr (reapply_keymap_translation tr false [] kms).journal 0
      (reapply_keymap_translation tr false [] kms).keymaps = [] ∧
    reapply_keymap_translation tr false
        (reapply_keymap_translation tr false [] kms).journal
        (reapply_keymap_translation tr false [] kms).keymaps =
      ⟨true, "Remapped correctly 0 keymap items!",
       (reapply_keymap_translation tr false [] kms).journal,
       (reapply_keymap_translation tr false [] kms).keymaps, 0⟩ := by
  have hvalid : tr.is_valid = true := by
    rw [LayoutTranslation.is_valid, hval]
    rfl
  have h1 := apply_fresh_spec tr hvalid kms hids hunlock
  refine ⟨by rw [h1], ?_, ?_⟩
  · rw [h1]
    exact pending_second_empty tr hwf hval kms hids hchars hcanon
  · rw [h1]
    show reapply_keymap_translation tr false (journalSpec tr kms)
      (kms.map (evolveKm tr)) = _
    rw [reapply_keymap_translation]
    rw [if_neg (by rw [hvalid]; decide)]
    have hskip : reapply_keymaps tr (journalSpec tr kms) 0 (kms.map (evolveKm tr)) =
        (journalSpec tr kms, []) := by
      apply reapply_keymaps_skip
      intro km' hm'
      obtain ⟨km, hm, rfl⟩ := List.mem_map.1 hm'
      exact second_pass_km tr hwf hval kms hids hchars hcanon km hm
    rw [hskip]
    show (if (run_mutations (kms.map (evolveKm tr)) ([] : List (Nat × Nat × String))).2.2 = true
        then
        ({ success := true,
           msg := "Remapped correctly " ++
             toString ([] : List (Nat × Nat × String)).length ++ " keymap items!",
           journal := journalSpec tr kms,
           keymaps := (run_mutations (kms.map (evolveKm tr))
             ([] : List (Nat × Nat × String))).1,
           applied := (run_mutations (kms.map (evolveKm tr))
             ([] : List (Nat × Nat × String))).2.1 } : ApplyResult)
      else
        { success := false, msg := "Failed to remap keymap items: the host rejected a mutation",
          journal := journalSpec tr kms,
          keymaps := (run_mutations (kms.map (evolveKm tr))
            ([] : List (Nat × Nat × String))).1,
          applied := (run_mutations (kms.map (evolveKm tr))
            ([] : List (Nat × Nat × String))).2.1 }) =
      ({ success := true, msg := "Remapped correctly 0 keymap items!",
         journal := journalSpec tr kms, keymaps := kms.map (evolveKm tr),
         applied := 0 } : ApplyResult)
    exact rfl

/-! ### Claim C7: atomic refusal of an invalid translation -/

/-- C7 (confirmed).  When the active translation has unresolved conflicts and
conflict-tolerance is off, Apply fails up front with the invalid-mapping
message and returns the journal and the keymaps untouched, with zero
mutations. -/
theorem C7_invalid_refusal (tr : LayoutTranslation) (journal : Journal)
    (kms : List KeyMap) (hconf : ¬ tr.conflicting_keys = []) :
    reapply_keymap_translation tr false journal kms =
      ⟨false, "Layout mapping is invalid. Fix errors before applying.", journal, kms, 0⟩ := by
  have hv : tr.is_valid = false := by
    rw [LayoutTranslation.is_valid]
    cases hc : tr.conflicting_keys with
    | nil => exact absurd hc hconf
    | cons a l => rfl
  rw [reapply_keymap_translation]
  rw [if_pos (by rw [hv]; rfl)]

/-- C7 witness: the single-dict construction `from_forward({'A': 'B'})` is
invalid (physical `B` is never remapped), and Apply refuses on an empty host
state. -/
theorem C7_invalid_refusal_witness :
    ¬ (mkFromForward [("A", "B")]).conflicting_keys = [] ∧
    reapply_keymap_translation (mkFromForward [("A", "B")]) false [] [] =
      ⟨false, "Layout mapping is invalid. Fix errors before applying.", [], [], 0⟩ :=
  ⟨by decide, C7_invalid_refusal (mkFromForward [("A", "B")]) [] [] (by decide)⟩

/-! ### Claim C8: abort on first rejected mutation retains the journal -/

/-- C8 (confirmed).  If the gate passes and the planned mutation list splits
as `good ++ bad :: rest` with every `good` cell unlocked and the `bad` cell
locked, Apply returns failure with exactly `good.length` mutations applied,
and its returned journal is the fully committed pass journal: every entry
reachable in the committed journal — including entries for bindings whose
mutation was never attempted — is still reachable in the returned journal. -/
theorem C8_abort_retains_journal (tr : LayoutTranslation) (allow : Bool)
    (j : Journal) (kms : List KeyMap)
    (hgate : (!tr.is_valid && !allow) = false)
    (good : List (Nat × Nat × String)) (bad : Nat × Nat × String)
    (rest : List (Nat × Nat × String))
    (hplan : (reapply_keymaps tr j 0 kms).2 = good ++ bad :: rest)
    (hgood : ∀ c ∈ good, kmiLockedAt kms c.1 c.2.1 = false)
    (hbad : kmiLockedAt kms bad.1 bad.2.1 = true) :
    reapply_keymap_translation tr allow j kms =
      ⟨false, "Failed to remap keymap items: the host rejected a mutation",
       (reapply_keymaps tr j 0 kms).1, applyCells kms good, good.length⟩ ∧
    ∀ (km_id op : String) (e : KmiFingerprint × KmiAssignmentDiff)
      (per_km : AList (List (KmiFingerprint × KmiAssignmentDiff)))
      (l : List (KmiFingerprint × KmiAssignmentDiff)),
      dget (reapply_keymaps tr j 0 kms).1 km_id = some per_km →
      dget per_km op = some l → e ∈ l →
      ∃ per_km2 l2,
        dget (reapply_keymap_translation tr allow j kms).journal km_id = some per_km2 ∧
        dget per_km2 op = some l2 ∧ e ∈ l2 := by
  have hmut : run_mutations kms (reapply_keymaps tr j 0 kms).2 =
      (applyCells kms good, good.length, false) := by
    rw [hplan]
    exact run_mutations_abort kms good bad rest hgood hbad
  have hmain : reapply_keymap_translation tr allow j kms =
      ⟨false, "Failed to remap keymap items: the host rejected a mutation",
       (reapply_keymaps tr j 0 kms).1, applyCells kms good, good.length⟩ := by
    rw [reapply_keymap_translation]
    rw [if_neg (by rw [hgate]; exact Bool.false_ne_true)]
    simp only [hmut, Bool.false_eq_true, if_false]
  refine ⟨hmain, ?_⟩
  intro km_id op e per_km l h1 h2 h3
  rw [hmain]
  exact ⟨per_km, l, h1, h2, h3⟩

/-- C8 witness: the swap `A <-> Q` over one keymap holding an unlocked `A`
binding followed by a locked `Q` binding: the journal keeps both recorded
entries while only the first mutation is applied. -/
theorem C8_abort_retains_journal_witness :
    reapply_keymap_translation (mkFromForward [("A", "Q"), ("Q", "A")]) false []
      [⟨false, "EMPTY", "WINDOW", "Window",
        [⟨"op.a", "KEYBOARD", "PRESS", "A", none, "NONE", true,
          0, 0, 0, 0, 0, "NONE", false, false⟩,
         ⟨"op.b", "KEYBOARD", "PRESS", "Q", none, "NONE", true,
          0, 0, 0, 0, 0, "NONE", false, true⟩]⟩] =
      ⟨false, "Failed to remap keymap items: the host rejected a mutation",
       (reapply_keymaps (mkFromForward [("A", "Q"), ("Q", "A")]) [] 0
         [⟨false, "EMPTY", "WINDOW", "Window",
           [⟨"op.a", "KEYBOARD", "PRESS", "A", none, "NONE", true,
             0, 0, 0, 0, 0, "NONE", false, false⟩,
            ⟨"op.b", "KEYBOARD", "PRESS", "Q", none, "NONE", true,
             0, 0, 0, 0, 0, "NONE", false, true⟩]⟩]).1,
       applyCells
         [⟨false, "EMPTY", "WINDOW", "Window",
           [⟨"op.a", "KEYBOARD", "PRESS", "A", none, "NONE", true,
             0, 0, 0, 0, 0, "NONE", false, false⟩,
            ⟨"op.b", "KEYBOARD", "PRESS", "Q", none, "NONE", true,
             0, 0, 0, 0, 0, "NONE", false, true⟩]⟩] [(0, 0, "Q")],
       1⟩ :=
  (C8_abort_retains_journal (mkFromForward [("A", "Q"), ("Q", "A")]) false []
    [⟨false, "EMPTY", "WINDOW", "Window",
      [⟨"op.a", "KEYBOARD", "PRESS", "A", none, "NONE", true,
        0, 0, 0, 0, 0, "NONE", false, false⟩,
       ⟨"op.b", "KEYBOARD", "PRESS", "Q", none, "NONE", true,
        0, 0, 0, 0, 0, "NONE", false, true⟩]⟩]
    (by decide) [(0, 0, "Q")] (0, 1, "A") [] (by decide) (by decide) (by decide)).1

/-- C2 witness: the swap `A <-> Q` applied twice to a single keymap holding
one unlocked `A` binding. -/
theorem C2_apply_idempotent_witness :
    (reapply_keymap_translation (mkFromForward [("A", "Q"), ("Q", "A")]) false []
      [⟨false, "EMPTY", "WINDOW", "Window",
        [⟨"op.a", "KEYBOARD", "PRESS", "A", none, "NONE", true,
          0, 0, 0, 0, 0, "NONE", false, false⟩]⟩]).success = true ∧
    pending_keymaps_to_emulate (mkFromForward [("A", "Q"), ("Q", "A")])
      (reapply_keymap_translation (mkFromForward [("A", "Q"), ("Q", "A")]) false []
        [⟨false, "EMPTY", "WINDOW", "Window",
          [⟨"op.a", "KEYBOARD", "PRESS", "A", none, "NONE", true,
            0, 0, 0, 0, 0, "NONE", false, false⟩]⟩]).journal 0
      (reapply_keymap_translation (mkFromForward [("A", "Q"), ("Q", "A")]) false []
        [⟨false, "EMPTY", "WINDOW", "Window",
          [⟨"op.a", "KEYBOARD", "PRESS", "A", none, "NONE", true,
            0, 0, 0, 0, 0, "NONE", false, false⟩]⟩]).keymaps = [] ∧
    reapply_keymap_translation (mkFromForward [("A", "Q"), ("Q", "A")]) false
        (reapply_keymap_translation (mkFromForward [("A", "Q"), ("Q", "A")]) false []
          [⟨false, "EMPTY", "WINDOW", "Window",
            [⟨"op.a", "KEYBOARD", "PRESS", "A", none, "NONE", true,
              0, 0, 0, 0, 0, "NONE", false, false⟩]⟩]).journal
        (reapply_keymap_translation (mkFromForward [("A", "Q"), ("Q", "A")]) false []
          [⟨false, "EMPTY", "WINDOW", "Window",
            [⟨"op.a", "KEYBOARD", "PRESS", "A", none, "NONE", true,
              0, 0, 0, 0, 0, "NONE", false, false⟩]⟩]).keymaps =
      ⟨true, "Remapped correctly 0 keymap items!",
       (reapply_keymap_translation (mkFromForward [("A", "Q"), ("Q", "A")]) false []
         [⟨false, "EMPTY", "WINDOW", "Window",
           [⟨"op.a", "KEYBOARD", "PRESS", "A", none, "NONE", true,
             0, 0, 0, 0, 0, "NONE", false, false⟩]⟩]).journal,
       (reapply_keymap_translation (mkFromForward [("A", "Q"), ("Q", "A")]) false []
         [⟨false, "EMPTY", "WINDOW", "Window",
           [⟨"op.a", "KEYBOARD", "PRESS", "A", none, "NONE", true,
             0, 0, 0, 0, 0, "NONE", false, false⟩]⟩]).keymaps, 0⟩ :=
  C2_apply_idempotent (mkFromForward [("A", "Q"), ("Q", "A")])
    (Or.inl ⟨[("A", "Q"), ("Q", "A")], by decide, rfl⟩) (by decide)
    [⟨false, "EMPTY", "WINDOW", "Window",
      [⟨"op.a", "KEYBOARD", "PRESS", "A", none, "NONE", true,
        0, 0, 0, 0, 0, "NONE", false, false⟩]⟩]
    (by decide) (by decide) (by decide) (by decide)

/-- C2 counterexample.  Two structurally identical `A` bindings on the same
operator: the first Apply succeeds and remaps both to `Q`, but the second run
cannot reconcile either binding against the two ambiguous journal entries, so
its plan is non-empty and it performs two further mutations — Apply is not
idempotent without the distinct-characters condition. -/
theorem C2_counterexample :
    (reapply_keymap_translation (mkFromForward [("A", "Q"), ("Q", "A")]) false []
      [⟨false, "EMPTY", "WINDOW", "Window",
        [⟨"op.a", "KEYBOARD", "PRESS", "A", none, "NONE", true,
          0, 0, 0, 0, 0, "NONE", false, false⟩,
         ⟨"op.a", "KEYBOARD", "PRESS", "A", none, "NONE", true,
          0, 0, 0, 0, 0, "NONE", false, false⟩]⟩]).success = true ∧
    ¬ pending_keymaps_to_emulate (mkFromForward [("A", "Q"), ("Q", "A")])
      (reapply_keymap_translation (mkFromForward [("A", "Q"), ("Q", "A")]) false []
        [⟨false, "EMPTY", "WINDOW", "Window",
          [⟨"op.a", "KEYBOARD", "PRESS", "A", none, "NONE", true,
            0, 0, 0, 0, 0, "NONE", false, false⟩,
           ⟨"op.a", "KEYBOARD", "PRESS", "A", none, "NONE", true,
            0, 0, 0, 0, 0, "NONE", false, false⟩]⟩]).journal 0
      (reapply_keymap_translation (mkFromForward [("A", "Q"), ("Q", "A")]) false []
        [⟨false, "EMPTY", "WINDOW", "Window",
          [⟨"op.a", "KEYBOARD", "PRESS", "A", none, "NONE", true,
            0, 0, 0, 0, 0, "NONE", false, false⟩,
           ⟨"op.a", "KEYBOARD", "PRESS", "A", none, "NONE", true,
            0, 0, 0, 0, 0, "NONE", false, false⟩]⟩]).keymaps = [] ∧
    (reapply_keymap_translation (mkFromForward [("A", "Q"), ("Q", "A")]) false
      (reapply_keymap_translation (mkFromForward [("A", "Q"), ("Q", "A")]) false []
        [⟨false, "EMPTY", "WINDOW", "Window",
          [⟨"op.a", "KEYBOARD", "PRESS", "A", none, "NONE", true,
            0, 0, 0, 0, 0, "NONE", false, false⟩,
           ⟨"op.a", "KEYBOARD", "PRESS", "A", none, "NONE", true,
            0, 0, 0, 0, 0, "NONE", false, false⟩]⟩]).journal
      (reapply_keymap_translation (mkFromForward [("A", "Q"), ("Q", "A")]) false []
        [⟨false, "EMPTY", "WINDOW", "Window",
          [⟨"op.a", "KEYBOARD", "PRESS", "A", none, "NONE", true,
            0, 0, 0, 0, 0, "NONE", false, false⟩,
           ⟨"op.a", "KEYBOARD", "PRESS", "A", none, "NONE", true,
            0, 0, 0, 0, 0, "NONE", false, false⟩]⟩]).keymaps).applied = 2 := by
  refine ⟨by decide, by decide, by decide⟩

/-! ### Claim C3: Revert after Apply -/

/-- The reconciled journal entries Revert processes for one keymap, in item
order: `(item index, operator id, fingerprint, diff)`. -/
def revertsFrom (tr : LayoutTranslation) : Nat → List Kmi →
    List (Nat × String × KmiFingerprint × KmiAssignmentDiff)
  | _, [] => []
  | n, k :: rest =>
    if is_remappable_keymap_item k tr then
      (n, k.idname, entryOf tr k) :: revertsFrom tr (n + 1) rest
    else revertsFrom tr (n + 1) rest

/-- The full processed list of a Revert run right after a fresh Apply. -/
def revertsSpecFrom (tr : LayoutTranslation) : Nat → List KeyMap →
    List (Nat × String × Nat × String × KmiFingerprint × KmiAssignmentDiff)
  | _, [] => []
  | ki, km :: rest =>
    (revertsFrom tr 0 km.keymap_items).map (fun q => (ki, keymap_id km, q)) ++
    revertsSpecFrom tr (ki + 1) rest

/-- Keymap-level indexed cells built from per-item indexed cells. -/
def kmIdxCells (p : Kmi → Bool) (w : Kmi → String) : Nat → List KeyMap →
    List (Nat × Nat × String)
  | _, [] => []
  | ki, km :: rest =>
    (idxCells p w 0 km.keymap_items).map (fun q => (ki, q.1, q.2)) ++
    kmIdxCells p w (ki + 1) rest

theorem revertsFrom_nil (tr : LayoutTranslation) {items : List Kmi}
    (h : ∀ k ∈ items, is_remappable_keymap_item k tr = false) :
    ∀ n, revertsFrom tr n items = [] := by
  induction items with
  | nil => intro n; rfl
  | cons k rest ih =>
    intro n
    rw [revertsFrom,
      if_neg (by rw [h k (List.mem_cons_self _ _)]; exact Bool.false_ne_true)]
    exact ih (fun q hq => h q (List.mem_cons_of_mem _ hq)) (n + 1)

theorem revertsFrom_mem (tr : LayoutTranslation) {items : List Kmi} {k : Kmi}
    (hk : k ∈ items) (hr : is_remappable_keymap_item k tr = true) :
    ∀ n, ∃ m, (m, k.idname, entryOf tr k) ∈ revertsFrom tr n items := by
  induction items with
  | nil => exact absurd hk (List.not_mem_nil k)
  | cons a rest ih =>
    intro n
    rw [revertsFrom]
    rcases List.mem_cons.1 hk with rfl | hmem
    · exact ⟨n, by rw [if_pos hr]; exact List.mem_cons_self _ _⟩
    · by_cases hp : is_remappable_keymap_item a tr = true
      · obtain ⟨m, hm⟩ := ih hmem (n + 1)
        exact ⟨m, by rw [if_pos hp]; exact List.mem_cons_of_mem _ hm⟩
      · obtain ⟨m, hm⟩ := ih hmem (n + 1)
        exact ⟨m, by
          rw [if_neg (by
            cases hq : is_remappable_keymap_item a tr
            · exact Bool.false_ne_true
            · exact absurd hq hp)]
          exact hm⟩

theorem revertsSpec_mem (tr : LayoutTranslation) :
    ∀ (kms : List KeyMap) (ki : Nat) (km : KeyMap), km ∈ kms →
    ∀ k ∈ km.keymap_items, is_remappable_keymap_item k tr = true →
    ∃ a b, (a, keymap_id km, b, k.idname, entryOf tr k) ∈ revertsSpecFrom tr ki kms := by
  intro kms
  induction kms with
  | nil => intro ki km hm; exact absurd hm (List.not_mem_nil km)
  | cons km0 rest ih =>
    intro ki km hm k hk hr
    rw [revertsSpecFrom]
    rcases List.mem_cons.1 hm with rfl | hmem
    · obtain ⟨m, hmm⟩ := revertsFrom_mem tr hk hr 0
      refine ⟨ki, m, List.mem_append.2 (Or.inl ?_)⟩
      exact List.mem_map.2 ⟨(m, k.idname, entryOf tr k), hmm, rfl⟩
    · obtain ⟨a, b, hab⟩ := ih (ki + 1) km hmem k hk hr
      exact ⟨a, b, List.mem_append.2 (Or.inr hab)⟩

theorem builtKmFrom_keysNodup (tr : LayoutTranslation) (items : List Kmi) :
    ∀ (acc : AList (List (KmiFingerprint × KmiAssignmentDiff))),
    (dkeys acc).Nodup → (dkeys (builtKmFrom tr acc items)).Nodup := by
  induction items with
  | nil => intro acc h; exact h
  | cons k rest ih =>
    intro acc h
    rw [builtKmFrom]
    by_cases hr : is_remappable_keymap_item k tr = true
    · rw [if_pos hr]
      exact ih _ (dset_nodup _ _ h)
    · rw [if_neg hr]
      exact ih _ h

theorem journalSpec_mem (tr : LayoutTranslation) :
    ∀ (kms : List KeyMap) (p : String × AList (List (KmiFingerprint × KmiAssignmentDiff))),
    p ∈ journalSpec tr kms →
    ∃ km ∈ kms, hasRemappable tr km.keymap_items = true ∧
      p = (keymap_id km, builtKmFrom tr [] km.keymap_items) := by
  intro kms
  induction kms with
  | nil => intro p hp; exact absurd hp (List.not_mem_nil p)
  | cons km rest ih =>
    intro p hp
    rw [journalSpec] at hp
    by_cases hR : hasRemappable tr km.keymap_items = true
    · rw [if_pos hR] at hp
      rcases List.mem_append.1 hp with h | h
      · rw [List.mem_singleton] at h
        exact ⟨km, List.mem_cons_self _ _, hR, h⟩
      · obtain ⟨km', hm', hh, he⟩ := ih p h
        exact ⟨km', List.mem_cons_of_mem _ hm', hh, he⟩
    · rw [if_neg hR, List.nil_append] at hp
      obtain ⟨km', hm', hh, he⟩ := ih p hp
      exact ⟨km', List.mem_cons_of_mem _ hm', hh, he⟩

theorem evolveItem_locked (tr : LayoutTranslation) (k : Kmi) :
    (evolveItem tr k).locked = k.locked := by
  rw [evolveItem]
  by_cases hr : is_remappable_keymap_item k tr = true
  · rw [if_pos hr]
  · rw [if_neg hr]

theorem getKmi_map_evolve (tr : LayoutTranslation) (kms : List KeyMap) (ki ii : Nat) :
    getKmi (kms.map (evolveKm tr)) ki ii = (getKmi kms ki ii).map (evolveItem tr) := by
  rw [getKmi, getKmi, List.get?_map]
  cases h : kms.get? ki with
  | none => rfl
  | some km =>
    show (km.keymap_items.map (evolveItem tr)).get? ii =
      (km.keymap_items.get? ii).map (evolveItem tr)
    rw [List.get?_map]

theorem kmiLockedAt_map_evolve (tr : LayoutTranslation) (kms : List KeyMap) (ki ii : Nat) :
    kmiLockedAt (kms.map (evolveKm tr)) ki ii = kmiLockedAt kms ki ii := by
  rw [kmiLockedAt, kmiLockedAt, getKmi_map_evolve]
  cases h : getKmi kms ki ii with
  | none => rfl
  | some kmi =>
    show (evolveItem tr kmi).locked = kmi.locked
    exact evolveItem_locked tr kmi

theorem remappable_gate {k : Kmi} {tr : LayoutTranslation}
    (hr : is_remappable_keymap_item k tr = true) :
    (k.map_type != "KEYBOARD" || (k.value != "PRESS" && k.value != "RELEASE")) = false := by
  rw [is_remappable_keymap_item] at hr
  by_cases hc : (k.map_type != "KEYBOARD" ||
      (k.value != "PRESS" && k.value != "RELEASE")) = true
  · rw [if_pos hc] at hr
    exact absurd hr Bool.false_ne_true
  · cases hq : (k.map_type != "KEYBOARD" || (k.value != "PRESS" && k.value != "RELEASE"))
    · rfl
    · exact absurd hq hc

/-- An item freshly remapped by Apply reads as currently remapped, provided
its written character reads back as the forward image. -/
theorem evolved_is_remapped {tr : LayoutTranslation} (hwf : ConstructedWF tr)
    (hval : tr.conflicting_keys = []) {k : Kmi}
    (hr : is_remappable_keymap_item k tr = true)
    (hcn : event_type_to_char (newTypeOf tr k) =
      tr.map_input_to_output (event_type_to_char k.type)) :
    is_remapped_keymap_item (evolveItem tr k) tr = true := by
  have hev : evolveItem tr k = { k with type := newTypeOf tr k } := by
    rw [evolveItem, if_pos hr]
  rw [is_remapped_keymap_item, hev]
  show (if k.map_type != "KEYBOARD" || (k.value != "PRESS" && k.value != "RELEASE") then false
    else tr.remapped_output_characters.contains (event_type_to_char (newTypeOf tr k))) = true
  rw [if_neg (by rw [remappable_gate hr]; exact Bool.false_ne_true)]
  rw [hcn]
  obtain ⟨v, hv⟩ := Option.isSome_iff_exists.1
    ((dget_isSome_iff_mem_keys tr.inOut (event_type_to_char k.type)).2
      (remappable_char_mem hr))
  rw [LayoutTranslation.map_input_to_output, dgetD, hv, Option.getD_some]
  have hcross := valid_cross hwf hval (event_type_to_char k.type, v) (dget_mem hv)
  exact List.elem_eq_true_of_mem (mem_keys_of_dget hcross)

/-- Setting an evolved item's event type back to its canonical source type
restores the original item. -/
theorem restore_item {tr : LayoutTranslation} {k : Kmi}
    (hct : is_remappable_keymap_item k tr = true →
      char_to_event_type (event_type_to_char k.type) = k.type) :
    (if is_remappable_keymap_item k tr then
      { evolveItem tr k with type := char_to_event_type (event_type_to_char k.type) }
     else evolveItem tr k) = k := by
  by_cases hp : is_remappable_keymap_item k tr = true
  · rw [if_pos hp, hct hp]
    have hev : evolveItem tr k = { k with type := newTypeOf tr k } := by
      rw [evolveItem, if_pos hp]
    rw [hev]
  · have hpf : is_remappable_keymap_item k tr = false := by
      cases hq : is_remappable_keymap_item k tr
      · rfl
      · exact absurd hq hp
    rw [if_neg (by rw [hpf]; exact Bool.false_ne_true)]
    exact evolveItem_of_neg hpf

/-- `remapped_keymap_items` over one evolved keymap reconciles exactly the
remappable items back to their own entries. -/
theorem remapped_items_km_spec (tr : LayoutTranslation)
    (B : AList (List (KmiFingerprint × KmiAssignmentDiff))) (todo : List Kmi)
    (h : ∀ k ∈ todo,
      (is_remappable_keymap_item k tr = true →
        is_remapped_keymap_item (evolveItem tr k) tr = true ∧
        ∃ per_op, dget B k.idname = some per_op ∧
          resolve_remapped_keymap_item (evolveItem tr k) per_op = some (entryOf tr k)) ∧
      (is_remappable_keymap_item k tr = false →
        is_remapped_keymap_item k tr = false)) :
    ∀ n, remapped_items_km tr B n (todo.map (evolveItem tr)) = revertsFrom tr n todo := by
  induction todo with
  | nil => intro n; rfl
  | cons k rest ih =>
    intro n
    rw [List.map_cons, remapped_items_km, revertsFrom]
    by_cases hr : is_remappable_keymap_item k tr = true
    · obtain ⟨hrm, per_op, h1, h2⟩ := (h k (List.mem_cons_self _ _)).1 hr
      have hid : (evolveItem tr k).idname = k.idname := by
        rw [evolveItem, if_pos hr]
      rw [if_pos hr]
      simp only [hrm, Bool.not_true, Bool.false_eq_true, if_false, hid, h1, h2]
      rw [ih (fun q hq => h q (List.mem_cons_of_mem _ hq)) (n + 1)]
    · have hrf : is_remappable_keymap_item k tr = false := by
        cases hq : is_remappable_keymap_item k tr
        · rfl
        · exact absurd hq hr
      have hnm := (h k (List.mem_cons_self _ _)).2 hrf
      rw [evolveItem_of_neg hrf]
      rw [if_pos (by rw [hnm]; rfl)]
      rw [if_neg (by rw [hrf]; exact Bool.false_ne_true)]
      exact ih (fun q hq => h q (List.mem_cons_of_mem _ hq)) (n + 1)

/-- Over the evolved keymaps, Revert's scan reconciles exactly the spec list. -/
theorem remapped_keymap_items_spec (tr : LayoutTranslation) (hwf : ConstructedWF tr)
    (hval : tr.conflicting_keys = []) (kms : List KeyMap)
    (hids : (kms.map keymap_id).Nodup)
    (hchars : ∀ km ∈ kms, ∀ kmi ∈ km.keymap_items,
      is_remappable_keymap_item kmi tr = true →
      ((km.keymap_items.filter (fun k => is_remappable_keymap_item k tr &&
          decide (k.idname = kmi.idname) &&
          decide (KmiFingerprint.from_kmi kmi = KmiFingerprint.from_kmi k))).map
        (fun k => event_type_to_char k.type)).Nodup)
    (hcanon : ∀ km ∈ kms, ∀ kmi ∈ km.keymap_items,
      is_remappable_keymap_item kmi tr = true →
      event_type_to_char (newTypeOf tr kmi) =
        tr.map_input_to_output (event_type_to_char kmi.type))
    (hnr : ∀ km ∈ kms, ∀ kmi ∈ km.keymap_items,
      is_remappable_keymap_item kmi tr = false →
      is_remapped_keymap_item kmi tr = false) :
    ∀ (todo : List KeyMap), (∀ km ∈ todo, km ∈ kms) → ∀ ki,
    remapped_keymap_items tr (journalSpec tr kms) ki (todo.map (evolveKm tr)) =
      revertsSpecFrom tr ki todo := by
  intro todo
  induction todo with
  | nil => intro _ ki; rfl
  | cons km rest ih =>
    intro htodo ki
    have hmem : km ∈ kms := htodo km (List.mem_cons_self _ _)
    rw [List.map_cons, remapped_keymap_items, revertsSpecFrom, keymap_id_evolveKm]
    rw [journalSpec_get tr kms km hmem hids]
    by_cases hR : hasRemappable tr km.keymap_items = true
    · rw [if_pos hR]
      show (remapped_items_km tr (builtKmFrom tr [] km.keymap_items) 0
          (km.keymap_items.map (evolveItem tr))).map
          (fun q => (ki, keymap_id km, q)) ++
        remapped_keymap_items tr (journalSpec tr kms) (ki + 1) (rest.map (evolveKm tr)) = _
      rw [remapped_items_km_spec tr (builtKmFrom tr [] km.keymap_items) km.keymap_items ?_ 0]
      · rw [ih (fun q hq => htodo q (List.mem_cons_of_mem _ hq)) (ki + 1)]
      · intro k hk
        constructor
        · intro hr
          refine ⟨evolved_is_remapped hwf hval hr (hcanon km hmem k hk hr),
            builtOp tr km.keymap_items k.idname, ?_, ?_⟩
          · rw [builtKmFrom_get]
            show (if builtOp tr km.keymap_items k.idname = [] then none
              else some (builtOp tr km.keymap_items k.idname)) =
              some (builtOp tr km.keymap_items k.idname)
            rw [if_neg (List.ne_nil_of_mem (builtOp_mem tr hk hr))]
          · exact resolve_after_apply tr km.keymap_items k hk hr
              (group_targets_nodup tr hwf hval km.keymap_items k
                (hchars km hmem k hk hr)
                (fun q hq hqr => hcanon km hmem q hq hqr))
        · intro hrf
          exact hnr km hmem k hk hrf
    · have hRf : hasRemappable tr km.keymap_items = false := by
        cases hq : hasRemappable tr km.keymap_items
        · rfl
        · exact absurd hq hR
      rw [if_neg hR]
      show ([] : List (Nat × String × Nat × String × KmiFingerprint × KmiAssignmentDiff)) ++
        remapped_keymap_items tr (journalSpec tr kms) (ki + 1) (rest.map (evolveKm tr)) = _
      rw [List.nil_append]
      rw [ih (fun q hq => htodo q (List.mem_cons_of_mem _ hq)) (ki + 1)]
      rw [revertsFrom_nil tr (hasRemappable_eq_false hRf) 0]
      rw [List.map_nil, List.nil_append]

/-- Revert's restoration fold is a positional cell application. -/
theorem revert_fold_as_applyCells (kms : List KeyMap)
    (processed : List (Nat × String × Nat × String × KmiFingerprint × KmiAssignmentDiff)) :
    processed.foldl
      (fun acc q => setKmiType acc q.1 q.2.2.1
        (char_to_event_type q.2.2.2.2.2.source_char)) kms =
    applyCells kms (processed.map
      (fun q => (q.1, q.2.2.1, char_to_event_type q.2.2.2.2.2.source_char))) := by
  rw [applyCells, List.foldl_map]

theorem revertsFrom_cells (tr : LayoutTranslation) :
    ∀ (items : List Kmi) (n : Nat),
    (revertsFrom tr n items).map
      (fun q => (q.1, char_to_event_type q.2.2.2.source_char)) =
    idxCells (fun k => is_remappable_keymap_item k tr)
      (fun k => char_to_event_type (event_type_to_char k.type)) n items := by
  intro items
  induction items with
  | nil => intro n; rfl
  | cons k rest ih =>
    intro n
    rw [revertsFrom, idxCells]
    by_cases hp : is_remappable_keymap_item k tr = true
    · rw [if_pos hp, if_pos hp, List.map_cons, ih]
      exact rfl
    · rw [if_neg hp, if_neg hp, ih]

theorem revertsSpec_cells (tr : LayoutTranslation) :
    ∀ (kms : List KeyMap) (ki : Nat),
    (revertsSpecFrom tr ki kms).map
      (fun q => (q.1, q.2.2.1, char_to_event_type q.2.2.2.2.2.source_char)) =
    kmIdxCells (fun k => is_remappable_keymap_item k tr)
      (fun k => char_to_event_type (event_type_to_char k.type)) ki kms := by
  intro kms
  induction kms with
  | nil => intro ki; rfl
  | cons km rest ih =>
    intro ki
    have hblock : ((revertsFrom tr 0 km.keymap_items).map
        (fun q => (ki, keymap_id km, q))).map
        (fun q => (q.1, q.2.2.1, char_to_event_type q.2.2.2.2.2.source_char)) =
        (idxCells (fun k => is_remappable_keymap_item k tr)
          (fun k => char_to_event_type (event_type_to_char k.type)) 0 km.keymap_items).map
          (fun q => (ki, q.1, q.2)) := by
      rw [List.map_map, ← revertsFrom_cells tr km.keymap_items 0, List.map_map]
      exact rfl
    rw [revertsSpecFrom, kmIdxCells, List.map_append, hblock, ih]

/-- Generic mutation-phase evaluation over transformed keymaps. -/
theorem applyCells_kmIdxCells (p : Kmi → Bool) (w : Kmi → String) (g : Kmi → Kmi) :
    ∀ (kms done : List KeyMap),
    applyCells (done ++ kms.map (fun km => { km with keymap_items := km.keymap_items.map g }))
      (kmIdxCells p w done.length kms) =
      done ++ kms.map (fun km => { km with keymap_items := km.keymap_items.map (fun k => if p k then { g k with type := w k } else g k) }) := by
  intro kms
  induction kms with
  | nil => intro done; rfl
  | cons km rest ih =>
    intro done
    rw [List.map_cons, kmIdxCells, applyCells_append, List.map_cons]
    rw [applyCells_block (idxCells p w 0 km.keymap_items) done
      ({ km with keymap_items := km.keymap_items.map g })
      (rest.map (fun km => { km with keymap_items := km.keymap_items.map g }))]
    rw [foldl_km_items]
    have hproj : ({ km with keymap_items := km.keymap_items.map g } : KeyMap).keymap_items =
        km.keymap_items.map g := rfl
    rw [hproj]
    have hitems : (idxCells p w 0 km.keymap_items).foldl
        (fun its q => setAt (fun kmi => { kmi with type := q.2 }) its q.1)
        (km.keymap_items.map g) =
        km.keymap_items.map (fun k => if p k then { g k with type := w k } else g k) := by
      have hx := idxCells_fold p w g km.keymap_items []
      rw [List.length_nil] at hx
      simp only [List.nil_append] at hx
      exact hx
    rw [hitems]
    have hkm2 : ({ { km with keymap_items := km.keymap_items.map g } with keymap_items := km.keymap_items.map (fun k => if p k then { g k with type := w k } else g k) } : KeyMap) = { km with keymap_items := km.keymap_items.map (fun k => if p k then { g k with type := w k } else g k) } := rfl
    rw [hkm2]
    have ihx := ih (done ++ [{ km with keymap_items := km.keymap_items.map (fun k => if p k then { g k with type := w k } else g k) }])
    rw [List.length_append, List.length_singleton] at ihx
    simp only [List.append_assoc, List.singleton_append] at ihx
    exact ihx

/-- Right after a fresh Apply, Revert's fold restores the original keymaps. -/
theorem revert_fold_restores (tr : LayoutTranslation) (kms : List KeyMap)
    (hct : ∀ km ∈ kms, ∀ k ∈ km.keymap_items, is_remappable_keymap_item k tr = true →
      char_to_event_type (event_type_to_char k.type) = k.type) :
    (revertsSpecFrom tr 0 kms).foldl
      (fun acc q => setKmiType acc q.1 q.2.2.1
        (char_to_event_type q.2.2.2.2.2.source_char)) (kms.map (evolveKm tr)) = kms := by
  rw [revert_fold_as_applyCells]
  rw [revertsSpec_cells tr kms 0]
  have hbase : kms.map (evolveKm tr) = kms.map (fun km =>
      { km with keymap_items := km.keymap_items.map (evolveItem tr) }) := rfl
  rw [hbase]
  have hx := applyCells_kmIdxCells (fun k => is_remappable_keymap_item k tr)
    (fun k => char_to_event_type (event_type_to_char k.type)) (evolveItem tr) kms []
  rw [List.length_nil] at hx
  simp only [List.nil_append] at hx
  rw [hx]
  have hpt : ∀ km ∈ kms,
      ({ km with keymap_items := km.keymap_items.map (fun k => if is_remappable_keymap_item k tr then { evolveItem tr k with type := char_to_event_type (event_type_to_char k.type) } else evolveItem tr k) } : KeyMap) = km := by
    intro km hkm
    have hitems : km.keymap_items.map (fun k => if is_remappable_keymap_item k tr then { evolveItem tr k with type := char_to_event_type (event_type_to_char k.type) } else evolveItem tr k) = km.keymap_items.map id :=
      List.map_eq_map_iff.mpr
        (fun k hk => restore_item (fun hp => hct km hkm k hk hp))
    rw [hitems, List.map_id]
  have hmapeq : kms.map (fun km => ({ km with keymap_items := km.keymap_items.map (fun k => if is_remappable_keymap_item k tr then { evolveItem tr k with type := char_to_event_type (event_type_to_char k.type) } else evolveItem tr k) } : KeyMap)) = kms.map id :=
    List.map_eq_map_iff.mpr (fun km hkm => hpt km hkm)
  rw [hmapeq, List.map_id]

/-- Every committed journal entry is reconciled by the Revert scan. -/
theorem all_items_processed (tr : LayoutTranslation) (kms : List KeyMap)
    (it : String × String × KmiFingerprint × KmiAssignmentDiff)
    (hit : it ∈ (journalSpec tr kms).flatMap
      (fun p => p.2.flatMap (fun q => q.2.map (fun e => (p.1, q.1, e))))) :
    it ∈ (revertsSpecFrom tr 0 kms).map (fun q => (q.2.1, q.2.2.2.1, q.2.2.2.2)) := by
  obtain ⟨p, hp, hit2⟩ := List.exists_of_mem_flatMap hit
  obtain ⟨km, hkm, hR, rfl⟩ := journalSpec_mem tr kms p hp
  obtain ⟨q, hq, hit3⟩ := List.exists_of_mem_flatMap hit2
  have hq2 : dget (builtKmFrom tr [] km.keymap_items) q.1 = some q.2 :=
    mem_dget_nodup hq (builtKmFrom_keysNodup tr km.keymap_items [] (by simp [dkeys]))
  rw [builtKmFrom_get] at hq2
  have hq3 : q.2 = builtOp tr km.keymap_items q.1 := by
    by_cases hbo : builtOp tr km.keymap_items q.1 = []
    · exfalso
      have h4 : (if builtOp tr km.keymap_items q.1 = [] then none
        else some (builtOp tr km.keymap_items q.1)) = some q.2 := hq2
      rw [if_pos hbo] at h4
      exact Option.noConfusion h4
    · have h4 : (if builtOp tr km.keymap_items q.1 = [] then none
        else some (builtOp tr km.keymap_items q.1)) = some q.2 := hq2
      rw [if_neg hbo] at h4
      exact (Option.some.inj h4).symm
  obtain ⟨e, he, rfl⟩ := List.mem_map.1 hit3
  rw [hq3, builtOp] at he
  obtain ⟨k, hkf, rfl⟩ := List.mem_map.1 he
  have hkf2 := List.mem_filter.1 hkf
  have hconj := hkf2.2
  simp only [Bool.and_eq_true] at hconj
  have hkr : is_remappable_keymap_item k tr = true := hconj.1
  have hkid : k.idname = q.1 := of_decide_eq_true hconj.2
  obtain ⟨a, b, hab⟩ := revertsSpec_mem tr kms 0 km hkm k hkf2.1 hkr
  refine List.mem_map.2 ⟨(a, keymap_id km, b, k.idname, entryOf tr k), hab, ?_⟩
  rw [hkid]

/-- No journal entry survives the processed-set subtraction. -/
theorem revert_unprocessed_nil (tr : LayoutTranslation) (kms : List KeyMap) :
    ((journalSpec tr kms).flatMap
      (fun p => p.2.flatMap (fun q => q.2.map (fun e => (p.1, q.1, e))))).filter
      (fun it => !(((revertsSpecFrom tr 0 kms).map
        (fun q => (q.2.1, q.2.2.2.1, q.2.2.2.2))).contains it)) = [] := by
  rw [List.filter_eq_nil]
  intro it hit
  have hc : ((revertsSpecFrom tr 0 kms).map
      (fun q => (q.2.1, q.2.2.2.1, q.2.2.2.2))).contains it = true :=
    List.elem_eq_true_of_mem (all_items_processed tr kms it hit)
  rw [hc]
  exact Bool.false_ne_true

/-- No processed cell is locked when no host item is locked. -/
theorem revert_guard_false (tr : LayoutTranslation) (kms : List KeyMap)
    (hunlock : ∀ km ∈ kms, ∀ kmi ∈ km.keymap_items, kmi.locked = false) :
    (revertsSpecFrom tr 0 kms).any
      (fun q => kmiLockedAt (kms.map (evolveKm tr)) q.1 q.2.2.1) = false := by
  rw [List.any_eq_false]
  intro q hq
  rw [kmiLockedAt_map_evolve, kmiLockedAt_false kms hunlock]
  exact Bool.false_ne_true

/-- C3 (corrected).  Revert right after a successful Apply **with the same
translation still active** restores every remapped binding and empties the
journal: under the same side conditions as the idempotence theorem plus
canonical event types, and with no unremapped binding sitting on a target
character, Revert succeeds, returns the original keymaps, and clears the
journal.  The original claim's "even when the active Translation has been
changed" part is false: Revert matches bindings through the *current*
translation, so changing it strands the remapped bindings while the journal
is still cleared (see the counterexample). -/
theorem C3_revert_restores (tr : LayoutTranslation) (hwf : ConstructedWF tr)
    (hval : tr.conflicting_keys = []) (kms : List KeyMap)
    (hids : (kms.map keymap_id).Nodup)
    (hunlock : ∀ km ∈ kms, ∀ kmi ∈ km.keymap_items, kmi.locked = false)
    (hchars : ∀ km ∈ kms, ∀ kmi ∈ km.keymap_items,
      is_remappable_keymap_item kmi tr = true →
      ((km.keymap_items.filter (fun k => is_remappable_keymap_item k tr &&
          decide (k.idname = kmi.idname) &&
          decide (KmiFingerprint.from_kmi kmi = KmiFingerprint.from_kmi k))).map
        (fun k => event_type_to_char k.type)).Nodup)
    (hcanon : ∀ km ∈ kms, ∀ kmi ∈ km.keymap_items,
      is_remappable_keymap_item kmi tr = true →
      event_type_to_char (newTypeOf tr kmi) =
        tr.map_input_to_output (event_type_to_char kmi.type))
    (hcanonT : ∀ km ∈ kms, ∀ kmi ∈ km.keymap_items,
      is_remappable_keymap_item kmi tr = true →
      char_to_event_type (event_type_to_char kmi.type) = kmi.type)
    (hnr : ∀ km ∈ kms, ∀ kmi ∈ km.keymap_items,
      is_remappable_keymap_item kmi tr = false →
      is_remapped_keymap_item kmi tr = false) :
    (reapply_keymap_translation tr false [] kms).success = true ∧
    revert_keymap_translation tr
        (reapply_keymap_translation tr false [] kms).journal
        (reapply_keymap_translation tr false [] kms).keymaps =
      some ⟨true, [], kms, (revertsSpecFrom tr 0 kms).length⟩ := by
  have hvalid : tr.is_valid = true := by
    rw [LayoutTranslation.is_valid, hval]
    rfl
  have h1 := apply_fresh_spec tr hvalid kms hids hunlock
  refine ⟨by rw [h1], ?_⟩
  rw [h1]
  show revert_keymap_translation tr (journalSpec tr kms) (kms.map (evolveKm tr)) = _
  have hproc := remapped_keymap_items_spec tr hwf hval kms hids hchars hcanon hnr kms
    (fun _ h => h) 0
  rw [revert_keymap_translation]
  simp only [hproc]
  rw [if_neg (by
    rw [revert_guard_false tr kms hunlock]
    exact Bool.false_ne_true)]
  rw [revert_fold_restores tr kms (fun km hm k hk hp => hcanonT km hm k hk hp)]
  rw [revert_unprocessed_nil tr kms]
  rfl

/-- C3 witness: the swap `A <-> Q` applied to one keymap holding one unlocked
`A` binding, then reverted with the same translation. -/
theorem C3_revert_restores_witness :
    (reapply_keymap_translation (mkFromForward [("A", "Q"), ("Q", "A")]) false []
      [⟨false, "EMPTY", "WINDOW", "Window",
        [⟨"op.a", "KEYBOARD", "PRESS", "A", none, "NONE", true,
          0, 0, 0, 0, 0, "NONE", false, false⟩]⟩]).success = true ∧
    revert_keymap_translation (mkFromForward [("A", "Q"), ("Q", "A")])
        (reapply_keymap_translation (mkFromForward [("A", "Q"), ("Q", "A")]) false []
          [⟨false, "EMPTY", "WINDOW", "Window",
            [⟨"op.a", "KEYBOARD", "PRESS", "A", none, "NONE", true,
              0, 0, 0, 0, 0, "NONE", false, false⟩]⟩]).journal
        (reapply_keymap_translation (mkFromForward [("A", "Q"), ("Q", "A")]) false []
          [⟨false, "EMPTY", "WINDOW", "Window",
            [⟨"op.a", "KEYBOARD", "PRESS", "A", none, "NONE", true,
              0, 0, 0, 0, 0, "NONE", false, false⟩]⟩]).keymaps =
      some ⟨true, [],
        [⟨false, "EMPTY", "WINDOW", "Window",
          [⟨"op.a", "KEYBOARD", "PRESS", "A", none, "NONE", true,
            0, 0, 0, 0, 0, "NONE", false, false⟩]⟩],
        (revertsSpecFrom (mkFromForward [("A", "Q"), ("Q", "A")]) 0
          [⟨false, "EMPTY", "WINDOW", "Window",
            [⟨"op.a", "KEYBOARD", "PRESS", "A", none, "NONE", true,
              0, 0, 0, 0, 0, "NONE", false, false⟩]⟩]).length⟩ :=
  C3_revert_restores (mkFromForward [("A", "Q"), ("Q", "A")])
    (Or.inl ⟨[("A", "Q"), ("Q", "A")], by decide, rfl⟩) (by decide)
    [⟨false, "EMPTY", "WINDOW", "Window",
      [⟨"op.a", "KEYBOARD", "PRESS", "A", none, "NONE", true,
        0, 0, 0, 0, 0, "NONE", false, false⟩]⟩]
    (by decide) (by decide) (by decide) (by decide) (by decide) (by decide)

/-- C3 counterexample.  Apply the swap `A <-> Q`, then change the active
translation to the identity before reverting: Revert finds nothing to match,
reports failure, leaves the binding remapped at `Q` — and still clears the
journal.  The "even if the Translation is later changed" part of the claim is
false. -/
theorem C3_counterexample :
    (reapply_keymap_translation (mkFromForward [("A", "Q"), ("Q", "A")]) false []
      [⟨false, "EMPTY", "WINDOW", "Window",
        [⟨"op.a", "KEYBOARD", "PRESS", "A", none, "NONE", true,
          0, 0, 0, 0, 0, "NONE", false, false⟩]⟩]).success = true ∧
    revert_keymap_translation (mkExplicit [] [])
        (reapply_keymap_translation (mkFromForward [("A", "Q"), ("Q", "A")]) false []
          [⟨false, "EMPTY", "WINDOW", "Window",
            [⟨"op.a", "KEYBOARD", "PRESS", "A", none, "NONE", true,
              0, 0, 0, 0, 0, "NONE", false, false⟩]⟩]).journal
        (reapply_keymap_translation (mkFromForward [("A", "Q"), ("Q", "A")]) false []
          [⟨false, "EMPTY", "WINDOW", "Window",
            [⟨"op.a", "KEYBOARD", "PRESS", "A", none, "NONE", true,
              0, 0, 0, 0, 0, "NONE", false, false⟩]⟩]).keymaps =
      some ⟨false, [],
        (reapply_keymap_translation (mkFromForward [("A", "Q"), ("Q", "A")]) false []
          [⟨false, "EMPTY", "WINDOW", "Window",
            [⟨"op.a", "KEYBOARD", "PRESS", "A", none, "NONE", true,
              0, 0, 0, 0, 0, "NONE", false, false⟩]⟩]).keymaps, 0⟩ ∧
    ¬ (reapply_keymap_translation (mkFromForward [("A", "Q"), ("Q", "A")]) false []
      [⟨false, "EMPTY", "WINDOW", "Window",
        [⟨"op.a", "KEYBOARD", "PRESS", "A", none, "NONE", true,
          0, 0, 0, 0, 0, "NONE", false, false⟩]⟩]).keymaps =
      [⟨false, "EMPTY", "WINDOW", "Window",
        [⟨"op.a", "KEYBOARD", "PRESS", "A", none, "NONE", true,
          0, 0, 0, 0, 0, "NONE", false, false⟩]⟩] := by
  refine ⟨by decide, by decide, by decide⟩

end KLE
